import Mathlib

/-!
# Wazuh database synchronisation module (`src/wazuh_modules/wm_database.c`)

A shallow embedding of the module's path coalescer (`wm_inotify_push`,
`wm_inotify_pop`) and of its reconciliation routines (`sync_keys_with_wdb`,
`wm_sync_agents`, `wm_sync_shared_group`, `wm_sync_group_file`,
`wm_sync_legacy_groups_files`), of its cleanup sweeps, of the two loops of
`wm_database_main` and of the notification reader (`wm_inotify_setup`,
`wm_inotify_start`), followed by the properties proved about them.

C strings are Lean strings, C `int`s are `Int`, and the process-wide variables
of the module (queue, pending table, socket, role flag) are fields of explicit
state records that each routine takes and returns.
-/

namespace WmDatabase

/-! ## Path coalescer -/

/-- The platform constant `PATH_MAX` of `<limits.h>` (Linux value). -/
def PATH_MAX : Nat := 4096

/-- Modelled from the spec: the bounded FIFO `w_queue_t` of the shared queue
library (`queue_init`, `queue_full`, `queue_empty`, `queue_push`, `queue_pop`),
which the module only calls. `data` holds the queued paths, oldest first, and
`size` is the configured capacity. -/
structure w_queue_t where
  size : Nat
  data : List String
deriving DecidableEq, Repr

/-- Modelled from the spec: `queue_init(n)` gives an empty queue of capacity `n`. -/
def queue_init (n : Nat) : w_queue_t := ⟨n, []⟩

/-- Modelled from the spec: `queue_full` holds when the queue is at its configured capacity. -/
def queue_full (q : w_queue_t) : Bool := decide (q.size ≤ q.data.length)

/-- Modelled from the spec: `queue_empty` holds when nothing is queued. -/
def queue_empty (q : w_queue_t) : Bool := q.data.isEmpty

/-- Modelled from the spec: `queue_push` appends at the FIFO tail and returns `0`,
or returns `-1` and leaves the queue alone when it is full. -/
def queue_push (q : w_queue_t) (x : String) : Int × w_queue_t :=
  if queue_full q then (-1, q) else (0, { q with data := q.data ++ [x] })

/-- Modelled from the spec: `queue_pop` removes and returns the FIFO head
(`NULL`, here `none`, on an empty queue). -/
def queue_pop (q : w_queue_t) : Option String × w_queue_t :=
  match q.data with
  | [] => (none, q)
  | x :: xs => (some x, { q with data := xs })

/-- Modelled from the spec: the pending table `OSHash` of the shared hash
library. Every stored value is the constant `(void *)1`, so the table is the
list of its keys. -/
abbrev OSHash := List String

/-- Modelled from the spec: `OSHash_Create`. -/
def OSHash_Create : OSHash := []

/-- Modelled from the spec: `OSHash_Add` returns `1` when the key is already in
the table and `2` when it has been added (`0`, the allocation failure, is not
produced by this model). -/
def OSHash_Add (t : OSHash) (key : String) : Int × OSHash :=
  if key ∈ t then (1, t) else (2, key :: t)

/-- Modelled from the spec: `OSHash_Delete` removes the key and returns its
value, or returns `NULL` (`none`) when the key is not in the table. -/
def OSHash_Delete (t : OSHash) (key : String) : Option Nat × OSHash :=
  if key ∈ t then (some 1, t.erase key) else (none, t)

/-- The static variables `queue` and `ptable` guarded by `mutex_queue`. -/
structure Coalescer where
  queue : w_queue_t
  ptable : OSHash
deriving DecidableEq, Repr

/-- The structure as `wm_inotify_setup` creates it: `OSHash_Create()` and
`queue_init(max_queued_events > 0 ? max_queued_events : 16384)`. -/
def coalescer_init (max_queued_events : Int) : Coalescer :=
  { queue := queue_init (if max_queued_events > 0 then max_queued_events.toNat else 16384),
    ptable := OSHash_Create }

/-- The key that `snprintf(path, sizeof(path), "%s/%s", dirname, fname)` builds. -/
def inotify_path (dirname fname : String) : String := dirname ++ "/" ++ fname

/-- The routine `wm_inotify_push`: the critical section between
`w_mutex_lock` and `w_mutex_unlock`, as a function of the guarded state. -/
def wm_inotify_push (dirname fname : String) (s : Coalescer) : Coalescer :=
  let path := inotify_path dirname fname
  if path.utf8ByteSize ≥ PATH_MAX + 1 then
    s                                   -- "Path too long": return before locking
  else if queue_full s.queue then
    s                                   -- "Internal queue is full": goto end
  else
    match OSHash_Add s.ptable path with
    | (2, t) =>
      match queue_push s.queue path with
      | (r, q) =>
        if r < 0 then { queue := s.queue, ptable := t }   -- "Couldn't insert key into queue"
        else { queue := q, ptable := t }
    | (_, t) => { s with ptable := t }  -- cases 0 and 1: nothing is queued

/-- The routine `wm_inotify_pop`. `none` stands for the call that waits on
`cond_pending` because the queue is empty; otherwise the popped path and the
new state are returned. -/
def wm_inotify_pop (s : Coalescer) : Option (String × Coalescer) :=
  if queue_empty s.queue then none
  else
    match queue_pop s.queue with
    | (some path, q) => some (path, { queue := q, ptable := (OSHash_Delete s.ptable path).2 })
    | (none, _) => none

/-- An operation on the coalescer, as issued by the producer or the consumer. -/
inductive CoalescerOp where
  | push (dirname fname : String)
  | pop
deriving DecidableEq, Repr

/-- One operation applied to the state, with the path it returned, if any.
A pop on an empty queue does not complete: it returns nothing and changes nothing. -/
def coalescer_step (s : Coalescer) : CoalescerOp → Coalescer × Option String
  | .push d f => (wm_inotify_push d f s, none)
  | .pop =>
    match wm_inotify_pop s with
    | some (p, t) => (t, some p)
    | none => (s, none)

/-- A sequence of operations run from a state: the final state and the popped
paths, in order. -/
def coalescer_run (s : Coalescer) : List CoalescerOp → Coalescer × List String
  | [] => (s, [])
  | op :: ops =>
    let r := coalescer_step s op
    let rest := coalescer_run r.1 ops
    (rest.1, r.2.toList ++ rest.2)

/-- The consumer loop taken `n` times: each turn pops one path, and the loop
stops early at a pop that would wait. -/
def coalescer_drain : Nat → Coalescer → List String × Coalescer
  | 0, s => ([], s)
  | n + 1, s =>
    match wm_inotify_pop s with
    | none => ([], s)
    | some (p, t) => let r := coalescer_drain n t; (p :: r.1, r.2)

/-- Reference function of the FIFO-with-coalescing property, following the
spec's words: a sequence with every later duplicate removed, in order of first
occurrence. -/
def first_occurrences : List String → List String
  | [] => []
  | x :: xs => x :: (first_occurrences xs).filter (fun y => y ≠ x)

/-- The coalescer invariant: no path is queued twice, no key is in the pending
table twice, and the table holds exactly the queued paths. -/
def CoalescerInv (s : Coalescer) : Prop :=
  s.queue.data.Nodup ∧ s.ptable.Nodup ∧ ∀ k, k ∈ s.ptable ↔ k ∈ s.queue.data

/-! ## Strings and numbers of the C library -/

/-- The `isspace` test of the C locale: space and the controls `\t` to `\r`. -/
def isspace (c : Char) : Bool := c = ' ' ∨ (9 ≤ c.toNat ∧ c.toNat ≤ 13)

/-- The digit loop of `atoi`: the decimal value of the leading digits, from an
accumulator. -/
def atoi_digits : Nat → List Char → Nat
  | acc, [] => acc
  | acc, c :: cs => if c.isDigit then atoi_digits (acc * 10 + (c.toNat - 48)) cs else acc

/-- The conversion of a `long` to `int` on the supported platforms: the value
modulo 2^32, read as a signed 32-bit number. -/
def int_of_long (x : Int) : Int := (x + 2 ^ 31) % 2 ^ 32 - 2 ^ 31

/-- The C library `strtol(s, NULL, 10)`: leading white space, an optional sign,
then the leading decimal digits; `0` when there is none, and a value out of
the range of `long` is clamped to `LONG_MIN` or `LONG_MAX`. -/
def strtol (s : String) : Int :=
  match s.toList.dropWhile isspace with
  | '-' :: cs => max (- (atoi_digits 0 cs : Int)) (-(2 ^ 63))
  | '+' :: cs => min (atoi_digits 0 cs : Int) (2 ^ 63 - 1)
  | cs => min (atoi_digits 0 cs : Int) (2 ^ 63 - 1)

/-- The C library `atoi`, as the C library of the platform computes it:
`(int) strtol(s, NULL, 10)`. A number beyond the range of `int` wraps around:
`4294967301` gives 5 and `2147483648` gives a negative value. -/
def atoi (s : String) : Int := int_of_long (strtol s)

/-- The conversion `"%03d"` of `printf`: decimal digits, zero-padded to a
field of three characters, the sign taking one of them. -/
def fmt_03d (n : Int) : List Char :=
  if n < 0 then '-' :: (List.replicate (2 - (Nat.toDigits 10 n.natAbs).length) '0'
                          ++ Nat.toDigits 10 n.natAbs)
  else List.replicate (3 - (Nat.toDigits 10 n.natAbs).length) '0' ++ Nat.toDigits 10 n.natAbs

/-- The buffer after `snprintf(id, 9, "%03d", agents[i])`: at most eight characters. -/
def snprintf_id (n : Int) : String := String.mk ((fmt_03d n).take 8)

/-- The status codes `OS_SUCCESS` and `OS_INVALID` of the shared headers. -/
def OS_SUCCESS : Int := 0

/-- See `OS_SUCCESS`. -/
def OS_INVALID : Int := -1

/-- The buffer size `OS_SIZE_65536` of the shared headers. -/
def OS_SIZE_65536 : Nat := 65536

/-- What `fgets` stores from a stream when it may store `k` bytes: the text up
to and including the first newline, as far as `k` bytes reach. A text stands
for its UTF-8 bytes, so a character takes `utf8Size` bytes; a character that
the room left cannot hold whole ends the read (the C routine would store its
first bytes). -/
def fgets_read : Nat → List Char → List Char
  | _, [] => []
  | k, c :: cs =>
    if c.utf8Size ≤ k then
      if c = '\n' then [c] else c :: fgets_read (k - c.utf8Size) cs
    else []

/-- The C string that a buffer holds: the bytes before the first NUL. -/
def c_str (buf : List Char) : List Char := buf.takeWhile (fun c => c ≠ '\x00')

/-- The C library `fgets(buf, n, fp)` on a freshly opened stream: `NULL`
(`none`) at end of file, otherwise at most `n - 1` bytes of the first line. -/
def fgets (n : Nat) (stream : List Char) : Option (List Char) :=
  match stream with
  | [] => none
  | _ => some (fgets_read (n - 1) stream)

/-! ## The environment: keystore, Wazuh DB and the file system -/

/-- One `keyentry` of the keystore read from `client.keys`. `cidr` is the text
that `OS_CIDRtoStr(entry->ip, cidr, 20)` writes when it returns `0`, and `none`
when it fails. -/
structure keyentry where
  id : String
  name : String
  ip : String
  cidr : Option String
  raw_key : String
deriving DecidableEq, Repr

/-- The `keystore`: the entries `keyentries[0 .. keysize)`. -/
abbrev keystore := List keyentry

/-- The search of `OS_IsAllowedID`, counting positions from `i`. -/
def key_index : keystore → String → Nat → Int
  | [], _, _ => -1
  | e :: es, id, i => if e.id = id then (i : Int) else key_index es id (i + 1)

/-- Modelled from the spec: `OS_IsAllowedID` of the key library, the position
of the keystore entry whose id string is `id`, or `-1` when no entry matches. -/
def OS_IsAllowedID (keys : keystore) (id : String) : Int := key_index keys id 0

/-- A row of the agent table of `global.db`. -/
structure AgentRecord where
  id : Int
  name : String
  ip : String
  key : String
  group : Option String
deriving DecidableEq, Repr

/-- A group assignment held by the store for an agent. -/
structure GroupAssignment where
  id : Int
  csv : String
  status : String
  origin : String
deriving DecidableEq, Repr

/-- A file of the legacy directory `GROUPS_DIR`: its `d_name` and its content,
`none` when the file cannot be opened for reading. -/
structure GroupFile where
  name : String
  content : Option String
deriving DecidableEq, Repr

/-- A call that leaves the module: a request to Wazuh DB, to the key library
or to the file system. -/
inductive Event where
  | read_keys
  | get_agent_group (id : Int)
  | insert_agent (id : Int) (name ip key : String) (group : Option String)
  | get_all_agents
  | get_agent_name (id : Int)
  | remove_agent (id : Int)
  | wdb_query (query : String)
  | remove_counter (id : String)
  | remove_timestamp (id : String)
  | delete_diff (name : String)
  | remove_group (name : String)
  | find_group (name : String)
  | insert_group (name : String)
  | set_agent_groups (id : Int) (csv mode status origin : String)
  | unlink_group_file (name : String)
  | rmdir_groups_dir
  | stat_keys
  | update_groups (dirname : String)
  | opendir (dirname : String)
  | cldir_legacy_dbs
  | remove_wdb_file (name : String)
deriving DecidableEq, Repr

/-- A request addressed to the store (Wazuh DB), be it a query or a mutation. -/
def Event.is_store : Event → Bool
  | .get_agent_group _ | .insert_agent .. | .get_all_agents | .get_agent_name _
  | .remove_agent _ | .wdb_query _ | .remove_group _ | .find_group _
  | .insert_group _ | .set_agent_groups .. | .update_groups _ => true
  | _ => false

/-- A request that changes the store. -/
def Event.is_mutation : Event → Bool
  | .insert_agent .. | .remove_agent _ | .wdb_query _ | .remove_group _
  | .insert_group _ | .set_agent_groups .. | .update_groups _ => true
  | _ => false

/-- The upsert `wdb_insert_agent`. -/
def Event.is_upsert : Event → Bool
  | .insert_agent .. => true
  | _ => false

/-- The delete `wdb_remove_agent`. -/
def Event.is_delete : Event → Bool
  | .remove_agent _ => true
  | _ => false

/-- Everything outside the module that its reconciliation routines read or
change: the role flag `is_worker`, the parsed `client.keys`, the store, the
agent artifacts, the two group directories, the requests the store rejects,
the log of the calls made so far (oldest first), the files of `WDB2_DIR`
(`none` when it cannot be opened), the content of the legacy database
directory, what `stat(KEYS_FILE)` returns (modification time and inode,
`none` when it fails), whether the listing of the agent ids fails, and the
agents whose `wazuhdb remove` request fails. -/
structure World where
  is_worker : Bool
  client_keys : keystore
  agents : List AgentRecord
  assignments : List GroupAssignment
  groups : List String
  agent_dbs : List String
  counters : List String
  timestamps : List String
  diffs : List String
  shared_dirs : List String
  groups_dir : Option (List GroupFile)
  remove_agent_fails : List Int
  agent_name_fails : List Int
  set_groups_fails : List Int
  trace : List Event
  wdb_dir : Option (List String)
  legacy_dbs : List String
  keys_stat : Option (Int × Int)
  get_all_agents_fails : Bool
  query_remove_fails : List String
deriving DecidableEq, Repr

/-- Append a call to the log. -/
def World.log (w : World) (e : Event) : World := { w with trace := w.trace ++ [e] }

/-- Modelled from the spec: `OS_ReadKeys` (after `OS_PassEmptyKeyfile`), which
reads the credential store wholesale. -/
def OS_ReadKeys (w : World) : keystore × World := (w.client_keys, w.log .read_keys)

/-- Modelled from the spec: `get_agent_group`, the lookup of the pre-existing
group assignment of an agent; a negative status when there is none. -/
def get_agent_group (id : Int) (w : World) : (Int × String) × World :=
  match w.assignments.find? (fun a => a.id = id) with
  | some a => ((0, a.csv), w.log (.get_agent_group id))
  | none => ((-1, ""), w.log (.get_agent_group id))

/-- Modelled from the spec: `wdb_insert_agent`, the store's
`upsert_agent(id, name, address, credential, group) -> existed`. A record with
the same id is replaced in place and the call returns non-zero; otherwise the
record is added and the call returns `0`. -/
def wdb_insert_agent (id : Int) (name ip key : String) (group : Option String) (w : World) :
    Int × World :=
  let r : AgentRecord := ⟨id, name, ip, key, group⟩
  if w.agents.any (fun a => a.id = id) then
    (1, { w with agents := w.agents.map (fun a => if a.id = id then r else a),
                 trace := w.trace ++ [.insert_agent id name ip key group] })
  else
    (0, { w with agents := w.agents ++ [r],
                 trace := w.trace ++ [.insert_agent id name ip key group] })

/-- Modelled from the spec: `wdb_get_all_agents`, the store's
`list_agent_ids() -> sequence<id>`; the C array ends with `-1`, and the call
returns `NULL` (`none`) when the request fails. The spec gives no meaning to
the flag that the module passes (`FALSE`). -/
def wdb_get_all_agents (_include_manager : Bool) (w : World) : Option (List Int) × World :=
  if w.get_all_agents_fails then (none, w.log .get_all_agents)
  else (some (w.agents.map (fun a => a.id)), w.log .get_all_agents)

/-- Modelled from the spec: `wdb_get_agent_name`, the store's
`get_agent_name(id) -> Option<string>`: `none` when the query fails, the empty
string when the agent row is absent. -/
def wdb_get_agent_name (id : Int) (w : World) : Option String × World :=
  if id ∈ w.agent_name_fails then (none, w.log (.get_agent_name id))
  else
    match w.agents.find? (fun a => a.id = id) with
    | some a => (some a.name, w.log (.get_agent_name id))
    | none => (some "", w.log (.get_agent_name id))

/-- Modelled from the spec: `wdb_remove_agent`, the store's
`delete_agent(id) -> status`: negative when the store rejects the request. -/
def wdb_remove_agent (id : Int) (w : World) : Int × World :=
  if id ∈ w.remove_agent_fails then (-1, w.log (.remove_agent id))
  else (0, { w with agents := w.agents.filter (fun a => a.id ≠ id),
                    trace := w.trace ++ [.remove_agent id] })

/-- Modelled from the spec: the request `wazuhdb remove <id>` sent with
`wdbc_query_ex`, which deletes the dedicated database of the agent and returns
`0`; when the request fails the status is not `0` and the database stays. -/
def wdbc_query_remove (id : String) (w : World) : Int × World :=
  (if id ∈ w.query_remove_fails then -1 else 0,
   { w with agent_dbs := if id ∈ w.query_remove_fails then w.agent_dbs
                         else w.agent_dbs.filter (fun x => x ≠ id),
            trace := w.trace ++ [.wdb_query ("wazuhdb remove " ++ id)] })

/-- Modelled from the spec: `OS_RemoveCounter`, which deletes the counter
side-file of an agent. -/
def OS_RemoveCounter (id : String) (w : World) : World :=
  { w with counters := w.counters.filter (fun x => x ≠ id),
           trace := w.trace ++ [.remove_counter id] }

/-- Modelled from the spec: `OS_RemoveAgentTimestamp`, which deletes the
timestamp side-file of an agent. -/
def OS_RemoveAgentTimestamp (id : String) (w : World) : World :=
  { w with timestamps := w.timestamps.filter (fun x => x ≠ id),
           trace := w.trace ++ [.remove_timestamp id] }

/-- Modelled from the spec: `delete_diff`, which deletes the change-diff
snapshot directory kept under the agent's name. -/
def delete_diff (name : String) (w : World) : World :=
  { w with diffs := w.diffs.filter (fun x => x ≠ name),
           trace := w.trace ++ [.delete_diff name] }

/-- Modelled from the spec: `wdb_find_group`, the store's `group_exists(name)`. -/
def wdb_find_group (name : String) (w : World) : Int × World :=
  (if name ∈ w.groups then 1 else 0, w.log (.find_group name))

/-- Modelled from the spec: `wdb_insert_group`, the store's `insert_group(name)`. -/
def wdb_insert_group (name : String) (w : World) : World :=
  { w with groups := if name ∈ w.groups then w.groups else w.groups ++ [name],
           trace := w.trace ++ [.insert_group name] }

/-- Modelled from the spec: `wdb_remove_group_db`, the store's `delete_group(name)`. -/
def wdb_remove_group_db (name : String) (w : World) : World :=
  { w with groups := w.groups.filter (fun x => x ≠ name),
           trace := w.trace ++ [.remove_group name] }

/-- Modelled from the spec: `wdb_set_agent_groups_csv`, the store's
`set_group_assignment(id, csv, mode, status, origin) -> status`. In mode
`override` the assignment replaces any assignment the agent had. -/
def wdb_set_agent_groups_csv (id : Int) (csv mode status origin : String) (w : World) :
    Int × World :=
  if id ∈ w.set_groups_fails then
    (OS_INVALID, w.log (.set_agent_groups id csv mode status origin))
  else
    (OS_SUCCESS,
     { w with assignments := w.assignments.filter (fun a => a.id ≠ id) ++ [⟨id, csv, status, origin⟩],
              trace := w.trace ++ [.set_agent_groups id csv mode status origin] })

/-- The test `opendir(SHAREDCFG_DIR "/" fname)` of `wm_sync_shared_group`. -/
def opendir_shared (fname : String) (w : World) : Bool := decide (fname ∈ w.shared_dirs)

/-- The call `fopen(group_file_path, "r")`: the content of the file of that
name in `GROUPS_DIR`, `none` when it cannot be opened. -/
def fopen_group_file (group_file : String) (w : World) : Option (List Char) :=
  match w.groups_dir with
  | none => none
  | some entries =>
    match entries.find? (fun e => e.name = group_file) with
    | some e => e.content.map String.toList
    | none => none

/-- The call `unlink(group_file_path)` on a file of `GROUPS_DIR`. -/
def unlink_group_file (group_file : String) (w : World) : World :=
  { w with groups_dir := w.groups_dir.map (fun es => es.filter (fun e => e.name ≠ group_file)),
           trace := w.trace ++ [.unlink_group_file group_file] }

/-- The call `rmdir(GROUPS_DIR)`: it removes the directory only when nothing
is left in it. -/
def rmdir_groups_dir (w : World) : World :=
  { w with groups_dir := (match w.groups_dir with
                          | some [] => none
                          | other => other),
           trace := w.trace ++ [.rmdir_groups_dir] }

/-! ## Reconciliation routines -/

/-- The body of the first loop of `sync_keys_with_wdb`, for one keystore entry. -/
def sync_insert_entry (w : World) (entry : keyentry) : World :=
  let id := atoi entry.id
  if id = 0 then
    w                                       -- "invalid ID number": continue
  else
    let g := get_agent_group (atoi entry.id) w
    let group := if g.1.1 < 0 then "" else g.1.2
    (wdb_insert_agent id entry.name
      (match entry.cidr with
       | none => entry.ip
       | some cidr => cidr)
      entry.raw_key (if group = "" then none else some group) g.2).2

/-- The body of the second loop of `sync_keys_with_wdb`, for one agent id of
the store. -/
def sync_delete_agent (keys : keystore) (w : World) (agent : Int) : World :=
  let id := snprintf_id agent
  if OS_IsAllowedID keys id = -1 then
    let n := wdb_get_agent_name agent w
    let r := wdb_remove_agent agent n.2
    if r.1 < 0 then
      r.2                                   -- "Couldn't remove agent": continue
    else
      let q := wdbc_query_remove id r.2
      let w1 := OS_RemoveAgentTimestamp id (OS_RemoveCounter id q.2)
      match n.1 with
      | none => w1
      | some name => if name = "" then w1 else delete_diff name w1
  else w

/-- The routine `sync_keys_with_wdb`: first every keystore entry is upserted,
then the agents of the store without a key are deleted. The second loop runs
over the array returned by the store up to its terminator `-1`, and not at all
when the store returns `NULL`. -/
def sync_keys_with_wdb (keys : keystore) (w : World) : World :=
  let w1 := keys.foldl sync_insert_entry w
  match wdb_get_all_agents false w1 with
  | (some agents, w2) => (agents.takeWhile (fun a => a ≠ -1)).foldl (sync_delete_agent keys) w2
  | (none, w2) => w2

/-- The routine `wm_sync_agents`. -/
def wm_sync_agents (master_first_time : Bool) (w : World) : World :=
  if w.is_worker || (!w.is_worker && master_first_time) then
    let k := OS_ReadKeys w
    sync_keys_with_wdb k.1 k.2
  else w

/-- The routine `wm_sync_shared_group`. -/
def wm_sync_shared_group (fname : String) (w : World) : Int × World :=
  if !opendir_shared fname w then
    (0, wdb_remove_group_db fname w)        -- the group was deleted
  else
    let r := wdb_find_group fname w
    if r.1 ≤ 0 then (0, wdb_insert_group fname r.2) else (0, r.2)

/-- The routine `wm_sync_group_file`. -/
def wm_sync_group_file (group_file : String) (w : World) : Int × World :=
  let id_agent := atoi group_file
  if id_agent ≤ 0 then
    (OS_INVALID, w)
  else
    match fopen_group_file group_file w with
    | none => (OS_INVALID, w)
    | some fp =>
      match fgets OS_SIZE_65536 fp with
      | some groups_csv =>
        wdb_set_agent_groups_csv id_agent
          (String.mk ((c_str groups_csv).takeWhile (fun c => c ≠ '\n')))
          "override" "synced" "local" w
      | none => (OS_SUCCESS, w)             -- "Empty group file"

/-- The test `dir_entry->d_name[0] != '.'`. -/
def not_hidden (d_name : String) : Bool := d_name.toList.head? ≠ some '.'

/-- The body of the `readdir` loop of `wm_sync_legacy_groups_files`. -/
def sync_legacy_entry (w : World) (dir_entry : GroupFile) : World :=
  if not_hidden dir_entry.name then
    if w.is_worker then
      unlink_group_file dir_entry.name w
    else
      let r := wm_sync_group_file dir_entry.name w
      if OS_SUCCESS = r.1 then unlink_group_file dir_entry.name r.2 else r.2
  else w

/-- The routine `wm_sync_legacy_groups_files`. The loop runs over the entries
that `readdir` returns; `is_dir_empty` stays true when none of them is visible. -/
def wm_sync_legacy_groups_files (w : World) : World :=
  match w.groups_dir with
  | none => w                               -- "Couldn't open directory"
  | some entries =>
    let w1 := entries.foldl sync_legacy_entry w
    let is_dir_empty := entries.all (fun e => !not_hidden e.name)
    if is_dir_empty then rmdir_groups_dir w1 else w1

/-- The ids of the agent records of the store. -/
def World.ids (w : World) : List Int := w.agents.map (fun a => a.id)

/-- The condition under which the second loop of `sync_keys_with_wdb` deletes
the agent `a`: no keystore entry has the id string `"%03d"` of `a`, and the
store accepts the delete. -/
def deletes (keys : keystore) (w : World) (a : Int) : Prop :=
  OS_IsAllowedID keys (snprintf_id a) = -1 ∧ a ∉ w.remove_agent_fails

/-- A master node with an empty keystore, an empty store, no artifact, an
existing empty legacy directory, a store that accepts and answers every
request, and an empty log. -/
def World.quiet : World :=
  { is_worker := false, client_keys := [], agents := [], assignments := [], groups := [],
    agent_dbs := [], counters := [], timestamps := [], diffs := [], shared_dirs := [],
    groups_dir := some [], remove_agent_fails := [], agent_name_fails := [],
    set_groups_fails := [], trace := [], wdb_dir := some [], legacy_dbs := [],
    keys_stat := none, get_all_agents_fails := false, query_remove_fails := [] }

/-- The files currently in `GROUPS_DIR` (none when the directory is missing). -/
def World.dir_entries (w : World) : List GroupFile := w.groups_dir.getD []

/-- Reference function for the legacy group files, following the spec's words:
the file's first line, with the trailing newline stripped. -/
def first_line (content : String) : List Char := content.toList.takeWhile (fun c => c ≠ '\n')

/-- A sample master: the shared directory holds `web` and `db`, the store knows
the groups `web` and `old`. -/
def sample_groups_world : World :=
  { World.quiet with shared_dirs := ["web", "db"], groups := ["web", "old"] }

/-- What `wm_sync_group_file` hands to the store from a non-empty file: the C
string that `fgets` stored, cut at the first newline. -/
def read_csv (content : String) : List Char :=
  (c_str (fgets_read (OS_SIZE_65536 - 1) content.toList)).takeWhile (fun c => c ≠ '\n')

/-- A sample legacy directory: agent 5 is assigned two groups, agent 6 one. -/
def sample_legacy_world : World :=
  { World.quiet with
    groups_dir := some [⟨"5", some "groupA,groupB\n"⟩, ⟨"6", some "web"⟩, ⟨".tmp", some "x"⟩],
    set_groups_fails := [6] }

/-- A legacy directory whose only file, for agent 5, holds one line of 65536
characters. -/
def long_line_world : World :=
  { World.quiet with
    groups_dir := some [⟨"5", some (String.mk (List.replicate 65536 'a'))⟩] }

/-- A legacy directory whose only file, for agent 5, has a NUL byte in its
first line. -/
def nul_line_world : World :=
  { World.quiet with groups_dir := some [⟨"5", some "ab\x00cd\n"⟩] }

/-! ## Dangling cleanup, scheduler and dispatch -/

/-- The path constants of the shared headers that the module uses. They are
configuration of the build, not part of the module, and are taken as given. -/
structure Paths where
  KEYS_FILE : String
  SHAREDCFG_DIR : String
  GROUPS_DIR : String
  WDB2_DIR : String
deriving DecidableEq, Repr

/-- The values of the path constants in a default installation. -/
def sample_paths : Paths :=
  { KEYS_FILE := "etc/client.keys", SHAREDCFG_DIR := "etc/shared",
    GROUPS_DIR := "queue/agent-groups", WDB2_DIR := "queue/db" }

/-- The value `(int)strtol(d_name, &end, 10)` for a name that starts with a
digit: the leading decimal digits, clamped to `LONG_MAX`, converted to `int`. -/
def strtol_int (d_name : String) : Int :=
  int_of_long (min (atoi_digits 0 d_name.toList : Int) (2 ^ 63 - 1))

/-- The pointer `end` that `strtol(d_name, &end, 10)` leaves for a name that
starts with a digit: what follows the leading digits. -/
def strtol_end (d_name : String) : List Char := d_name.toList.dropWhile Char.isDigit

/-- The call `remove(path)` on a file of `WDB2_DIR`. -/
def remove_wdb_file (d_name : String) (w : World) : World :=
  { w with wdb_dir := w.wdb_dir.map (fun es => es.filter (fun e => e ≠ d_name)),
           trace := w.trace ++ [.remove_wdb_file d_name] }

/-- The body of the `readdir` loop of `wm_clean_dangling_wdb_dbs`. -/
def clean_wdb_entry (P : Paths) (w : World) (d_name : String) : World :=
  match d_name.toList.head? with
  | none => w
  | some c0 =>
    if c0.isDigit then                      -- d_name[0] >= '0' && d_name[0] <= '9'
      if '.' ∈ d_name.toList then           -- strchr(d_name, '.')
        let id := strtol_int d_name
        if id > 0 ∧ (strtol_end d_name).take 3 = ['.', 'd', 'b'] then
          let n := wdb_get_agent_name id w
          match n.1 with
          | none => n.2
          | some name =>
            if name = "" then
              if (P.WDB2_DIR ++ "/" ++ d_name).utf8ByteSize < PATH_MAX then
                remove_wdb_file d_name n.2  -- "Removing dangling WDB DB file"
              else n.2
            else n.2
        else w
      else w                                -- "Strange file found"
    else w

/-- The routine `wm_clean_dangling_wdb_dbs`. -/
def wm_clean_dangling_wdb_dbs (P : Paths) (w : World) : World :=
  match w.wdb_dir with
  | none => w.log (.opendir P.WDB2_DIR)     -- "Couldn't open directory"
  | some entries => entries.foldl (clean_wdb_entry P) (w.log (.opendir P.WDB2_DIR))

/-- The body of the `readdir` loop of `wm_clean_dangling_groups`. -/
def clean_group_entry (w : World) (dirent : GroupFile) : World :=
  if not_hidden dirent.name then
    let agent_id := atoi dirent.name
    if agent_id ≤ 0 then
      w                                     -- "Strange file found": continue
    else
      let n := wdb_get_agent_name agent_id w
      match n.1 with
      | none => n.2                         -- "Couldn't query the name": continue
      | some name => if name = "" then unlink_group_file dirent.name n.2 else n.2
  else w

/-- The routine `wm_clean_dangling_groups`. -/
def wm_clean_dangling_groups (P : Paths) (w : World) : World :=
  match w.groups_dir with
  | none => w.log (.opendir P.GROUPS_DIR)   -- "Couldn't open directory"
  | some entries => entries.foldl clean_group_entry (w.log (.opendir P.GROUPS_DIR))

/-- Modelled from the spec: `cldir_ex` on the legacy database directory, called
by `wm_clean_dangling_legacy_dbs`, which clears the directory wholesale. -/
def wm_clean_dangling_legacy_dbs (w : World) : World :=
  { w with legacy_dbs := [], trace := w.trace ++ [.cldir_legacy_dbs] }

/-- Modelled from the spec: `wdb_update_groups`, the store's
`bulk_refresh_groups(directory_path)`, called by `wm_sync_multi_groups`: the
group definitions become those that have a subdirectory. -/
def wm_sync_multi_groups (dirname : String) (w : World) : World :=
  { w with groups := w.groups.filter (fun g => g ∈ w.shared_dirs)
                       ++ w.shared_dirs.filter (fun g => g ∉ w.groups),
           trace := w.trace ++ [.update_groups dirname] }

/-- The static variables `timestamp` and `inode` of `wm_check_agents`. -/
structure CheckAgents where
  timestamp : Int
  inode : Int
deriving DecidableEq, Repr

/-- The routine `wm_check_agents`. -/
def wm_check_agents (st : CheckAgents) (w : World) : CheckAgents × World :=
  match w.keys_stat with
  | none => (st, w.log .stat_keys)          -- "Couldn't get client.keys stat"
  | some (mtime, ino) =>
    if mtime ≠ st.timestamp ∨ ino ≠ st.inode then
      (⟨mtime, ino⟩, wm_sync_agents false (w.log .stat_keys))
    else (st, w.log .stat_keys)

/-- The work of one cycle of the periodic loop of `wm_database_main`: the block
guarded by `data->sync_agents`. -/
def periodic_work (P : Paths) (sync_agents : Bool) (st : CheckAgents) (w : World) :
    CheckAgents × World :=
  if sync_agents then
    let c := wm_check_agents st w
    (c.1, wm_clean_dangling_wdb_dbs P (wm_clean_dangling_legacy_dbs
            (wm_clean_dangling_groups P (wm_sync_multi_groups P.SHAREDCFG_DIR c.2))))
  else (st, w)

/-- The end of one cycle of the periodic loop: with `tstart` read at the start
of the cycle and `tnow` read by the last `time(NULL)`, the argument passed to
`sleep` (an `unsigned int`), if it is called, and whether the warning
"Time interval exceeded" is logged. -/
def periodic_sleep (interval tstart tnow : Int) : Option Nat × Bool :=
  let tsleep := tstart + interval - tnow
  if tsleep ≥ 0 then (some (tsleep % 2 ^ 32).toNat, false) else (none, true)

/-- The split that `strrchr(path, '/')` and `*(file++) = '\0'` make: the text
before the last slash and the text after it, `none` without a slash. -/
def split_last_slash : List Char → Option (List Char × List Char)
  | [] => none
  | c :: cs =>
    match split_last_slash cs with
    | some (d, f) => some (c :: d, f)
    | none => if c = '/' then some ([], cs) else none

/-- The routine `wm_sync_file`. -/
def wm_sync_file (P : Paths) (dirname fname : String) (w : World) : Int × World :=
  if (dirname ++ "/" ++ fname).utf8ByteSize ≥ PATH_MAX then
    (OS_INVALID, w)                         -- "exceeded length limit"
  else if dirname = P.SHAREDCFG_DIR then
    wm_sync_shared_group fname w
  else
    (OS_INVALID, w)                         -- "Directory name not recognized"

/-- The body of the real-time loop of `wm_database_main`, for one popped path. -/
def reactive_dispatch (P : Paths) (path : String) (w : World) : World :=
  if path = P.KEYS_FILE then
    wm_sync_agents false w
  else
    match split_last_slash path.toList with
    | some (dir, file) => (wm_sync_file P (String.mk dir) (String.mk file) w).2
    | none => w                             -- "Couldn't extract file name"

/-! ## Sample worlds and reference predicates of the sweeps -/

/-- A master whose legacy directory holds, for agent 5, a file with a newline
only, and for agent 6 a file of length zero. -/
def blank_line_world : World :=
  { World.quiet with groups_dir := some [⟨"5", some "\n"⟩, ⟨"6", some ""⟩] }

/-- A worker whose legacy directory holds the file `abc`. -/
def bad_name_worker : World :=
  { World.quiet with is_worker := true, groups_dir := some [⟨"abc", some "web\n"⟩] }

/-- A master whose legacy directory holds the files `abc` and `.5`. -/
def bad_name_master : World :=
  { World.quiet with groups_dir := some [⟨"abc", some "web\n"⟩, ⟨".5", some "web\n"⟩] }

/-- A worker whose legacy directory holds one file, for agent 5. -/
def one_file_worker : World :=
  { World.quiet with is_worker := true, groups_dir := some [⟨"5", some "web\n"⟩] }

/-- The files currently in `WDB2_DIR` (none when the directory is missing). -/
def World.wdb_entries (w : World) : List String := w.wdb_dir.getD []

/-- The test `d_name[0] >= '0' && d_name[0] <= '9'`, in the spec's words: the
name begins with a digit. -/
def begins_with_digit (name : String) : Prop := ∃ c, name.toList.head? = some c ∧ c.isDigit = true

/-- Reference predicate of the cleanup of `WDB2_DIR`: the name begins with a
digit, its leading decimal number is an id greater than 0, the three
characters right after the number are `.db` (more may follow them), and
`get_agent_name(id)` returns the empty string. The id is the `int` that the
leading number converts to. -/
def dangling_wdb_file (w : World) (name : String) : Prop :=
  begins_with_digit name ∧ 0 < strtol_int name
    ∧ (strtol_end name).take 3 = ['.', 'd', 'b']
    ∧ (wdb_get_agent_name (strtol_int name) w).1 = some ""

/-- A sample store with agent 1 only, whose name query fails for agent 9, with
files in `WDB2_DIR` and in `GROUPS_DIR`. -/
def sample_dangling_world : World :=
  { World.quiet with
    agents := [⟨1, "A", "any", "k1", none⟩],
    agent_name_fails := [9],
    wdb_dir := some ["001.db", "7.db", "7.db-journal", "9.db", "global.db", "8.txt", "12"],
    groups_dir := some [⟨"1", some "web"⟩, ⟨"7", some "web"⟩, ⟨"9", some "db"⟩,
                        ⟨"x", some "db"⟩] }

/-- The record that the first loop of `sync_keys_with_wdb` hands to
`wdb_insert_agent` for a keystore entry, given the group assignments of the
store. -/
def upsert_record (assignments : List GroupAssignment) (e : keyentry) : AgentRecord :=
  ⟨atoi e.id, e.name,
   (match e.cidr with
    | none => e.ip
    | some cidr => cidr),
   e.raw_key,
   (match assignments.find? (fun a => a.id = atoi e.id) with
    | some a => if a.csv = "" then none else some a.csv
    | none => none)⟩

/-- The agent table after `wdb_insert_agent` of a record. -/
def upsert (agents : List AgentRecord) (r : AgentRecord) : List AgentRecord :=
  if agents.any (fun a => a.id = r.id) then agents.map (fun a => if a.id = r.id then r else a)
  else agents ++ [r]

/-- The agent table after the first loop of `sync_keys_with_wdb`. -/
def upsert_all (assignments : List GroupAssignment) (keys : keystore)
    (agents : List AgentRecord) : List AgentRecord :=
  keys.foldl (fun acc e => if atoi e.id = 0 then acc else upsert acc (upsert_record assignments e))
    agents

/-- What the first loop makes of one record of a table that already holds
every id of the keystore: each entry with the id of the record replaces it. -/
def rewrite_record (assignments : List GroupAssignment) (keys : keystore) (a : AgentRecord) :
    AgentRecord :=
  keys.foldl (fun acc e => if atoi e.id ≠ 0 ∧ acc.id = atoi e.id then upsert_record assignments e
                           else acc) a

/-- A keystore whose only entry has the id string `1`. -/
def short_id_keys : keystore := [⟨"1", "A", "any", none, "k1"⟩]

/-- A sample keystore with the ids 001 and 002. -/
def sample_keys : keystore := [⟨"001", "A", "any", none, "k1"⟩, ⟨"002", "B", "any", none, "k2"⟩]

/-- A sample store with the agents 1 and 3. -/
def sample_store_world : World :=
  { World.quiet with agents := [⟨1, "A", "any", "k1", none⟩, ⟨3, "C", "any", "k3", none⟩] }

/-- Whether the loop body of `wm_sync_legacy_groups_files` leaves a file of the
directory in place, for a role and the agent ids whose assignment the store
rejects. -/
def legacy_keeps (is_worker : Bool) (fails : List Int) (d : GroupFile) : Bool :=
  if not_hidden d.name then
    if is_worker then false
    else if atoi d.name ≤ 0 then true
    else
      match d.content with
      | none => true
      | some c => if c.toList = [] then false else decide (atoi d.name ∈ fails)
  else true

/-- A sample worker for the periodic loop: one key, and a `client.keys` file
with modification time 100 and inode 7. -/
def sample_cycle_world : World :=
  { World.quiet with is_worker := true, client_keys := [⟨"001", "A", "any", none, "k1"⟩],
                     keys_stat := some (100, 7) }

/-! ## Notification reader -/

/-- The record `struct inotify_event` as the reader decodes it from the buffer:
watch descriptor, mask, length of the name field, and name (the cookie is not
used). -/
structure inotify_event where
  wd : Int
  mask : Nat
  len : Nat
  name : String
deriving DecidableEq, Repr

/-- The mask bit `IN_Q_OVERFLOW` of `<sys/inotify.h>`. -/
def IN_Q_OVERFLOW : Nat := 0x4000

/-- The limit `NAME_MAX` of `<limits.h>`. -/
def NAME_MAX : Nat := 255

/-- The macro `IN_BUFFER_SIZE`: `sizeof(struct inotify_event) + NAME_MAX + 1`,
the structure taking 16 bytes. -/
def IN_BUFFER_SIZE : Nat := 16 + NAME_MAX + 1

/-- The static variables `wd_agents`, `wd_groups` and `wd_shared_groups`. -/
structure Watches where
  wd_agents : Int
  wd_groups : Int
  wd_shared_groups : Int
deriving DecidableEq, Repr

/-- The values the three variables are declared with. -/
def Watches.declared : Watches := ⟨-2, -2, -2⟩

/-- The subscriptions of `wm_inotify_setup`. With `sync_agents` set, each
variable is assigned what its `inotify_add_watch` call returns, a watch
descriptor or `-1` when the call fails; otherwise the variables keep the
values they were declared with. -/
def wm_inotify_setup (sync_agents : Bool) (add_agents add_groups add_shared_groups : Int) :
    Watches :=
  if sync_agents then ⟨add_agents, add_groups, add_shared_groups⟩ else Watches.declared

/-- What the body of the decoding loop of `wm_inotify_start` does with one
record: it leaves the loop, goes on to the next record for one of four
reasons, or calls `wm_inotify_push(dirname, event->name)`. -/
inductive EventStep where
  | too_large
  | hidden
  | not_keysfile
  | overflow
  | unknown_wd
  | push (dirname name : String)
deriving DecidableEq, Repr

/-- The body of the `for` loop of `wm_inotify_start`, for one record.
`keysfile_dir` and `keysfile` are the two parts of `KEYS_FILE`. -/
def wm_inotify_event (P : Paths) (W : Watches) (keysfile_dir keysfile : String)
    (event : inotify_event) : EventStep :=
  if event.len > IN_BUFFER_SIZE then .too_large        -- "Inotify event too large": break
  else if event.name.toList.head? = some '.' then .hidden   -- "Discarding hidden file"
  else if event.wd = W.wd_agents then
    if event.name = keysfile then .push keysfile_dir event.name else .not_keysfile
  else if event.wd = W.wd_groups then .push P.GROUPS_DIR event.name
  else if event.wd = W.wd_shared_groups then .push P.SHAREDCFG_DIR event.name
  else if event.wd = -1 ∧ event.mask = IN_Q_OVERFLOW then .overflow
  else .unknown_wd

/-- The `for` loop of `wm_inotify_start` over the records of one `read`. -/
def wm_inotify_events (P : Paths) (W : Watches) (keysfile_dir keysfile : String) :
    List inotify_event → Coalescer → Coalescer
  | [], s => s
  | event :: rest, s =>
    match wm_inotify_event P W keysfile_dir keysfile event with
    | .too_large => s
    | .push dirname name =>
      wm_inotify_events P W keysfile_dir keysfile rest (wm_inotify_push dirname name s)
    | _ => wm_inotify_events P W keysfile_dir keysfile rest s

/-- The routine `wm_inotify_start` for the records of one `read`: `KEYS_FILE`
is split at its last slash (the thread exits, here `none`, when it has none),
then the records are decoded. -/
def wm_inotify_start (P : Paths) (W : Watches) (buffer : List inotify_event) (s : Coalescer) :
    Option Coalescer :=
  match split_last_slash P.KEYS_FILE.toList with
  | none => none                            -- "Couldn't decode keys file path"
  | some (keysfile_dir, keysfile) =>
    some (wm_inotify_events P W (String.mk keysfile_dir) (String.mk keysfile) buffer s)

/-- The watches after a setup in which the subscription to `GROUPS_DIR` failed
and the two others gave the descriptors 1 and 2. -/
def failed_groups_watches : Watches := wm_inotify_setup true 1 (-1) 2

/-- The record the kernel queues when its event queue overflowed. -/
def overflow_event : inotify_event := ⟨-1, IN_Q_OVERFLOW, 0, ""⟩

/-- The sample store with the agents 1 and 3, which rejects the removal of
agent 3. -/
def rejecting_store_world : World := { sample_store_world with remove_agent_fails := [3] }

/-- A store whose only agent has an id of nine digits. -/
def long_id_world : World :=
  { World.quiet with agents := [⟨123456789, "L", "any", "k9", none⟩] }

/-! ## Path coalescer: proofs -/

theorem wm_inotify_push_eq (d f : String) (s : Coalescer) :
    wm_inotify_push d f s =
      if PATH_MAX + 1 ≤ (inotify_path d f).utf8ByteSize then s
      else if queue_full s.queue = true then s
      else if inotify_path d f ∈ s.ptable then s
      else { queue := { s.queue with data := s.queue.data ++ [inotify_path d f] },
             ptable := inotify_path d f :: s.ptable } := by
  unfold wm_inotify_push
  by_cases h1 : PATH_MAX + 1 ≤ (inotify_path d f).utf8ByteSize
  · simp [h1]
  · by_cases h2 : queue_full s.queue = true
    · simp [h1, h2]
    · by_cases h3 : inotify_path d f ∈ s.ptable
      · simp [h1, h2, h3, OSHash_Add]
      · simp [h1, h2, h3, OSHash_Add, queue_push]

theorem wm_inotify_pop_eq (s : Coalescer) :
    wm_inotify_pop s =
      match s.queue.data with
      | [] => none
      | x :: xs => some (x, { queue := { s.queue with data := xs },
                              ptable := (OSHash_Delete s.ptable x).2 }) := by
  unfold wm_inotify_pop queue_empty queue_pop
  cases h : s.queue.data <;> simp

theorem CoalescerInv.length_eq {s : Coalescer} (h : CoalescerInv s) :
    s.ptable.length = s.queue.data.length :=
  ((List.perm_ext_iff_of_nodup h.2.1 h.1).2 h.2.2).length_eq

theorem coalescer_init_inv (n : Int) : CoalescerInv (coalescer_init n) := by
  simp [CoalescerInv, coalescer_init, queue_init, OSHash_Create]

theorem wm_inotify_push_inv (d f : String) {s : Coalescer} (h : CoalescerInv s) :
    CoalescerInv (wm_inotify_push d f s) := by
  rw [wm_inotify_push_eq]
  split_ifs with h1 h2 h3
  · exact h
  · exact h
  · exact h
  · obtain ⟨hq, ht, hm⟩ := h
    refine ⟨?_, ?_, ?_⟩
    · simp only
      rw [List.nodup_append]
      refine ⟨hq, List.nodup_singleton _, ?_⟩
      intro a ha hb
      simp only [List.mem_singleton] at hb
      subst hb
      exact h3 ((hm _).2 ha)
    · exact List.nodup_cons.2 ⟨h3, ht⟩
    · intro k
      simp only [List.mem_cons, List.mem_append, List.mem_singleton, hm k]
      tauto

theorem wm_inotify_pop_inv {s t : Coalescer} {p : String} (h : CoalescerInv s)
    (hp : wm_inotify_pop s = some (p, t)) : CoalescerInv t := by
  rw [wm_inotify_pop_eq] at hp
  obtain ⟨hq, ht, hm⟩ := h
  cases hd : s.queue.data with
  | nil => simp [hd] at hp
  | cons x xs =>
    rw [hd] at hp hq
    simp only [Option.some.injEq, Prod.mk.injEq] at hp
    obtain ⟨-, rfl⟩ := hp
    have hx : x ∈ s.ptable := (hm x).2 (by simp [hd])
    have hnd := List.nodup_cons.1 hq
    refine ⟨hnd.2, ?_, ?_⟩
    · simp only [OSHash_Delete, hx, if_true]
      exact ht.erase x
    · intro k
      simp only [OSHash_Delete, hx, if_true]
      rw [ht.mem_erase_iff, hm k, hd]
      simp only [List.mem_cons]
      constructor
      · rintro ⟨hne, hk⟩
        exact hk.resolve_left hne
      · intro hk
        exact ⟨fun e => hnd.1 (e ▸ hk), Or.inr hk⟩

theorem coalescer_step_inv {s : Coalescer} (h : CoalescerInv s) (op : CoalescerOp) :
    CoalescerInv (coalescer_step s op).1 := by
  cases op with
  | push d f => exact wm_inotify_push_inv d f h
  | pop =>
    simp only [coalescer_step]
    cases hp : wm_inotify_pop s with
    | none => exact h
    | some r => exact wm_inotify_pop_inv h (p := r.1) (t := r.2) hp

theorem coalescer_run_inv (ops : List CoalescerOp) :
    ∀ {s : Coalescer}, CoalescerInv s → CoalescerInv (coalescer_run s ops).1 := by
  induction ops with
  | nil => intro s h; exact h
  | cons op ops ih => intro s h; exact ih (coalescer_step_inv h op)

theorem wm_inotify_push_mem_mono (d f : String) (s : Coalescer) {k : String}
    (hk : k ∈ s.queue.data) : k ∈ (wm_inotify_push d f s).queue.data := by
  rw [wm_inotify_push_eq]
  split_ifs <;> simp [hk]

theorem wm_inotify_push_mem_self (d f : String) {s : Coalescer} (h : CoalescerInv s)
    (hfit : (inotify_path d f).utf8ByteSize < PATH_MAX + 1)
    (hroom : queue_full s.queue = false ∨ inotify_path d f ∈ s.queue.data) :
    inotify_path d f ∈ (wm_inotify_push d f s).queue.data := by
  rw [wm_inotify_push_eq]
  split_ifs with h1 h2 h3
  · omega
  · rcases hroom with hr | hr
    · simp [hr] at h2
    · exact hr
  · exact (h.2.2 _).1 h3
  · simp

theorem coalescer_run_keeps (k : String) (mid : List CoalescerOp) :
    ∀ {s : Coalescer}, k ∈ s.queue.data → k ∉ (coalescer_run s mid).2 →
      k ∈ (coalescer_run s mid).1.queue.data := by
  induction mid with
  | nil => intro s hk _; exact hk
  | cons op ops ih =>
    intro s hk hout
    simp only [coalescer_run, List.mem_append, not_or] at hout ⊢
    refine ih ?_ hout.2
    cases op with
    | push d f => exact wm_inotify_push_mem_mono d f s hk
    | pop =>
      have h1 := hout.1
      simp only [coalescer_step] at h1 ⊢
      rw [wm_inotify_pop_eq] at h1 ⊢
      cases hd : s.queue.data with
      | nil => rw [hd] at hk; simp at hk
      | cons x xs =>
        rw [hd] at hk
        simp only [Option.toList, List.mem_singleton, hd] at h1 ⊢
        rcases List.mem_cons.1 hk with e | e
        · exact absurd e h1
        · exact e

theorem filter_ne_filter_not_mem_of_mem (x : String) (l data : List String) (hx : x ∈ data) :
    (l.filter (fun y => y ≠ x)).filter (fun y => y ∉ data) = l.filter (fun y => y ∉ data) := by
  rw [List.filter_filter]
  apply List.filter_congr
  intro y _
  by_cases hy : y ∈ data
  · simp [hy]
  · have : y ≠ x := fun e => hy (e ▸ hx)
    simp [hy, this]

theorem filter_ne_filter_not_mem_append (x : String) (l data : List String) :
    (l.filter (fun y => y ≠ x)).filter (fun y => y ∉ data)
      = l.filter (fun y => y ∉ data ++ [x]) := by
  rw [List.filter_filter]
  apply List.filter_congr
  intro y _
  by_cases hy : y ∈ data <;> by_cases hyx : y = x <;> simp [hy, hyx]

theorem wm_inotify_push_size (d f : String) (s : Coalescer) :
    (wm_inotify_push d f s).queue.size = s.queue.size := by
  rw [wm_inotify_push_eq]
  split_ifs <;> rfl

theorem coalescer_run_pushes (keys : List (String × String)) :
    ∀ {s : Coalescer}, CoalescerInv s →
      (∀ k ∈ keys, (inotify_path k.1 k.2).utf8ByteSize < PATH_MAX + 1) →
      (s.queue.data ++ (first_occurrences (keys.map fun k => inotify_path k.1 k.2)).filter
          (fun y => y ∉ s.queue.data)).length ≤ s.queue.size →
      (coalescer_run s (keys.map fun k => CoalescerOp.push k.1 k.2)).1.queue.data
          = s.queue.data ++ (first_occurrences (keys.map fun k => inotify_path k.1 k.2)).filter
              (fun y => y ∉ s.queue.data)
        ∧ (coalescer_run s (keys.map fun k => CoalescerOp.push k.1 k.2)).2 = [] := by
  induction keys with
  | nil => intro s _ _ _; simp [coalescer_run, first_occurrences]
  | cons k ks ih =>
    intro s hinv hfit hlen
    have hfk := hfit k (List.mem_cons_self _ _)
    have hfks : ∀ k ∈ ks, (inotify_path k.1 k.2).utf8ByteSize < PATH_MAX + 1 :=
      fun a ha => hfit a (List.mem_cons_of_mem _ ha)
    simp only [List.map_cons, coalescer_run, coalescer_step, first_occurrences,
      Option.toList, List.nil_append] at hlen ⊢
    by_cases hk : inotify_path k.1 k.2 ∈ s.queue.data
    · have hpush : wm_inotify_push k.1 k.2 s = s := by
        rw [wm_inotify_push_eq]
        split_ifs with h1 h2 h3
        · rfl
        · rfl
        · rfl
        · exact absurd ((hinv.2.2 _).2 hk) h3
      have hf : ((inotify_path k.1 k.2 ::
            (first_occurrences (ks.map fun k => inotify_path k.1 k.2)).filter
              (fun y => y ≠ inotify_path k.1 k.2)).filter (fun y => y ∉ s.queue.data))
          = (first_occurrences (ks.map fun k => inotify_path k.1 k.2)).filter
              (fun y => y ∉ s.queue.data) := by
        rw [List.filter_cons]
        simp only [hk, not_true_eq_false, decide_False, Bool.false_eq_true, if_false]
        exact filter_ne_filter_not_mem_of_mem _ _ _ hk
      rw [hpush, hf]
      rw [hf] at hlen
      exact ih hinv hfks hlen
    · have hf : ((inotify_path k.1 k.2 ::
            (first_occurrences (ks.map fun k => inotify_path k.1 k.2)).filter
              (fun y => y ≠ inotify_path k.1 k.2)).filter (fun y => y ∉ s.queue.data))
          = inotify_path k.1 k.2 ::
            (first_occurrences (ks.map fun k => inotify_path k.1 k.2)).filter
              (fun y => y ∉ s.queue.data ++ [inotify_path k.1 k.2]) := by
        rw [List.filter_cons]
        simp only [hk, not_false_eq_true, decide_True, if_true]
        rw [filter_ne_filter_not_mem_append]
      rw [hf] at hlen ⊢
      have hroom : queue_full s.queue = false := by
        simp only [queue_full, decide_eq_false_iff_not, not_le]
        simp only [List.length_append, List.length_cons] at hlen
        omega
      have hpush : wm_inotify_push k.1 k.2 s =
          { queue := { s.queue with data := s.queue.data ++ [inotify_path k.1 k.2] },
            ptable := inotify_path k.1 k.2 :: s.ptable } := by
        rw [wm_inotify_push_eq]
        split_ifs with h1 h2 h3
        · omega
        · simp [hroom] at h2
        · exact absurd ((hinv.2.2 _).1 h3) hk
        · rfl
      have hinv2 := wm_inotify_push_inv k.1 k.2 hinv
      rw [hpush] at hinv2 ⊢
      have := ih hinv2 hfks (by simpa using hlen)
      simpa using this

theorem coalescer_drain_all (m : Nat) :
    ∀ (s : Coalescer), s.queue.data.length ≤ m →
      (coalescer_drain m s).1 = s.queue.data ∧ (coalescer_drain m s).2.queue.data = [] := by
  induction m with
  | zero =>
    intro s h
    have : s.queue.data = [] := List.length_eq_zero.1 (Nat.le_zero.1 h)
    simp [coalescer_drain, this]
  | succ m ih =>
    intro s h
    simp only [coalescer_drain]
    rw [wm_inotify_pop_eq]
    cases hd : s.queue.data with
    | nil => simp [hd]
    | cons x xs =>
      rw [hd] at h
      simp only [List.length_cons, Nat.add_le_add_iff_right] at h
      have := ih { queue := { s.queue with data := xs },
                   ptable := (OSHash_Delete s.ptable x).2 } h
      simp only at this ⊢
      exact ⟨by rw [this.1], this.2⟩

/-! ## Path coalescer: the claims -/

/-- C1 (as amended). Started from the empty structure, after every sequence of
pushes and pops the queue holds no path twice, the pending table holds exactly
the queued paths, and both have the same length. Moreover, after a push of a
path that fits `PATH_MAX` and that either finds the queue below capacity or is
already pending, followed by any operations none of which pops that path, the
queue holds exactly one instance of it. -/
theorem coalescer_dedup_invariant (n : Int) (ops mid : List CoalescerOp) (d f : String) :
    ((coalescer_run (coalescer_init n) ops).1.queue.data.Nodup
      ∧ (∀ k, k ∈ (coalescer_run (coalescer_init n) ops).1.ptable
            ↔ k ∈ (coalescer_run (coalescer_init n) ops).1.queue.data)
      ∧ (coalescer_run (coalescer_init n) ops).1.ptable.length
          = (coalescer_run (coalescer_init n) ops).1.queue.data.length)
    ∧ ((inotify_path d f).utf8ByteSize < PATH_MAX + 1 →
        (queue_full (coalescer_run (coalescer_init n) ops).1.queue = false
          ∨ inotify_path d f ∈ (coalescer_run (coalescer_init n) ops).1.queue.data) →
        inotify_path d f ∉
          (coalescer_run (wm_inotify_push d f (coalescer_run (coalescer_init n) ops).1) mid).2 →
        List.count (inotify_path d f)
          (coalescer_run (wm_inotify_push d f (coalescer_run (coalescer_init n) ops).1)
            mid).1.queue.data = 1) := by
  have hinv := coalescer_run_inv ops (coalescer_init_inv n)
  refine ⟨⟨hinv.1, hinv.2.2, hinv.length_eq⟩, ?_⟩
  intro hfit hroom hout
  have hmem := coalescer_run_keeps _ mid (wm_inotify_push_mem_self d f hinv hfit hroom) hout
  have hnd := (coalescer_run_inv mid (wm_inotify_push_inv d f hinv)).1
  exact List.count_eq_one_of_mem hnd hmem

/-- C1, witness: capacity 4, after push a, push b, pop (of a), then push b
again and push c, the path b is queued exactly once. -/
theorem coalescer_dedup_invariant_witness :
    ((coalescer_run (coalescer_init 4)
        [.push "d" "a", .push "d" "b", .pop]).1.queue.data.Nodup
      ∧ (∀ k, k ∈ (coalescer_run (coalescer_init 4) [.push "d" "a", .push "d" "b", .pop]).1.ptable
            ↔ k ∈ (coalescer_run (coalescer_init 4)
                [.push "d" "a", .push "d" "b", .pop]).1.queue.data)
      ∧ (coalescer_run (coalescer_init 4) [.push "d" "a", .push "d" "b", .pop]).1.ptable.length
          = (coalescer_run (coalescer_init 4)
              [.push "d" "a", .push "d" "b", .pop]).1.queue.data.length)
    ∧ List.count (inotify_path "d" "b")
        (coalescer_run (wm_inotify_push "d" "b"
            (coalescer_run (coalescer_init 4) [.push "d" "a", .push "d" "b", .pop]).1)
          [.push "d" "b", .push "d" "c"]).1.queue.data = 1 :=
  ⟨(coalescer_dedup_invariant 4 [.push "d" "a", .push "d" "b", .pop]
      [.push "d" "b", .push "d" "c"] "d" "b").1,
   (coalescer_dedup_invariant 4 [.push "d" "a", .push "d" "b", .pop]
      [.push "d" "b", .push "d" "c"] "d" "b").2 (by decide) (by decide) (by decide)⟩

/-- C1, counterexample to the claim as stated: with capacity 2, after push a,
push b, push c and no pop at all, the path c has been pushed and never popped,
yet the queue holds no instance of it (the queue was full, the push was dropped). -/
theorem coalescer_push_at_capacity_not_queued :
    (coalescer_run (coalescer_init 2) [.push "d" "a", .push "d" "b", .push "d" "c"]).2 = []
    ∧ List.count "d/c"
        (coalescer_run (coalescer_init 2)
          [.push "d" "a", .push "d" "b", .push "d" "c"]).1.queue.data = 0
    ∧ ¬ List.count "d/c"
        (coalescer_run (coalescer_init 2)
          [.push "d" "a", .push "d" "b", .push "d" "c"]).1.queue.data = 1 := by
  decide

/-- C2. A push of any path, pending or not, on a coalescer whose queue is at
capacity returns the state unchanged: the queue contents, its length and the
pending table are what they were. -/
theorem wm_inotify_push_at_capacity (d f : String) (s : Coalescer)
    (hcap : s.queue.data.length = s.queue.size) :
    wm_inotify_push d f s = s
    ∧ (wm_inotify_push d f s).queue.data.length = s.queue.size
    ∧ ((∀ k, k ∈ s.ptable ↔ k ∈ s.queue.data) →
        ∀ k, k ∈ (wm_inotify_push d f s).ptable ↔ k ∈ (wm_inotify_push d f s).queue.data) := by
  have hfull : queue_full s.queue = true := by simp [queue_full, hcap]
  have h : wm_inotify_push d f s = s := by
    rw [wm_inotify_push_eq]
    split_ifs <;> rfl
  rw [h]
  exact ⟨rfl, hcap, fun hm => hm⟩

/-- C2, witness: a queue of capacity 2 holding two paths drops a third one. -/
theorem wm_inotify_push_at_capacity_witness :
    (⟨⟨2, ["d/a", "d/b"]⟩, ["d/b", "d/a"]⟩ : Coalescer).queue.data.length = 2
    ∧ wm_inotify_push "d" "c" ⟨⟨2, ["d/a", "d/b"]⟩, ["d/b", "d/a"]⟩
        = ⟨⟨2, ["d/a", "d/b"]⟩, ["d/b", "d/a"]⟩ :=
  ⟨by decide,
   (wm_inotify_push_at_capacity "d" "c" ⟨⟨2, ["d/a", "d/b"]⟩, ["d/b", "d/a"]⟩ (by decide)).1⟩

/-- C3. Pushes of paths that fit `PATH_MAX`, made on the empty structure and
never meeting a full queue (the distinct paths are at most the capacity),
followed only by pops: the pops return the pushed paths with every later
duplicate removed, in order of first occurrence, and after them the queue is
empty, so that a further pop waits. -/
theorem coalescer_fifo_coalescing (n : Int) (keys : List (String × String)) (m : Nat)
    (hfit : ∀ k ∈ keys, (inotify_path k.1 k.2).utf8ByteSize < PATH_MAX + 1)
    (hcap : (first_occurrences (keys.map fun k => inotify_path k.1 k.2)).length
        ≤ (coalescer_init n).queue.size)
    (hm : (first_occurrences (keys.map fun k => inotify_path k.1 k.2)).length ≤ m) :
    (coalescer_drain m
        (coalescer_run (coalescer_init n) (keys.map fun k => CoalescerOp.push k.1 k.2)).1).1
      = first_occurrences (keys.map fun k => inotify_path k.1 k.2)
    ∧ wm_inotify_pop (coalescer_drain m
        (coalescer_run (coalescer_init n) (keys.map fun k => CoalescerOp.push k.1 k.2)).1).2
      = none := by
  have hrun := coalescer_run_pushes keys (coalescer_init_inv n) hfit
    (by simpa [coalescer_init, queue_init] using hcap)
  have hdata : (coalescer_run (coalescer_init n)
      (keys.map fun k => CoalescerOp.push k.1 k.2)).1.queue.data
        = first_occurrences (keys.map fun k => inotify_path k.1 k.2) := by
    rw [hrun.1]
    simp [coalescer_init, queue_init]
  have hdr := coalescer_drain_all m _ (by rw [hdata]; exact hm)
  refine ⟨by rw [hdr.1, hdata], ?_⟩
  rw [wm_inotify_pop_eq, hdr.2]

/-- C3, witness: pushing p1, p1, p2 gives exactly two pops, p1 then p2. -/
theorem coalescer_fifo_coalescing_witness :
    (coalescer_drain 5
        (coalescer_run (coalescer_init 16)
          [.push "dir" "p1", .push "dir" "p1", .push "dir" "p2"]).1).1 = ["dir/p1", "dir/p2"]
    ∧ wm_inotify_pop (coalescer_drain 5
        (coalescer_run (coalescer_init 16)
          [.push "dir" "p1", .push "dir" "p1", .push "dir" "p2"]).1).2 = none :=
  coalescer_fifo_coalescing 16 [("dir", "p1"), ("dir", "p1"), ("dir", "p2")] 5
    (by decide) (by decide) (by decide)

/-! ## Decimal ids: `atoi` after `"%03d"` -/

theorem digitChar_isDigit {m : Nat} (h : m < 10) :
    (Nat.digitChar m).isDigit = true ∧ (Nat.digitChar m).toNat - 48 = m := by
  interval_cases m <;> exact ⟨by decide, by decide⟩

theorem atoi_digits_toDigitsCore (fuel : Nat) :
    ∀ (n : Nat) (ds : List Char), n < fuel →
      atoi_digits 0 (Nat.toDigitsCore 10 fuel n ds) = atoi_digits n ds := by
  induction fuel with
  | zero => intro n ds h; omega
  | succ fuel ih =>
    intro n ds h
    have hd := digitChar_isDigit (Nat.mod_lt n (by decide : 10 > 0))
    simp only [Nat.toDigitsCore]
    split_ifs with h0
    · simp only [atoi_digits, hd.1, if_true, hd.2]
      congr 1
      omega
    · rw [ih (n / 10) _ (by omega)]
      simp only [atoi_digits, hd.1, if_true, hd.2]
      congr 1
      omega

theorem atoi_digits_toDigits (n : Nat) : atoi_digits 0 (Nat.toDigits 10 n) = n := by
  rw [Nat.toDigits, atoi_digits_toDigitsCore _ _ _ (Nat.lt_succ_self n)]
  rfl

theorem atoi_digits_zeros (k : Nat) (l : List Char) :
    atoi_digits 0 (List.replicate k '0' ++ l) = atoi_digits 0 l := by
  induction k with
  | zero => rfl
  | succ k ih =>
    rw [List.replicate_succ, List.cons_append]
    simp only [atoi_digits]
    rw [if_pos (by decide)]
    exact ih

theorem toDigitsCore_head (fuel : Nat) :
    ∀ (n : Nat) (ds : List Char), 0 < fuel →
      ∃ m, m < 10 ∧ ∃ tl, Nat.toDigitsCore 10 fuel n ds = Nat.digitChar m :: tl := by
  induction fuel with
  | zero => intro n ds h; omega
  | succ fuel ih =>
    intro n ds _
    simp only [Nat.toDigitsCore]
    split_ifs with h0
    · exact ⟨n % 10, Nat.mod_lt n (by decide), ds, rfl⟩
    · rcases Nat.eq_zero_or_pos fuel with hf | hf
      · subst hf
        exact ⟨n % 10, Nat.mod_lt n (by decide), ds, rfl⟩
      · exact ih _ _ hf

theorem int_of_long_of_range (x : Int) (h1 : -(2 ^ 31) ≤ x) (h2 : x < 2 ^ 31) :
    int_of_long x = x := by
  unfold int_of_long
  rw [Int.emod_eq_of_lt (by omega) (by omega)]
  omega

theorem atoi_of_digit_head {m : Nat} (hm : m < 10) (tl : List Char) :
    atoi (String.mk (Nat.digitChar m :: tl))
      = int_of_long (min (atoi_digits 0 (Nat.digitChar m :: tl) : Int) (2 ^ 63 - 1)) := by
  interval_cases m <;> rfl

theorem fmt_03d_head (n : Nat) :
    ∃ m, m < 10 ∧ ∃ tl, fmt_03d (n : Int) = Nat.digitChar m :: tl := by
  have hn : ¬ ((n : Int) < 0) := by omega
  simp only [fmt_03d, hn, if_false, Int.natAbs_ofNat]
  rcases Nat.eq_zero_or_pos (3 - (Nat.toDigits 10 n).length) with hk | hk
  · rw [hk, List.replicate_zero, List.nil_append]
    exact toDigitsCore_head (n + 1) n [] (Nat.succ_pos n)
  · obtain ⟨k, hk1⟩ := Nat.exists_eq_succ_of_ne_zero (Nat.pos_iff_ne_zero.1 hk)
    rw [hk1, List.replicate_succ, List.cons_append]
    exact ⟨0, by decide, _, rfl⟩

theorem atoi_snprintf_id (n : Nat) (h : n < 10 ^ 8) : atoi (snprintf_id (n : Int)) = (n : Int) := by
  have hlen : (Nat.toDigits 10 n).length ≤ 8 :=
    Nat.toDigitsCore_length 10 (by decide) (n + 1) n 8 h (by decide)
  have hn : ¬ ((n : Int) < 0) := by omega
  have htake : (fmt_03d (n : Int)).take 8 = fmt_03d (n : Int) := by
    apply List.take_of_length_le
    simp only [fmt_03d, hn, if_false, Int.natAbs_ofNat, List.length_append, List.length_replicate]
    omega
  obtain ⟨m, hm, tl, htl⟩ := fmt_03d_head n
  rw [snprintf_id, htake, htl, atoi_of_digit_head hm, ← htl]
  simp only [fmt_03d, hn, if_false, Int.natAbs_ofNat]
  rw [atoi_digits_zeros, atoi_digits_toDigits]
  have h3 : (n : Int) < 10 ^ 8 := by exact_mod_cast h
  rw [min_eq_left (by omega), int_of_long_of_range _ (by omega) (by omega)]

/-! ## Agent key synchronisation: proofs -/

theorem key_index_eq_neg_one (keys : keystore) (id : String) :
    ∀ i : Nat, key_index keys id i = -1 ↔ ∀ e ∈ keys, e.id ≠ id := by
  induction keys with
  | nil => intro i; simp [key_index]
  | cons e es ih =>
    intro i
    simp only [key_index, List.mem_cons, forall_eq_or_imp]
    split_ifs with h
    · constructor
      · intro hi
        exact hi.elim
      · intro hne; exact absurd h hne.1
    · rw [ih (i + 1)]
      exact ⟨fun hr => ⟨h, hr⟩, fun hr => hr.2⟩

theorem OS_IsAllowedID_eq_neg_one (keys : keystore) (id : String) :
    OS_IsAllowedID keys id = -1 ↔ ∀ e ∈ keys, e.id ≠ id :=
  key_index_eq_neg_one keys id 0

theorem sync_insert_entry_frame (w : World) (e : keyentry) :
    (sync_insert_entry w e).remove_agent_fails = w.remove_agent_fails
    ∧ (sync_insert_entry w e).agent_name_fails = w.agent_name_fails
    ∧ (sync_insert_entry w e).agent_dbs = w.agent_dbs
    ∧ (sync_insert_entry w e).counters = w.counters
    ∧ (sync_insert_entry w e).timestamps = w.timestamps
    ∧ (sync_insert_entry w e).diffs = w.diffs := by
  unfold sync_insert_entry wdb_insert_agent get_agent_group
  simp only [World.log]
  split_ifs <;> (try split) <;> simp

theorem sync_insert_entry_answers (w : World) (e : keyentry) :
    (sync_insert_entry w e).get_all_agents_fails = w.get_all_agents_fails
    ∧ (sync_insert_entry w e).query_remove_fails = w.query_remove_fails := by
  unfold sync_insert_entry wdb_insert_agent get_agent_group
  simp only [World.log]
  split_ifs <;> (try split) <;> simp

theorem sync_insert_fold_answers (keys : keystore) :
    ∀ w : World,
      (keys.foldl sync_insert_entry w).get_all_agents_fails = w.get_all_agents_fails
      ∧ (keys.foldl sync_insert_entry w).query_remove_fails = w.query_remove_fails := by
  induction keys with
  | nil => intro w; exact ⟨rfl, rfl⟩
  | cons e es ih =>
    intro w
    obtain ⟨h1, h2⟩ := ih (sync_insert_entry w e)
    obtain ⟨g1, g2⟩ := sync_insert_entry_answers w e
    exact ⟨h1.trans g1, h2.trans g2⟩

theorem sync_insert_entry_ids (w : World) (e : keyentry) (n : Int) :
    n ∈ (sync_insert_entry w e).ids ↔ n ∈ w.ids ∨ (n = atoi e.id ∧ atoi e.id ≠ 0) := by
  unfold sync_insert_entry wdb_insert_agent
  by_cases h0 : atoi e.id = 0
  · simp [h0]
  · simp only [h0, if_false]
    have hag : ∀ w0 : World, (get_agent_group (atoi e.id) w0).2.agents = w0.agents := by
      intro w0
      unfold get_agent_group
      split <;> rfl
    by_cases hex : ((get_agent_group (atoi e.id) w).2.agents.any fun a => a.id = atoi e.id) = true
    · rw [if_pos hex]
      simp only [World.ids, List.map_map]
      have hmap : ∀ l : List AgentRecord, ∀ r : AgentRecord, r.id = atoi e.id →
          l.map ((fun a => a.id) ∘ fun a => if a.id = atoi e.id then r else a)
            = l.map (fun a => a.id) := by
        intro l r hr
        apply List.map_congr_left
        intro a _
        simp only [Function.comp]
        split_ifs with ha
        · rw [hr, ha]
        · rfl
      rw [hmap _ _ rfl, hag]
      constructor
      · exact fun h => Or.inl h
      · rintro (h | ⟨h, -⟩)
        · exact h
        · rw [hag] at hex
          simp only [List.any_eq_true, decide_eq_true_eq] at hex
          obtain ⟨a, ha, hid⟩ := hex
          exact List.mem_map.2 ⟨a, ha, by rw [hid, h]⟩
    · rw [if_neg hex]
      simp only [World.ids, List.map_append, List.mem_append, List.map_cons, List.map_nil,
        List.mem_singleton, hag]
      constructor
      · rintro (h | h)
        · exact Or.inl h
        · exact Or.inr ⟨h, h0⟩
      · rintro (h | ⟨h, -⟩)
        · exact Or.inl h
        · exact Or.inr h

theorem sync_insert_fold_frame (keys : keystore) :
    ∀ w : World,
      (keys.foldl sync_insert_entry w).remove_agent_fails = w.remove_agent_fails
      ∧ (keys.foldl sync_insert_entry w).agent_name_fails = w.agent_name_fails
      ∧ (keys.foldl sync_insert_entry w).agent_dbs = w.agent_dbs
      ∧ (keys.foldl sync_insert_entry w).counters = w.counters
      ∧ (keys.foldl sync_insert_entry w).timestamps = w.timestamps
      ∧ (keys.foldl sync_insert_entry w).diffs = w.diffs := by
  induction keys with
  | nil => intro w; exact ⟨rfl, rfl, rfl, rfl, rfl, rfl⟩
  | cons e es ih =>
    intro w
    obtain ⟨h1, h2, h3, h4, h5, h6⟩ := ih (sync_insert_entry w e)
    obtain ⟨g1, g2, g3, g4, g5, g6⟩ := sync_insert_entry_frame w e
    simp only [List.foldl_cons]
    exact ⟨h1.trans g1, h2.trans g2, h3.trans g3, h4.trans g4, h5.trans g5, h6.trans g6⟩

theorem sync_insert_fold_ids (keys : keystore) :
    ∀ (w : World) (n : Int),
      n ∈ (keys.foldl sync_insert_entry w).ids
        ↔ n ∈ w.ids ∨ (n ≠ 0 ∧ ∃ e ∈ keys, atoi e.id = n) := by
  induction keys with
  | nil => intro w n; simp
  | cons e es ih =>
    intro w n
    simp only [List.foldl_cons, ih, sync_insert_entry_ids, List.mem_cons, exists_eq_or_imp]
    constructor
    · rintro ((h | ⟨h, h0⟩) | ⟨h0, h⟩)
      · exact Or.inl h
      · exact Or.inr ⟨h ▸ h0, Or.inl h.symm⟩
      · exact Or.inr ⟨h0, Or.inr h⟩
    · rintro (h | ⟨h0, h | h⟩)
      · exact Or.inl (Or.inl h)
      · exact Or.inl (Or.inr ⟨h.symm, h ▸ h0⟩)
      · exact Or.inr ⟨h0, h⟩

theorem wdb_get_agent_name_snd (a : Int) (w : World) :
    (wdb_get_agent_name a w).2 = w.log (.get_agent_name a) := by
  unfold wdb_get_agent_name
  split_ifs
  · rfl
  · split <;> rfl

theorem sync_delete_agent_faults (keys : keystore) (w : World) (a : Int) :
    (sync_delete_agent keys w a).remove_agent_fails = w.remove_agent_fails
    ∧ (sync_delete_agent keys w a).agent_name_fails = w.agent_name_fails := by
  unfold sync_delete_agent
  simp only [wdb_get_agent_name_snd]
  unfold wdb_remove_agent wdbc_query_remove OS_RemoveAgentTimestamp OS_RemoveCounter delete_diff
  simp only [World.log]
  split_ifs <;> (try split) <;> (try split_ifs) <;> simp

theorem sync_delete_agent_answers (keys : keystore) (w : World) (a : Int) :
    (sync_delete_agent keys w a).get_all_agents_fails = w.get_all_agents_fails
    ∧ (sync_delete_agent keys w a).query_remove_fails = w.query_remove_fails := by
  unfold sync_delete_agent
  simp only [wdb_get_agent_name_snd]
  unfold wdb_remove_agent wdbc_query_remove OS_RemoveAgentTimestamp OS_RemoveCounter delete_diff
  simp only [World.log]
  split_ifs <;> (try split) <;> (try split_ifs) <;> simp

theorem sync_delete_fold_answers (keys : keystore) (l : List Int) :
    ∀ w : World,
      (l.foldl (sync_delete_agent keys) w).get_all_agents_fails = w.get_all_agents_fails
      ∧ (l.foldl (sync_delete_agent keys) w).query_remove_fails = w.query_remove_fails := by
  induction l with
  | nil => intro w; exact ⟨rfl, rfl⟩
  | cons a l ih =>
    intro w
    obtain ⟨h1, h2⟩ := ih (sync_delete_agent keys w a)
    obtain ⟨g1, g2⟩ := sync_delete_agent_answers keys w a
    exact ⟨h1.trans g1, h2.trans g2⟩

theorem sync_delete_agent_of_deletes (keys : keystore) (w : World) (a : Int)
    (h : deletes keys w a) :
    (sync_delete_agent keys w a).agents = w.agents.filter (fun r => r.id ≠ a)
    ∧ (sync_delete_agent keys w a).agent_dbs
        = (if snprintf_id a ∈ w.query_remove_fails then w.agent_dbs
           else w.agent_dbs.filter (fun x => x ≠ snprintf_id a))
    ∧ (sync_delete_agent keys w a).counters = w.counters.filter (fun x => x ≠ snprintf_id a)
    ∧ (sync_delete_agent keys w a).timestamps
        = w.timestamps.filter (fun x => x ≠ snprintf_id a)
    ∧ ∀ name, (wdb_get_agent_name a w).1 = some name → name ≠ "" →
        (sync_delete_agent keys w a).diffs = w.diffs.filter (fun x => x ≠ name) := by
  obtain ⟨h1, h2⟩ := h
  have hr : (wdb_remove_agent a (wdb_get_agent_name a w).2).1 = 0 := by
    rw [wdb_get_agent_name_snd]
    unfold wdb_remove_agent
    simp [World.log, h2]
  have hrw : (wdb_remove_agent a (wdb_get_agent_name a w).2).2.agents
        = w.agents.filter (fun r => r.id ≠ a)
      ∧ (wdb_remove_agent a (wdb_get_agent_name a w).2).2.agent_dbs = w.agent_dbs
      ∧ (wdb_remove_agent a (wdb_get_agent_name a w).2).2.counters = w.counters
      ∧ (wdb_remove_agent a (wdb_get_agent_name a w).2).2.timestamps = w.timestamps
      ∧ (wdb_remove_agent a (wdb_get_agent_name a w).2).2.diffs = w.diffs := by
    rw [wdb_get_agent_name_snd]
    unfold wdb_remove_agent
    simp [World.log, h2]
  have hq : (wdb_remove_agent a (wdb_get_agent_name a w).2).2.query_remove_fails
      = w.query_remove_fails := by
    rw [wdb_get_agent_name_snd]
    unfold wdb_remove_agent
    simp [World.log, h2]
  unfold sync_delete_agent
  simp only [h1, if_true, hr, lt_self_iff_false, if_false]
  refine ⟨?_, ?_, ?_, ?_, ?_⟩
  · split
    · simp [OS_RemoveAgentTimestamp, OS_RemoveCounter, wdbc_query_remove, hrw.1]
    · split_ifs <;>
        simp [OS_RemoveAgentTimestamp, OS_RemoveCounter, wdbc_query_remove, delete_diff, hrw.1]
  · split
    · simp [OS_RemoveAgentTimestamp, OS_RemoveCounter, wdbc_query_remove, hrw.2.1, hq]
    · split_ifs <;>
        simp_all [OS_RemoveAgentTimestamp, OS_RemoveCounter, wdbc_query_remove, delete_diff]
  · split
    · simp [OS_RemoveAgentTimestamp, OS_RemoveCounter, wdbc_query_remove, hrw.2.2.1]
    · split_ifs <;>
        simp [OS_RemoveAgentTimestamp, OS_RemoveCounter, wdbc_query_remove, delete_diff,
          hrw.2.2.1]
  · split
    · simp [OS_RemoveAgentTimestamp, OS_RemoveCounter, wdbc_query_remove, hrw.2.2.2.1]
    · split_ifs <;>
        simp [OS_RemoveAgentTimestamp, OS_RemoveCounter, wdbc_query_remove, delete_diff,
          hrw.2.2.2.1]
  · intro name hname hne
    rw [hname]
    simp [hne, OS_RemoveAgentTimestamp, OS_RemoveCounter, wdbc_query_remove, delete_diff,
      hrw.2.2.2.2]

theorem sync_delete_agent_of_not_deletes (keys : keystore) (w : World) (a : Int)
    (h : ¬ deletes keys w a) :
    (sync_delete_agent keys w a).agents = w.agents
    ∧ (sync_delete_agent keys w a).agent_dbs = w.agent_dbs
    ∧ (sync_delete_agent keys w a).counters = w.counters
    ∧ (sync_delete_agent keys w a).timestamps = w.timestamps
    ∧ (sync_delete_agent keys w a).diffs = w.diffs := by
  unfold sync_delete_agent
  by_cases h1 : OS_IsAllowedID keys (snprintf_id a) = -1
  · have h2 : a ∈ w.remove_agent_fails := by
      by_contra hc
      exact h ⟨h1, hc⟩
    have hr : (wdb_remove_agent a (wdb_get_agent_name a w).2).1 = -1 := by
      rw [wdb_get_agent_name_snd]
      unfold wdb_remove_agent
      simp [World.log, h2]
    simp only [h1, if_true, hr]
    rw [wdb_get_agent_name_snd]
    unfold wdb_remove_agent
    simp [World.log, h2]
  · simp [h1]

theorem sync_delete_agent_mono (keys : keystore) (w : World) (a : Int) :
    (∀ r, r ∈ (sync_delete_agent keys w a).agents → r ∈ w.agents)
    ∧ (∀ x, x ∈ (sync_delete_agent keys w a).agent_dbs → x ∈ w.agent_dbs)
    ∧ (∀ x, x ∈ (sync_delete_agent keys w a).counters → x ∈ w.counters)
    ∧ (∀ x, x ∈ (sync_delete_agent keys w a).timestamps → x ∈ w.timestamps)
    ∧ (∀ x, x ∈ (sync_delete_agent keys w a).diffs → x ∈ w.diffs) := by
  unfold sync_delete_agent
  by_cases h1 : OS_IsAllowedID keys (snprintf_id a) = -1
  · simp only [h1, if_true, wdb_get_agent_name_snd]
    by_cases h2 : a ∈ w.remove_agent_fails
    · have hr : wdb_remove_agent a (w.log (.get_agent_name a))
          = (-1, (w.log (.get_agent_name a)).log (.remove_agent a)) := by
        unfold wdb_remove_agent
        simp [World.log, h2]
      rw [hr]
      simp [World.log]
    · have hr : wdb_remove_agent a (w.log (.get_agent_name a))
          = (0, { w with agents := w.agents.filter (fun r => r.id ≠ a),
                         trace := w.trace ++ [.get_agent_name a] ++ [.remove_agent a] }) := by
        unfold wdb_remove_agent
        simp [World.log, h2]
      rw [hr]
      simp only [lt_self_iff_false, if_false]
      by_cases hq : snprintf_id a ∈ w.query_remove_fails
      · cases (wdb_get_agent_name a w).1 with
        | none =>
          simp +contextual [OS_RemoveAgentTimestamp, OS_RemoveCounter, wdbc_query_remove, hq,
            List.mem_filter]
        | some name =>
          by_cases hn : name = ""
          · simp +contextual [hn, OS_RemoveAgentTimestamp, OS_RemoveCounter, wdbc_query_remove,
              hq, List.mem_filter]
          · simp +contextual [hn, OS_RemoveAgentTimestamp, OS_RemoveCounter, wdbc_query_remove,
              delete_diff, hq, List.mem_filter]
      · cases (wdb_get_agent_name a w).1 with
        | none =>
          simp +contextual [OS_RemoveAgentTimestamp, OS_RemoveCounter, wdbc_query_remove, hq,
            List.mem_filter]
        | some name =>
          by_cases hn : name = ""
          · simp +contextual [hn, OS_RemoveAgentTimestamp, OS_RemoveCounter, wdbc_query_remove,
              hq, List.mem_filter]
          · simp +contextual [hn, OS_RemoveAgentTimestamp, OS_RemoveCounter, wdbc_query_remove,
              delete_diff, hq, List.mem_filter]
  · simp [h1]

theorem deletes_congr (keys : keystore) {w v : World} (a : Int)
    (h : v.remove_agent_fails = w.remove_agent_fails) : deletes keys v a ↔ deletes keys w a := by
  unfold deletes
  rw [h]

theorem sync_delete_agent_ids (keys : keystore) (w : World) (a n : Int) :
    n ∈ (sync_delete_agent keys w a).ids ↔ n ∈ w.ids ∧ ¬ (n = a ∧ deletes keys w a) := by
  by_cases h : deletes keys w a
  · simp only [World.ids, (sync_delete_agent_of_deletes keys w a h).1, h, and_true]
    simp only [List.mem_map, List.mem_filter, decide_eq_true_eq]
    constructor
    · rintro ⟨r, ⟨hr, hne⟩, rfl⟩
      exact ⟨⟨r, hr, rfl⟩, hne⟩
    · rintro ⟨⟨r, hr, rfl⟩, hne⟩
      exact ⟨r, ⟨hr, hne⟩, rfl⟩
  · simp only [World.ids, (sync_delete_agent_of_not_deletes keys w a h).1, h, and_false,
      not_false_eq_true, and_true]

theorem sync_delete_fold_faults (keys : keystore) (l : List Int) :
    ∀ w : World,
      (l.foldl (sync_delete_agent keys) w).remove_agent_fails = w.remove_agent_fails
      ∧ (l.foldl (sync_delete_agent keys) w).agent_name_fails = w.agent_name_fails := by
  induction l with
  | nil => intro w; exact ⟨rfl, rfl⟩
  | cons a l ih =>
    intro w
    obtain ⟨h1, h2⟩ := ih (sync_delete_agent keys w a)
    obtain ⟨g1, g2⟩ := sync_delete_agent_faults keys w a
    exact ⟨h1.trans g1, h2.trans g2⟩

theorem sync_delete_fold_mono (keys : keystore) (l : List Int) :
    ∀ w : World,
      (∀ r, r ∈ (l.foldl (sync_delete_agent keys) w).agents → r ∈ w.agents)
      ∧ (∀ x, x ∈ (l.foldl (sync_delete_agent keys) w).agent_dbs → x ∈ w.agent_dbs)
      ∧ (∀ x, x ∈ (l.foldl (sync_delete_agent keys) w).counters → x ∈ w.counters)
      ∧ (∀ x, x ∈ (l.foldl (sync_delete_agent keys) w).timestamps → x ∈ w.timestamps)
      ∧ (∀ x, x ∈ (l.foldl (sync_delete_agent keys) w).diffs → x ∈ w.diffs) := by
  induction l with
  | nil => intro w; exact ⟨fun _ h => h, fun _ h => h, fun _ h => h, fun _ h => h, fun _ h => h⟩
  | cons a l ih =>
    intro w
    obtain ⟨h1, h2, h3, h4, h5⟩ := ih (sync_delete_agent keys w a)
    obtain ⟨g1, g2, g3, g4, g5⟩ := sync_delete_agent_mono keys w a
    exact ⟨fun r h => g1 r (h1 r h), fun r h => g2 r (h2 r h), fun r h => g3 r (h3 r h),
      fun r h => g4 r (h4 r h), fun r h => g5 r (h5 r h)⟩

theorem sync_delete_fold_ids (keys : keystore) (l : List Int) :
    ∀ (w : World) (n : Int),
      n ∈ (l.foldl (sync_delete_agent keys) w).ids
        ↔ n ∈ w.ids ∧ ¬ (n ∈ l ∧ deletes keys w n) := by
  induction l with
  | nil => intro w n; simp
  | cons a l ih =>
    intro w n
    simp only [List.foldl_cons, ih, sync_delete_agent_ids, List.mem_cons,
      deletes_congr keys n (sync_delete_agent_faults keys w a).1]
    by_cases hna : n = a
    · subst hna; tauto
    · tauto

theorem wdb_get_agent_name_congr (a : Int) {w v : World}
    (hf : v.agent_name_fails = w.agent_name_fails)
    (ha : v.agents.find? (fun r => r.id = a) = w.agents.find? (fun r => r.id = a)) :
    (wdb_get_agent_name a v).1 = (wdb_get_agent_name a w).1 := by
  unfold wdb_get_agent_name
  rw [hf, ha]
  split_ifs
  · rfl
  · split <;> rfl

theorem takeWhile_ne_of_forall (l : List Int) (h : ∀ n ∈ l, n ≠ -1) :
    l.takeWhile (fun a => a ≠ -1) = l := by
  induction l with
  | nil => rfl
  | cons a l ih =>
    have ha : a ≠ -1 := h a (List.mem_cons_self _ _)
    rw [List.takeWhile_cons, if_pos (by simpa using ha),
      ih (fun n hn => h n (List.mem_cons_of_mem _ hn))]

theorem sync_keys_with_wdb_eq (keys : keystore) (w : World)
    (hlist : w.get_all_agents_fails = false) :
    sync_keys_with_wdb keys w =
      (((keys.foldl sync_insert_entry w).ids.takeWhile (fun a => a ≠ -1)).foldl
        (sync_delete_agent keys) ((keys.foldl sync_insert_entry w).log .get_all_agents)) := by
  have h : (keys.foldl sync_insert_entry w).get_all_agents_fails = false := by
    rw [(sync_insert_fold_answers keys w).1, hlist]
  unfold sync_keys_with_wdb wdb_get_all_agents
  simp only [h, Bool.false_eq_true, if_false]
  rfl

theorem sync_keys_with_wdb_of_null (keys : keystore) (w : World)
    (hlist : w.get_all_agents_fails = true) :
    sync_keys_with_wdb keys w = (keys.foldl sync_insert_entry w).log .get_all_agents := by
  have h : (keys.foldl sync_insert_entry w).get_all_agents_fails = true := by
    rw [(sync_insert_fold_answers keys w).1, hlist]
  unfold sync_keys_with_wdb wdb_get_all_agents
  simp only [h, if_true]

theorem sync_insert_fold_lt (keys : keystore) (w : World)
    (hkeys : ∀ e ∈ keys, ∃ k : Nat, 0 < k ∧ k < 10 ^ 8 ∧ e.id = snprintf_id (k : Int))
    (hstore : ∀ r ∈ w.agents, 0 ≤ r.id ∧ r.id < 10 ^ 8) :
    ∀ n ∈ (keys.foldl sync_insert_entry w).ids, 0 ≤ n ∧ n < 10 ^ 8 := by
  intro n hn
  rcases (sync_insert_fold_ids keys w n).1 hn with h | ⟨-, e, he, rfl⟩
  · obtain ⟨r, hr, rfl⟩ := List.mem_map.1 h
    exact hstore r hr
  · obtain ⟨k, hk0, hk, hid⟩ := hkeys e he
    rw [hid, atoi_snprintf_id k hk]
    exact ⟨by omega, by exact_mod_cast hk⟩

/-! ## Agent key synchronisation: the claims -/

/-- C4 (as amended). When every keystore entry has as id string the `"%03d"`
rendering of a positive integer below 10^8, the ids of the store are
non-negative integers below 10^8, and the store answers the listing of the
agent ids and rejects no delete, then after one call of `sync_keys_with_wdb`
the agent ids of the store are exactly the ids of the keystore entries. -/
theorem sync_keys_with_wdb_converges (keys : keystore) (w : World)
    (hkeys : ∀ e ∈ keys, ∃ k : Nat, 0 < k ∧ k < 10 ^ 8 ∧ e.id = snprintf_id (k : Int))
    (hstore : ∀ r ∈ w.agents, 0 ≤ r.id ∧ r.id < 10 ^ 8)
    (hlist : w.get_all_agents_fails = false)
    (hok : w.remove_agent_fails = []) (n : Int) :
    n ∈ (sync_keys_with_wdb keys w).ids ↔ n ∈ keys.map (fun e => atoi e.id) := by
  have hlt := sync_insert_fold_lt keys w hkeys hstore
  have htw : (keys.foldl sync_insert_entry w).ids.takeWhile (fun a => a ≠ -1)
      = (keys.foldl sync_insert_entry w).ids :=
    takeWhile_ne_of_forall _ (fun m hm => by have := (hlt m hm).1; omega)
  rw [sync_keys_with_wdb_eq keys w hlist, htw, sync_delete_fold_ids]
  have hids : ((keys.foldl sync_insert_entry w).log .get_all_agents).ids
      = (keys.foldl sync_insert_entry w).ids := rfl
  have hfl : ((keys.foldl sync_insert_entry w).log .get_all_agents).remove_agent_fails = [] := by
    show (keys.foldl sync_insert_entry w).remove_agent_fails = []
    rw [(sync_insert_fold_frame keys w).1, hok]
  rw [hids]
  simp only [deletes, hfl, List.not_mem_nil, not_false_eq_true, and_true,
    OS_IsAllowedID_eq_neg_one, List.mem_map]
  constructor
  · rintro ⟨hn, hallow⟩
    have hex : ∃ e ∈ keys, e.id = snprintf_id n := by
      by_contra hc
      exact hallow ⟨hn, fun e he heq => hc ⟨e, he, heq⟩⟩
    obtain ⟨e, he, heq⟩ := hex
    obtain ⟨h0, h8⟩ := hlt n hn
    obtain ⟨m, rfl⟩ := Int.eq_ofNat_of_zero_le h0
    exact ⟨e, he, by rw [heq, atoi_snprintf_id m (by exact_mod_cast h8)]⟩
  · rintro ⟨e, he, rfl⟩
    obtain ⟨k, hk0, hk, hid⟩ := hkeys e he
    have hat : atoi e.id = (k : Int) := by rw [hid, atoi_snprintf_id k hk]
    have hmem : atoi e.id ∈ (keys.foldl sync_insert_entry w).ids :=
      (sync_insert_fold_ids keys w _).2 (Or.inr ⟨by rw [hat]; omega, e, he, rfl⟩)
    refine ⟨hmem, ?_⟩
    rintro ⟨-, hno⟩
    exact hno e he (by rw [hat]; exact hid)

/-- C4, witness: keystore with ids 001 and 002, store with agents 1 and 3;
after one call the store holds the agents 1 and 2. -/
theorem sync_keys_with_wdb_converges_witness :
    (sync_keys_with_wdb [⟨"001", "A", "any", none, "k1"⟩, ⟨"002", "B", "any", none, "k2"⟩]
        { World.quiet with agents := [⟨1, "A", "any", "k1", none⟩, ⟨3, "C", "any", "k3", none⟩] }).ids
      = [1, 2]
    ∧ ((2 : Int) ∈ (sync_keys_with_wdb
          [⟨"001", "A", "any", none, "k1"⟩, ⟨"002", "B", "any", none, "k2"⟩]
          { World.quiet with
            agents := [⟨1, "A", "any", "k1", none⟩, ⟨3, "C", "any", "k3", none⟩] }).ids
        ↔ (2 : Int) ∈ ([⟨"001", "A", "any", none, "k1"⟩, ⟨"002", "B", "any", none, "k2"⟩] :
            keystore).map (fun e => atoi e.id)) :=
  ⟨by decide,
   sync_keys_with_wdb_converges
     [⟨"001", "A", "any", none, "k1"⟩, ⟨"002", "B", "any", none, "k2"⟩]
     { World.quiet with agents := [⟨1, "A", "any", "k1", none⟩, ⟨3, "C", "any", "k3", none⟩] }
     (by
       intro e he
       simp only [List.mem_cons, List.mem_singleton, List.not_mem_nil, or_false] at he
       rcases he with rfl | rfl
       · exact ⟨1, by decide, by decide, by decide⟩
       · exact ⟨2, by decide, by decide, by decide⟩)
     (by
       intro r hr
       simp only [World.quiet, List.mem_cons, List.mem_singleton, List.not_mem_nil,
         or_false] at hr
       rcases hr with rfl | rfl <;> exact ⟨by decide, by decide⟩)
     rfl rfl 2⟩

/-- C4, counterexample to the claim as stated: the keystore holds the ids `1`
(integer value 1, not in the form `001`) and `002`, the store holds the agents
1 and 3 and accepts every request; after one call the store holds agent 2
only, while the ids of the keystore entries are 1 and 2. -/
theorem sync_keys_with_wdb_not_converges :
    (sync_keys_with_wdb [⟨"1", "A", "any", none, "k1"⟩, ⟨"002", "B", "any", none, "k2"⟩]
        { World.quiet with agents := [⟨1, "A", "any", "k1", none⟩, ⟨3, "C", "any", "k3", none⟩] }).ids
      = [2]
    ∧ ([⟨"1", "A", "any", none, "k1"⟩, ⟨"002", "B", "any", none, "k2"⟩] : keystore).map
        (fun e => atoi e.id) = [1, 2]
    ∧ ¬ ((1 : Int) ∈ (sync_keys_with_wdb
            [⟨"1", "A", "any", none, "k1"⟩, ⟨"002", "B", "any", none, "k2"⟩]
            { World.quiet with
              agents := [⟨1, "A", "any", "k1", none⟩, ⟨3, "C", "any", "k3", none⟩] }).ids
          ↔ (1 : Int) ∈ ([⟨"1", "A", "any", none, "k1"⟩, ⟨"002", "B", "any", none, "k2"⟩] :
              keystore).map (fun e => atoi e.id)) := by
  decide

theorem get_agent_group_snd (id : Int) (w : World) :
    (get_agent_group id w).2 = w.log (.get_agent_group id) := by
  unfold get_agent_group
  split <;> rfl

theorem wdb_insert_agent_trace (id : Int) (name ip key : String) (group : Option String)
    (w : World) :
    (wdb_insert_agent id name ip key group w).2.trace
      = w.trace ++ [.insert_agent id name ip key group] := by
  unfold wdb_insert_agent
  split_ifs <;> rfl

theorem sync_insert_entry_trace (w : World) (e : keyentry) :
    ∃ evs, (sync_insert_entry w e).trace = w.trace ++ evs ∧ ∀ x ∈ evs, x.is_delete = false := by
  unfold sync_insert_entry
  by_cases h0 : atoi e.id = 0
  · exact ⟨[], by simp [h0]⟩
  · simp only [h0, if_false, wdb_insert_agent_trace, get_agent_group_snd, World.log,
      List.append_assoc]
    exact ⟨_, rfl, by simp [Event.is_delete]⟩

theorem sync_insert_fold_trace (keys : keystore) :
    ∀ w : World, ∃ evs, (keys.foldl sync_insert_entry w).trace = w.trace ++ evs
      ∧ ∀ x ∈ evs, x.is_delete = false := by
  induction keys with
  | nil => intro w; exact ⟨[], by simp⟩
  | cons e es ih =>
    intro w
    obtain ⟨a, ha, ha2⟩ := sync_insert_entry_trace w e
    obtain ⟨b, hb, hb2⟩ := ih (sync_insert_entry w e)
    refine ⟨a ++ b, ?_, ?_⟩
    · rw [List.foldl_cons, hb, ha, List.append_assoc]
    · intro x hx
      rcases List.mem_append.1 hx with h | h
      · exact ha2 x h
      · exact hb2 x h

theorem sync_delete_agent_trace (keys : keystore) (w : World) (a : Int) :
    ∃ evs, (sync_delete_agent keys w a).trace = w.trace ++ evs
      ∧ ∀ x ∈ evs, x.is_upsert = false := by
  unfold sync_delete_agent
  by_cases h1 : OS_IsAllowedID keys (snprintf_id a) = -1
  · simp only [h1, if_true, wdb_get_agent_name_snd]
    by_cases h2 : a ∈ w.remove_agent_fails
    · have hr : wdb_remove_agent a (w.log (.get_agent_name a))
          = (-1, (w.log (.get_agent_name a)).log (.remove_agent a)) := by
        unfold wdb_remove_agent
        simp [World.log, h2]
      rw [hr]
      simp only [World.log, List.append_assoc]
      exact ⟨_, rfl, by simp [Event.is_upsert]⟩
    · have hr : wdb_remove_agent a (w.log (.get_agent_name a))
          = (0, { w with agents := w.agents.filter (fun r => r.id ≠ a),
                         trace := w.trace ++ [.get_agent_name a] ++ [.remove_agent a] }) := by
        unfold wdb_remove_agent
        simp [World.log, h2]
      rw [hr]
      simp only [lt_self_iff_false, if_false]
      cases (wdb_get_agent_name a w).1 with
      | none =>
        simp only [OS_RemoveAgentTimestamp, OS_RemoveCounter, wdbc_query_remove,
          List.append_assoc]
        exact ⟨_, rfl, by simp [Event.is_upsert]⟩
      | some name =>
        by_cases hn : name = ""
        · simp only [hn, if_true, OS_RemoveAgentTimestamp, OS_RemoveCounter, wdbc_query_remove,
            List.append_assoc]
          exact ⟨_, rfl, by simp [Event.is_upsert]⟩
        · simp only [hn, if_false, OS_RemoveAgentTimestamp, OS_RemoveCounter, wdbc_query_remove,
            delete_diff, List.append_assoc]
          exact ⟨_, rfl, by simp [Event.is_upsert]⟩
  · exact ⟨[], by simp [h1]⟩

theorem sync_delete_fold_trace (keys : keystore) (l : List Int) :
    ∀ w : World, ∃ evs, (l.foldl (sync_delete_agent keys) w).trace = w.trace ++ evs
      ∧ ∀ x ∈ evs, x.is_upsert = false := by
  induction l with
  | nil => intro w; exact ⟨[], by simp⟩
  | cons e es ih =>
    intro w
    obtain ⟨a, ha, ha2⟩ := sync_delete_agent_trace keys w e
    obtain ⟨b, hb, hb2⟩ := ih (sync_delete_agent keys w e)
    refine ⟨a ++ b, ?_, ?_⟩
    · rw [List.foldl_cons, hb, ha, List.append_assoc]
    · intro x hx
      rcases List.mem_append.1 hx with h | h
      · exact ha2 x h
      · exact hb2 x h

theorem sync_keys_with_wdb_trace (keys : keystore) (w : World) :
    ∃ ups dels, (sync_keys_with_wdb keys w).trace = w.trace ++ (ups ++ dels)
      ∧ (∀ x ∈ ups, x.is_delete = false) ∧ (∀ x ∈ dels, x.is_upsert = false) := by
  obtain ⟨a, ha, ha2⟩ := sync_insert_fold_trace keys w
  obtain ⟨b, hb, hb2⟩ := sync_delete_fold_trace keys
    ((keys.foldl sync_insert_entry w).ids.takeWhile (fun a => a ≠ -1))
    ((keys.foldl sync_insert_entry w).log .get_all_agents)
  cases hl : w.get_all_agents_fails with
  | true =>
    refine ⟨a, [Event.get_all_agents], ?_, ha2, by simp [Event.is_upsert]⟩
    rw [sync_keys_with_wdb_of_null keys w hl]
    simp only [World.log, ha, List.append_assoc]
  | false =>
    refine ⟨a, Event.get_all_agents :: b, ?_, ha2, ?_⟩
    · rw [sync_keys_with_wdb_eq keys w hl, hb]
      simp only [World.log, ha, List.append_assoc, List.singleton_append]
    · intro x hx
      rcases List.mem_cons.1 hx with h | h
      · rw [h]; rfl
      · exact hb2 x h

/-- C5. In the calls issued by one run of `sync_keys_with_wdb`, every upsert
(`wdb_insert_agent`) comes before every delete (`wdb_remove_agent`): if the
call at position `i` is a delete and the call at position `j` is an upsert,
then `j < i`. -/
theorem sync_keys_with_wdb_upserts_before_deletes (keys : keystore) (w : World)
    (i j : Nat) (ei ej : Event)
    (hi : ((sync_keys_with_wdb keys w).trace.drop w.trace.length)[i]? = some ei)
    (hdel : ei.is_delete = true)
    (hj : ((sync_keys_with_wdb keys w).trace.drop w.trace.length)[j]? = some ej)
    (hup : ej.is_upsert = true) : j < i := by
  obtain ⟨ups, dels, htr, hups, hdels⟩ := sync_keys_with_wdb_trace keys w
  rw [htr, List.drop_left] at hi hj
  have hilen : ups.length ≤ i := by
    by_contra hc
    rw [List.getElem?_append_left (Nat.lt_of_not_le hc)] at hi
    have := hups ei (List.getElem?_mem hi)
    rw [hdel] at this
    exact Bool.noConfusion this
  have hjlen : j < ups.length := by
    by_contra hc
    rw [List.getElem?_append_right (Nat.le_of_not_lt hc)] at hj
    have := hdels ej (List.getElem?_mem hj)
    rw [hup] at this
    exact Bool.noConfusion this
  omega

/-- C5, witness: keystore 001 and 002, store with agents 1 and 3. The eight
calls of the run are listed; the upsert of agent 2 is call 3, the delete of
agent 3 is call 6. -/
theorem sync_keys_with_wdb_upserts_before_deletes_witness :
    (sync_keys_with_wdb [⟨"001", "A", "any", none, "k1"⟩, ⟨"002", "B", "any", none, "k2"⟩]
        { World.quiet with
          agents := [⟨1, "A", "any", "k1", none⟩, ⟨3, "C", "any", "k3", none⟩] }).trace
      = [.get_agent_group 1, .insert_agent 1 "A" "any" "k1" none,
         .get_agent_group 2, .insert_agent 2 "B" "any" "k2" none,
         .get_all_agents, .get_agent_name 3, .remove_agent 3,
         .wdb_query "wazuhdb remove 003", .remove_counter "003", .remove_timestamp "003",
         .delete_diff "C"]
    ∧ 3 < 6 :=
  ⟨by decide,
   sync_keys_with_wdb_upserts_before_deletes
     [⟨"001", "A", "any", none, "k1"⟩, ⟨"002", "B", "any", none, "k2"⟩]
     { World.quiet with agents := [⟨1, "A", "any", "k1", none⟩, ⟨3, "C", "any", "k3", none⟩] }
     6 3 (.remove_agent 3) (.insert_agent 2 "B" "any" "k2" none)
     (by decide) (by decide) (by decide) (by decide)⟩

/-- C6. The routine `wm_sync_agents(master_first_time)` reads the keys exactly
when the node is a worker or `master_first_time` is set; in that case it is
the synchronisation `sync_keys_with_wdb` of the keys just read, and on a master
with `master_first_time` false it leaves everything as it was: no key is read
and no request is sent to the store. -/
theorem wm_sync_agents_gating (master_first_time : Bool) (w : World) :
    (Event.read_keys ∈ (wm_sync_agents master_first_time w).trace.drop w.trace.length
        ↔ (w.is_worker = true ∨ master_first_time = true))
    ∧ ((w.is_worker = true ∨ master_first_time = true) →
        wm_sync_agents master_first_time w
          = sync_keys_with_wdb w.client_keys (w.log .read_keys))
    ∧ ((w.is_worker = false ∧ master_first_time = false) →
        wm_sync_agents master_first_time w = w) := by
  have hrun : (w.is_worker = true ∨ master_first_time = true) →
      wm_sync_agents master_first_time w
        = sync_keys_with_wdb w.client_keys (w.log .read_keys) := by
    intro h
    unfold wm_sync_agents OS_ReadKeys
    rw [if_pos]
    rcases h with h | h <;> simp [h]
  have hskip : (w.is_worker = false ∧ master_first_time = false) →
      wm_sync_agents master_first_time w = w := by
    rintro ⟨h1, h2⟩
    unfold wm_sync_agents
    rw [if_neg]
    simp [h1, h2]
  refine ⟨?_, hrun, hskip⟩
  constructor
  · intro hmem
    by_contra hc
    have hc2 : w.is_worker = false ∧ master_first_time = false := by
      cases hw : w.is_worker <;> cases hm : master_first_time <;> simp_all
    rw [hskip hc2] at hmem
    simp at hmem
  · intro h
    rw [hrun h]
    obtain ⟨ups, dels, htr, -, -⟩ := sync_keys_with_wdb_trace w.client_keys (w.log .read_keys)
    rw [htr]
    simp [World.log]

/-- C6, witness: a master with one key; with `master_first_time` the agent is
upserted, without it nothing happens. -/
theorem wm_sync_agents_gating_witness :
    (wm_sync_agents true { World.quiet with client_keys := [⟨"001", "A", "any", none, "k1"⟩] }).trace
      = [.read_keys, .get_agent_group 1, .insert_agent 1 "A" "any" "k1" none, .get_all_agents]
    ∧ wm_sync_agents false { World.quiet with client_keys := [⟨"001", "A", "any", none, "k1"⟩] }
      = { World.quiet with client_keys := [⟨"001", "A", "any", none, "k1"⟩] } :=
  ⟨by decide,
   (wm_sync_agents_gating false
      { World.quiet with client_keys := [⟨"001", "A", "any", none, "k1"⟩] }).2.2
      ⟨by decide, by decide⟩⟩

/-! ## Group synchronisation: the claims -/

/-- C8. The routine `wm_sync_shared_group` for one name: when the subdirectory
is absent it issues the delete of the group definition and nothing else; when
the subdirectory is present and the store has no group of that name it asks
the store and issues exactly one insert; when the subdirectory is present and
the store has the group it only asks the store, and nothing is changed. -/
theorem wm_sync_shared_group_cases (fname : String) (w : World) :
    (fname ∉ w.shared_dirs →
      (wm_sync_shared_group fname w).2.trace = w.trace ++ [.remove_group fname])
    ∧ (fname ∈ w.shared_dirs → fname ∉ w.groups →
      (wm_sync_shared_group fname w).2.trace
          = w.trace ++ [.find_group fname, .insert_group fname]
        ∧ (wm_sync_shared_group fname w).2.groups = w.groups ++ [fname])
    ∧ (fname ∈ w.shared_dirs → fname ∈ w.groups →
      (wm_sync_shared_group fname w).2 = w.log (.find_group fname)
        ∧ ∀ ev ∈ (wm_sync_shared_group fname w).2.trace.drop w.trace.length,
            ev.is_mutation = false) := by
  refine ⟨?_, ?_, ?_⟩
  · intro h
    simp [wm_sync_shared_group, opendir_shared, h, wdb_remove_group_db]
  · intro h hg
    simp [wm_sync_shared_group, opendir_shared, h, hg, wdb_find_group, wdb_insert_group,
      World.log]
  · intro h hg
    have he : (wm_sync_shared_group fname w).2 = w.log (.find_group fname) := by
      simp [wm_sync_shared_group, opendir_shared, h, hg, wdb_find_group]
    rw [he]
    refine ⟨rfl, ?_⟩
    simp [World.log, Event.is_mutation]

/-- C8, witness: the three cases on a store that knows the group `web` and a
shared directory that holds `web` and `db`. -/
theorem wm_sync_shared_group_cases_witness :
    (wm_sync_shared_group "old" sample_groups_world).2.trace = [.remove_group "old"]
    ∧ (wm_sync_shared_group "db" sample_groups_world).2.trace
        = [.find_group "db", .insert_group "db"]
    ∧ (wm_sync_shared_group "web" sample_groups_world).2
        = sample_groups_world.log (.find_group "web") :=
  ⟨(wm_sync_shared_group_cases "old" sample_groups_world).1 (by decide),
   ((wm_sync_shared_group_cases "db" sample_groups_world).2.1 (by decide) (by decide)).1,
   ((wm_sync_shared_group_cases "web" sample_groups_world).2.2 (by decide) (by decide)).1⟩

/-! ## Legacy group files: proofs -/

theorem atoi_of_hidden (name : String) (h : not_hidden name = false) : atoi name = 0 := by
  unfold not_hidden at h
  simp only [ne_eq, decide_not, Bool.not_eq_false', decide_eq_true_eq] at h
  cases hl : name.toList with
  | nil => rw [hl] at h; simp at h
  | cons c cs =>
    rw [hl] at h
    simp only [List.head?_cons, Option.some.injEq] at h
    subst h
    have hd : List.dropWhile isspace ('.' :: cs) = '.' :: cs := by
      rw [List.dropWhile_cons_of_neg (by decide)]
    have h0 : atoi_digits 0 ('.' :: cs) = 0 := by
      rw [atoi_digits, if_neg (by decide)]
    unfold atoi strtol
    rw [hl, hd]
    show int_of_long (min (atoi_digits 0 ('.' :: cs) : Int) (2 ^ 63 - 1)) = 0
    rw [h0, min_eq_left (by norm_num), int_of_long_of_range _ (by norm_num) (by norm_num)]
    rfl

theorem not_hidden_of_atoi_pos (name : String) (h : 0 < atoi name) : not_hidden name = true := by
  cases hn : not_hidden name with
  | true => rfl
  | false => rw [atoi_of_hidden name hn] at h; exact absurd h (by decide)

theorem fgets_read_line :
    ∀ (c : List Char) (k : Nat), String.utf8Len (c.takeWhile (fun x => x ≠ '\n')) ≤ k →
      (fgets_read k c).takeWhile (fun x => x ≠ '\n') = c.takeWhile (fun x => x ≠ '\n') := by
  intro c
  induction c with
  | nil => intro k _; rfl
  | cons x xs ih =>
    intro k h
    by_cases hx : x = '\n'
    · subst hx
      rw [fgets_read]
      split_ifs <;> rfl
    · have hx2 : decide (x ≠ '\n') = true := by simpa using hx
      rw [List.takeWhile_cons, hx2, if_pos rfl, String.utf8Len_cons] at h
      have hfit : x.utf8Size ≤ k := by omega
      rw [fgets_read, if_pos hfit, if_neg hx, List.takeWhile_cons, hx2, if_pos rfl,
        List.takeWhile_cons, hx2, if_pos rfl, ih (k - x.utf8Size) (by omega)]

theorem takeWhile_takeWhile_of_not_mem (p q : Char → Bool) :
    ∀ l : List Char, (∀ x ∈ l.takeWhile p, q x = true) →
      (l.takeWhile q).takeWhile p = l.takeWhile p := by
  intro l
  induction l with
  | nil => intro _; rfl
  | cons x xs ih =>
    intro h
    by_cases hp : p x = true
    · have hq : q x = true := h x (by rw [List.takeWhile_cons, if_pos hp]; exact List.mem_cons_self _ _)
      rw [List.takeWhile_cons, if_pos hq, List.takeWhile_cons, if_pos hp, List.takeWhile_cons,
        if_pos hp, ih (fun y hy => h y (by
          rw [List.takeWhile_cons, if_pos hp]; exact List.mem_cons_of_mem _ hy))]
    · rw [List.takeWhile_cons (p := p), if_neg hp]
      by_cases hq : q x = true
      · rw [List.takeWhile_cons, if_pos hq, List.takeWhile_cons, if_neg hp]
      · rw [List.takeWhile_cons, if_neg hq]
        rfl

theorem find_by_name (es : List GroupFile) (e : GroupFile) (he : e ∈ es)
    (hnd : (es.map fun x => x.name).Nodup) :
    es.find? (fun x => x.name = e.name) = some e := by
  induction es with
  | nil => simp at he
  | cons x xs ih =>
    rw [List.map_cons, List.nodup_cons] at hnd
    by_cases hxe : x = e
    · subst hxe
      simp [List.find?_cons]
    · have hin : e ∈ xs := by
        rcases List.mem_cons.1 he with h | h
        · exact absurd h.symm hxe
        · exact h
      have hne : ¬ x.name = e.name := by
        intro hc
        exact hnd.1 (hc ▸ List.mem_map.2 ⟨e, hin, rfl⟩)
      rw [List.find?_cons]
      simp only [hne, decide_False]
      exact ih hin hnd.2

theorem wdb_set_agent_groups_csv_frame (id : Int) (csv mode status origin : String) (w : World) :
    (wdb_set_agent_groups_csv id csv mode status origin w).2.groups_dir = w.groups_dir
    ∧ (wdb_set_agent_groups_csv id csv mode status origin w).2.is_worker = w.is_worker
    ∧ (wdb_set_agent_groups_csv id csv mode status origin w).2.set_groups_fails
        = w.set_groups_fails
    ∧ (wdb_set_agent_groups_csv id csv mode status origin w).2.trace
        = w.trace ++ [.set_agent_groups id csv mode status origin]
    ∧ ((wdb_set_agent_groups_csv id csv mode status origin w).1 = OS_SUCCESS
        ↔ id ∉ w.set_groups_fails) := by
  unfold wdb_set_agent_groups_csv
  split_ifs with h
  · simp [World.log, h, OS_INVALID, OS_SUCCESS]
  · simp [h]

theorem wm_sync_group_file_frame (group_file : String) (w : World) :
    (wm_sync_group_file group_file w).2.groups_dir = w.groups_dir
    ∧ (wm_sync_group_file group_file w).2.is_worker = w.is_worker
    ∧ (wm_sync_group_file group_file w).2.set_groups_fails = w.set_groups_fails
    ∧ ∃ evs, (wm_sync_group_file group_file w).2.trace = w.trace ++ evs := by
  unfold wm_sync_group_file
  by_cases h0 : atoi group_file ≤ 0
  · refine ⟨?_, ?_, ?_, [], ?_⟩ <;> simp [h0]
  · cases hfo : fopen_group_file group_file w with
    | none => refine ⟨?_, ?_, ?_, [], ?_⟩ <;> simp [h0, hfo]
    | some fp =>
      cases hfg : fgets OS_SIZE_65536 fp with
      | none => refine ⟨?_, ?_, ?_, [], ?_⟩ <;> simp [h0, hfo, hfg]
      | some groups_csv =>
        obtain ⟨h1, h2, h3, h4, -⟩ := wdb_set_agent_groups_csv_frame (atoi group_file)
          (String.mk (List.takeWhile (fun c => c ≠ '\n') (c_str groups_csv))) "override" "synced"
          "local" w
        simp only [h0, if_false, hfo, hfg]
        exact ⟨h1, h2, h3, _, h4⟩

theorem unlink_group_file_frame (name : String) (w : World) :
    (unlink_group_file name w).is_worker = w.is_worker
    ∧ (unlink_group_file name w).set_groups_fails = w.set_groups_fails
    ∧ (unlink_group_file name w).groups_dir
        = w.groups_dir.map (fun es => es.filter (fun e => e.name ≠ name))
    ∧ (unlink_group_file name w).trace = w.trace ++ [.unlink_group_file name] :=
  ⟨rfl, rfl, rfl, rfl⟩

theorem sync_legacy_entry_frame (w : World) (d : GroupFile) :
    (sync_legacy_entry w d).is_worker = w.is_worker
    ∧ (sync_legacy_entry w d).set_groups_fails = w.set_groups_fails
    ∧ ((sync_legacy_entry w d).groups_dir = w.groups_dir
        ∨ (sync_legacy_entry w d).groups_dir
            = w.groups_dir.map (fun es => es.filter (fun e => e.name ≠ d.name)))
    ∧ ∃ evs, (sync_legacy_entry w d).trace = w.trace ++ evs := by
  obtain ⟨g1, g2, g3, evs, g4⟩ := wm_sync_group_file_frame d.name w
  by_cases hh : not_hidden d.name = true
  · by_cases hw : w.is_worker = true
    · have e : sync_legacy_entry w d = unlink_group_file d.name w := by
        unfold sync_legacy_entry
        simp [hh, hw]
      rw [e]
      exact ⟨rfl, rfl, Or.inr rfl, _, rfl⟩
    · by_cases hr : OS_SUCCESS = (wm_sync_group_file d.name w).1
      · have e : sync_legacy_entry w d
            = unlink_group_file d.name (wm_sync_group_file d.name w).2 := by
          unfold sync_legacy_entry
          simp [hh, hw, hr]
        rw [e]
        refine ⟨g2, g3, Or.inr ?_, evs ++ [.unlink_group_file d.name], ?_⟩
        · rw [(unlink_group_file_frame _ _).2.2.1, g1]
        · rw [(unlink_group_file_frame _ _).2.2.2, g4, List.append_assoc]
      · have e : sync_legacy_entry w d = (wm_sync_group_file d.name w).2 := by
          unfold sync_legacy_entry
          simp [hh, hw, hr]
        rw [e]
        exact ⟨g2, g3, Or.inl g1, evs, g4⟩
  · have e : sync_legacy_entry w d = w := by
      unfold sync_legacy_entry
      simp [hh]
    rw [e]
    exact ⟨rfl, rfl, Or.inl rfl, [], by simp⟩

theorem sync_legacy_entry_sublist (w : World) (d : GroupFile) :
    (sync_legacy_entry w d).dir_entries.Sublist w.dir_entries := by
  rcases (sync_legacy_entry_frame w d).2.2.1 with h | h
  · rw [World.dir_entries, h]
    exact List.Sublist.refl _
  · rw [World.dir_entries, World.dir_entries, h]
    cases w.groups_dir with
    | none => exact List.Sublist.refl _
    | some es => exact List.filter_sublist _

theorem sync_legacy_entry_keeps (w : World) (d x : GroupFile) (hx : x ∈ w.dir_entries)
    (hne : x.name ≠ d.name) : x ∈ (sync_legacy_entry w d).dir_entries := by
  rcases (sync_legacy_entry_frame w d).2.2.1 with h | h
  · rw [World.dir_entries, h]
    exact hx
  · rw [World.dir_entries, h]
    rw [World.dir_entries] at hx
    cases hg : w.groups_dir with
    | none => rw [hg] at hx; simp at hx
    | some es =>
      rw [hg] at hx
      simp only [Option.map_some', Option.getD_some, List.mem_filter, decide_eq_true_eq]
      exact ⟨hx, hne⟩

theorem sync_legacy_fold_frame (l : List GroupFile) :
    ∀ w : World,
      (l.foldl sync_legacy_entry w).is_worker = w.is_worker
      ∧ (l.foldl sync_legacy_entry w).set_groups_fails = w.set_groups_fails
      ∧ (l.foldl sync_legacy_entry w).dir_entries.Sublist w.dir_entries
      ∧ (∀ x ∈ w.dir_entries, x.name ∉ l.map (fun d => d.name) →
          x ∈ (l.foldl sync_legacy_entry w).dir_entries)
      ∧ ∃ evs, (l.foldl sync_legacy_entry w).trace = w.trace ++ evs := by
  induction l with
  | nil =>
    intro w
    exact ⟨rfl, rfl, List.Sublist.refl _, fun x hx _ => hx, [], by simp⟩
  | cons d l ih =>
    intro w
    obtain ⟨h1, h2, h3, h4, evs, h5⟩ := ih (sync_legacy_entry w d)
    obtain ⟨g1, g2, -, evs0, g4⟩ := sync_legacy_entry_frame w d
    refine ⟨h1.trans g1, h2.trans g2, h3.trans (sync_legacy_entry_sublist w d), ?_,
      evs0 ++ evs, ?_⟩
    · intro x hx hnot
      simp only [List.map_cons, List.mem_cons, not_or] at hnot
      exact h4 x (sync_legacy_entry_keeps w d x hx hnot.1) hnot.2
    · rw [List.foldl_cons, h5, g4, List.append_assoc]

theorem fopen_group_file_of_mem (w : World) (e : GroupFile) (hin : e ∈ w.dir_entries)
    (hnd : (w.dir_entries.map fun x => x.name).Nodup) :
    fopen_group_file e.name w = e.content.map String.toList := by
  unfold fopen_group_file
  unfold World.dir_entries at hin hnd
  cases hg : w.groups_dir with
  | none => rw [hg] at hin; simp at hin
  | some es =>
    rw [hg] at hin hnd
    simp only [Option.getD_some] at hin hnd
    simp only [find_by_name es e hin hnd]

theorem wm_sync_group_file_of_content (w : World) (e : GroupFile) (c : String)
    (hin : e ∈ w.dir_entries) (hnd : (w.dir_entries.map fun x => x.name).Nodup)
    (hid : 0 < atoi e.name) (hc : e.content = some c) (hne : c.toList ≠ []) :
    wm_sync_group_file e.name w
      = wdb_set_agent_groups_csv (atoi e.name) (String.mk (read_csv c))
          "override" "synced" "local" w := by
  have hfo := fopen_group_file_of_mem w e hin hnd
  rw [hc] at hfo
  have hfg : fgets OS_SIZE_65536 c.toList = some (fgets_read (OS_SIZE_65536 - 1) c.toList) := by
    unfold fgets
    cases hl : c.toList with
    | nil => exact absurd hl hne
    | cons x xs => rfl
  unfold wm_sync_group_file
  simp only [not_le.2 hid, if_false, hfo, Option.map_some', hfg]
  rfl

theorem read_csv_eq_first_line (c : String)
    (hlen : (String.mk (first_line c)).utf8ByteSize < OS_SIZE_65536)
    (hnul : '\x00' ∉ first_line c) :
    read_csv c = first_line c := by
  have hline := fgets_read_line c.toList (OS_SIZE_65536 - 1) (by
    rw [String.utf8ByteSize_mk] at hlen
    unfold first_line at hlen
    omega)
  unfold read_csv c_str
  rw [takeWhile_takeWhile_of_not_mem, hline]
  · rfl
  · intro x hx
    rw [hline] at hx
    have hne : x ≠ '\x00' := fun h => hnul (h ▸ hx)
    simpa using hne

theorem toList_ne_nil_of_first_line (c : String) (hline : first_line c ≠ []) :
    c.toList ≠ [] := by
  intro h
  apply hline
  unfold first_line
  rw [h]
  rfl

theorem sync_legacy_entry_master (w : World) (e : GroupFile) (c : String)
    (hmaster : w.is_worker = false)
    (hin : e ∈ w.dir_entries) (hnd : (w.dir_entries.map fun x => x.name).Nodup)
    (hid : 0 < atoi e.name) (hc : e.content = some c) (hne : c.toList ≠ []) :
    (atoi e.name ∉ w.set_groups_fails →
      (sync_legacy_entry w e).trace
          = w.trace ++ [.set_agent_groups (atoi e.name) (String.mk (read_csv c))
              "override" "synced" "local", .unlink_group_file e.name]
        ∧ (sync_legacy_entry w e).dir_entries
          = w.dir_entries.filter (fun x => x.name ≠ e.name))
    ∧ (atoi e.name ∈ w.set_groups_fails →
      (sync_legacy_entry w e).trace
          = w.trace ++ [.set_agent_groups (atoi e.name) (String.mk (read_csv c))
              "override" "synced" "local"]
        ∧ (sync_legacy_entry w e).dir_entries = w.dir_entries) := by
  have hfile := wm_sync_group_file_of_content w e c hin hnd hid hc hne
  obtain ⟨f1, -, -, f4, f5⟩ := wdb_set_agent_groups_csv_frame (atoi e.name)
    (String.mk (read_csv c)) "override" "synced" "local" w
  have hh := not_hidden_of_atoi_pos e.name hid
  constructor
  · intro hok
    have e1 : sync_legacy_entry w e
        = unlink_group_file e.name (wm_sync_group_file e.name w).2 := by
      unfold sync_legacy_entry
      rw [if_pos hh, if_neg (by simp [hmaster]), if_pos]
      rw [hfile]
      exact (f5.2 hok).symm
    rw [e1, hfile]
    refine ⟨?_, ?_⟩
    · rw [(unlink_group_file_frame _ _).2.2.2, f4, List.append_assoc]
      rfl
    · unfold World.dir_entries
      rw [(unlink_group_file_frame _ _).2.2.1, f1]
      cases w.groups_dir <;> simp
  · intro hfail
    have e1 : sync_legacy_entry w e = (wm_sync_group_file e.name w).2 := by
      unfold sync_legacy_entry
      rw [if_pos hh, if_neg (by simp [hmaster]), if_neg]
      rw [hfile]
      intro h
      exact (f5.1 h.symm) hfail
    rw [e1, hfile]
    refine ⟨f4, ?_⟩
    unfold World.dir_entries
    rw [f1]

theorem wm_sync_legacy_groups_files_of_visible (w : World) (e : GroupFile)
    (hin : e ∈ w.dir_entries) (hh : not_hidden e.name = true) :
    wm_sync_legacy_groups_files w = w.dir_entries.foldl sync_legacy_entry w := by
  unfold wm_sync_legacy_groups_files
  unfold World.dir_entries at hin ⊢
  cases hg : w.groups_dir with
  | none => rw [hg] at hin; simp at hin
  | some es =>
    rw [hg] at hin
    simp only [Option.getD_some] at hin ⊢
    rw [if_neg]
    simp only [List.all_eq_true, Bool.not_eq_true', not_forall]
    exact ⟨e, hin, by simp [hh]⟩

theorem legacy_pass_master (w : World) (e : GroupFile) (c : String)
    (hmaster : w.is_worker = false)
    (hin : e ∈ w.dir_entries) (hnd : (w.dir_entries.map fun x => x.name).Nodup)
    (hid : 0 < atoi e.name) (hc : e.content = some c) (hne : c.toList ≠ []) :
    Event.set_agent_groups (atoi e.name) (String.mk (read_csv c)) "override" "synced" "local"
        ∈ (wm_sync_legacy_groups_files w).trace.drop w.trace.length
    ∧ (atoi e.name ∉ w.set_groups_fails →
        ∀ x ∈ (wm_sync_legacy_groups_files w).dir_entries, x.name ≠ e.name)
    ∧ (atoi e.name ∈ w.set_groups_fails →
        e ∈ (wm_sync_legacy_groups_files w).dir_entries) := by
  rw [wm_sync_legacy_groups_files_of_visible w e hin (not_hidden_of_atoi_pos e.name hid)]
  obtain ⟨pre, post, hsplit⟩ := List.append_of_mem hin
  have hall := hnd
  rw [hsplit, List.foldl_append, List.foldl_cons]
  rw [hsplit, List.map_append, List.map_cons, List.nodup_append] at hnd
  obtain ⟨-, hnd2, hdisj⟩ := hnd
  have hpre : e.name ∉ pre.map fun x => x.name := fun hm => hdisj hm (List.mem_cons_self _ _)
  have hpost : e.name ∉ post.map fun x => x.name := (List.nodup_cons.1 hnd2).1
  obtain ⟨a1, a2, a3, a4, evs1, a5⟩ := sync_legacy_fold_frame pre w
  have hin1 : e ∈ (pre.foldl sync_legacy_entry w).dir_entries := a4 e hin hpre
  have hnd1 : ((pre.foldl sync_legacy_entry w).dir_entries.map fun x => x.name).Nodup :=
    hall.sublist (a3.map _)
  obtain ⟨hs, hf⟩ := sync_legacy_entry_master (pre.foldl sync_legacy_entry w) e c
    (a1.trans hmaster) hin1 hnd1 hid hc hne
  rw [a2] at hs hf
  obtain ⟨-, -, b3, b4, evs3, b5⟩ :=
    sync_legacy_fold_frame post (sync_legacy_entry (pre.foldl sync_legacy_entry w) e)
  refine ⟨?_, ?_, ?_⟩
  · rw [b5]
    by_cases hok : atoi e.name ∈ w.set_groups_fails
    · rw [(hf hok).1, a5]
      simp only [List.append_assoc, List.drop_left]
      simp
    · rw [(hs hok).1, a5]
      simp only [List.append_assoc, List.drop_left]
      simp
  · intro hok x hx
    have hx2 := b3.subset hx
    rw [(hs hok).2] at hx2
    simpa using (List.mem_filter.1 hx2).2
  · intro hfail
    apply b4 e _ hpost
    rw [(hf hfail).2]
    exact hin1

/-! ## Legacy group files: the claims -/

/-- C9 (as amended). On a master, for every file of the legacy directory whose
name parses to a positive agent id and whose first line is non-empty, holds no
NUL byte and fits the read buffer (fewer than 65536 bytes), the store receives
`set_agent_groups(id, first line without its newline, "override", "synced",
"local")`; the file is gone after the pass when the store accepts the call,
and it is still there when the store rejects it. -/
theorem wm_sync_legacy_groups_files_master (w : World) (e : GroupFile) (c : String)
    (hmaster : w.is_worker = false)
    (hin : e ∈ w.dir_entries) (hnd : (w.dir_entries.map fun x => x.name).Nodup)
    (hid : 0 < atoi e.name) (hc : e.content = some c) (hline : first_line c ≠ [])
    (hlen : (String.mk (first_line c)).utf8ByteSize < OS_SIZE_65536)
    (hnul : '\x00' ∉ first_line c) :
    Event.set_agent_groups (atoi e.name) (String.mk (first_line c)) "override" "synced" "local"
        ∈ (wm_sync_legacy_groups_files w).trace.drop w.trace.length
    ∧ (atoi e.name ∉ w.set_groups_fails →
        ∀ x ∈ (wm_sync_legacy_groups_files w).dir_entries, x.name ≠ e.name)
    ∧ (atoi e.name ∈ w.set_groups_fails →
        e ∈ (wm_sync_legacy_groups_files w).dir_entries) := by
  rw [← read_csv_eq_first_line c hlen hnul]
  exact legacy_pass_master w e c hmaster hin hnd hid hc (toList_ne_nil_of_first_line c hline)

/-- C9, witness: on a master, the file `5` holding `groupA,groupB` and a
newline is handed to the store without the newline. -/
theorem wm_sync_legacy_groups_files_master_witness :
    Event.set_agent_groups 5 "groupA,groupB" "override" "synced" "local"
        ∈ (wm_sync_legacy_groups_files sample_legacy_world).trace
    ∧ (wm_sync_legacy_groups_files sample_legacy_world).dir_entries
        = [⟨"6", some "web"⟩, ⟨".tmp", some "x"⟩] :=
  ⟨(wm_sync_legacy_groups_files_master sample_legacy_world ⟨"5", some "groupA,groupB\n"⟩
      "groupA,groupB\n" (by decide) (by decide) (by decide) (by decide) (by decide)
      (by decide) (by decide) (by decide)).1,
   by decide⟩

theorem fgets_read_replicate (k m : Nat) (a : Char) (ha : a ≠ '\n') (h1 : a.utf8Size = 1) :
    fgets_read k (List.replicate (k + m) a) = List.replicate k a := by
  induction k with
  | zero =>
    cases m with
    | zero => rfl
    | succ m =>
      rw [Nat.zero_add, List.replicate_succ, fgets_read, if_neg (by omega)]
      rfl
  | succ k ih =>
    rw [Nat.add_right_comm, List.replicate_succ, List.replicate_succ, fgets_read,
      if_pos (by omega), if_neg ha, h1, Nat.add_sub_cancel, ih]

theorem takeWhile_replicate (k : Nat) (a : Char) (ha : a ≠ '\n') :
    (List.replicate k a).takeWhile (fun c => c ≠ '\n') = List.replicate k a := by
  induction k with
  | zero => rfl
  | succ k ih =>
    rw [List.replicate_succ, List.takeWhile_cons, if_pos (by simpa using ha), ih]

/-- C9, counterexample to the claim as stated: on a master, the file `5` holds
one line of 65536 characters `a`, one byte each. Its name parses to 5 and its
first line is not empty, but the store receives the first 65535 bytes only,
which is not the line. Likewise, of the line `ab`, NUL, `cd` the store
receives `ab` only. -/
theorem wm_sync_legacy_groups_files_truncates :
    (wm_sync_legacy_groups_files long_line_world).trace
      = [.set_agent_groups 5 (String.mk (List.replicate 65535 'a')) "override" "synced" "local",
         .unlink_group_file "5"]
    ∧ first_line (String.mk (List.replicate 65536 'a')) = List.replicate 65536 'a'
    ∧ String.mk (List.replicate 65535 'a')
        ≠ String.mk (first_line (String.mk (List.replicate 65536 'a')))
    ∧ (wm_sync_legacy_groups_files nul_line_world).trace
        = [.set_agent_groups 5 "ab" "override" "synced" "local", .unlink_group_file "5"]
    ∧ first_line "ab\x00cd\n" = "ab\x00cd".toList := by
  have hfl : first_line (String.mk (List.replicate 65536 'a')) = List.replicate 65536 'a' :=
    takeWhile_replicate 65536 'a' (by decide)
  have hcsv : read_csv (String.mk (List.replicate 65536 'a')) = List.replicate 65535 'a' := by
    unfold read_csv
    have h1 : (String.mk (List.replicate 65536 'a')).toList = List.replicate (65535 + 1) 'a' :=
      rfl
    have h2 : OS_SIZE_65536 - 1 = 65535 := rfl
    have h3 : c_str (List.replicate 65535 'a') = List.replicate 65535 'a' := by
      unfold c_str
      rw [List.takeWhile_eq_self_iff]
      intro x hx
      rw [List.eq_of_mem_replicate hx]
      rfl
    rw [h1, h2, fgets_read_replicate 65535 1 'a' (by decide) (by decide), h3]
    exact takeWhile_replicate 65535 'a' (by decide)
  have hin : (⟨"5", some (String.mk (List.replicate 65536 'a'))⟩ : GroupFile)
      ∈ long_line_world.dir_entries := List.mem_singleton.2 rfl
  have hnd : (long_line_world.dir_entries.map fun x => x.name).Nodup :=
    List.nodup_singleton "5"
  have hne : (String.mk (List.replicate 65536 'a')).toList ≠ [] := by
    have h1 : (String.mk (List.replicate 65536 'a')).toList
        = 'a' :: List.replicate 65535 'a' := rfl
    rw [h1]
    exact List.cons_ne_nil _ _
  have hstep := (sync_legacy_entry_master long_line_world
    ⟨"5", some (String.mk (List.replicate 65536 'a'))⟩ (String.mk (List.replicate 65536 'a'))
    rfl hin hnd (by decide) rfl hne).1 (by decide)
  have hpass := wm_sync_legacy_groups_files_of_visible long_line_world
    ⟨"5", some (String.mk (List.replicate 65536 'a'))⟩ hin (by decide)
  have hfold : long_line_world.dir_entries.foldl sync_legacy_entry long_line_world
      = sync_legacy_entry long_line_world
          ⟨"5", some (String.mk (List.replicate 65536 'a'))⟩ := rfl
  refine ⟨?_, hfl, ?_, by decide, by decide⟩
  · rw [hpass, hfold, hstep.1, hcsv]
    rfl
  · rw [hfl]
    intro h
    have hlen := congrArg (fun s : String => s.data.length) h
    simp only [List.length_replicate] at hlen
    exact absurd hlen (by decide)

theorem sync_legacy_entry_worker (w : World) (d : GroupFile) (hworker : w.is_worker = true) :
    sync_legacy_entry w d
      = if not_hidden d.name = true then unlink_group_file d.name w else w := by
  unfold sync_legacy_entry
  simp [hworker]

theorem unlink_group_file_dir_entries (name : String) (w : World) :
    (unlink_group_file name w).dir_entries = w.dir_entries.filter (fun e => e.name ≠ name) := by
  unfold World.dir_entries unlink_group_file
  cases w.groups_dir <;> simp

theorem sync_legacy_fold_worker (l : List GroupFile) :
    ∀ w : World, w.is_worker = true →
      (l.foldl sync_legacy_entry w).agents = w.agents
      ∧ (l.foldl sync_legacy_entry w).assignments = w.assignments
      ∧ (l.foldl sync_legacy_entry w).groups = w.groups
      ∧ (∀ x ∈ (l.foldl sync_legacy_entry w).dir_entries,
          x ∈ w.dir_entries ∧ ∀ d ∈ l, not_hidden d.name = true → x.name ≠ d.name)
      ∧ ∃ evs, (l.foldl sync_legacy_entry w).trace = w.trace ++ evs
          ∧ (∀ ev ∈ evs, ev.is_store = false)
          ∧ ∀ d ∈ l, not_hidden d.name = true → Event.unlink_group_file d.name ∈ evs := by
  induction l with
  | nil =>
    intro w _
    exact ⟨rfl, rfl, rfl, fun x hx => ⟨hx, fun d hd => by simp at hd⟩, [], by simp⟩
  | cons d l ih =>
    intro w hworker
    rw [List.foldl_cons, sync_legacy_entry_worker w d hworker]
    by_cases hh : not_hidden d.name = true
    · rw [if_pos hh]
      obtain ⟨h1, h2, h3, h4, evs, h5, h6, h7⟩ := ih (unlink_group_file d.name w) hworker
      refine ⟨h1, h2, h3, ?_, .unlink_group_file d.name :: evs, ?_, ?_, ?_⟩
      · intro x hx
        obtain ⟨hx1, hx2⟩ := h4 x hx
        rw [unlink_group_file_dir_entries] at hx1
        obtain ⟨hx3, hx4⟩ := List.mem_filter.1 hx1
        refine ⟨hx3, ?_⟩
        intro d2 hd2 hh2
        rcases List.mem_cons.1 hd2 with rfl | hd3
        · simpa using hx4
        · exact hx2 d2 hd3 hh2
      · rw [h5]
        simp [unlink_group_file]
      · intro ev hev
        rcases List.mem_cons.1 hev with rfl | hev2
        · rfl
        · exact h6 ev hev2
      · intro d2 hd2 hh2
        rcases List.mem_cons.1 hd2 with rfl | hd3
        · exact List.mem_cons_self _ _
        · exact List.mem_cons_of_mem _ (h7 d2 hd3 hh2)
    · rw [if_neg hh]
      obtain ⟨h1, h2, h3, h4, evs, h5, h6, h7⟩ := ih w hworker
      refine ⟨h1, h2, h3, ?_, evs, h5, h6, ?_⟩
      · intro x hx
        obtain ⟨hx1, hx2⟩ := h4 x hx
        refine ⟨hx1, ?_⟩
        intro d2 hd2 hh2
        rcases List.mem_cons.1 hd2 with rfl | hd3
        · exact absurd hh2 hh
        · exact hx2 d2 hd3 hh2
      · intro d2 hd2 hh2
        rcases List.mem_cons.1 hd2 with rfl | hd3
        · exact absurd hh2 hh
        · exact h7 d2 hd3 hh2

theorem rmdir_groups_dir_mem (w : World) (x : GroupFile)
    (hx : x ∈ (rmdir_groups_dir w).dir_entries) : x ∈ w.dir_entries := by
  unfold World.dir_entries rmdir_groups_dir at hx
  unfold World.dir_entries
  cases hg : w.groups_dir with
  | none => rw [hg] at hx; simp at hx
  | some es =>
    rw [hg] at hx
    cases es with
    | nil => simp at hx
    | cons y ys => simpa using hx

/-- C10. On a worker, whatever the files contain, after
`wm_sync_legacy_groups_files` no visible file is left in the legacy directory,
an `unlink` was issued for every visible file, no request at all was sent to
the store, and the store is unchanged. -/
theorem wm_sync_legacy_groups_files_worker (w : World) (hworker : w.is_worker = true) :
    (∀ x ∈ (wm_sync_legacy_groups_files w).dir_entries, not_hidden x.name = false)
    ∧ (∀ x ∈ w.dir_entries, not_hidden x.name = true →
        Event.unlink_group_file x.name
          ∈ (wm_sync_legacy_groups_files w).trace.drop w.trace.length)
    ∧ (∀ ev ∈ (wm_sync_legacy_groups_files w).trace.drop w.trace.length, ev.is_store = false)
    ∧ (wm_sync_legacy_groups_files w).agents = w.agents
    ∧ (wm_sync_legacy_groups_files w).assignments = w.assignments
    ∧ (wm_sync_legacy_groups_files w).groups = w.groups := by
  unfold wm_sync_legacy_groups_files
  cases hg : w.groups_dir with
  | none => simp [World.dir_entries, hg]
  | some es =>
    have hde : w.dir_entries = es := by simp [World.dir_entries, hg]
    obtain ⟨h1, h2, h3, h4, evs, h5, h6, h7⟩ := sync_legacy_fold_worker es w hworker
    have hhid : ∀ x ∈ (es.foldl sync_legacy_entry w).dir_entries, not_hidden x.name = false := by
      intro x hx
      obtain ⟨hx1, hx2⟩ := h4 x hx
      rw [hde] at hx1
      cases hn : not_hidden x.name with
      | false => rfl
      | true => exact absurd rfl (hx2 x hx1 hn)
    simp only [hde]
    split_ifs with hempty
    · refine ⟨fun x hx => hhid x (rmdir_groups_dir_mem _ x hx), ?_, ?_, h1, h2, h3⟩
      · intro x hx hh
        simp only [rmdir_groups_dir, h5, List.append_assoc, List.drop_left, List.mem_append]
        exact Or.inl (h7 x hx hh)
      · intro ev hev
        simp only [rmdir_groups_dir, h5, List.append_assoc, List.drop_left, List.mem_append,
          List.mem_singleton] at hev
        rcases hev with hev | rfl
        · exact h6 ev hev
        · rfl
    · refine ⟨hhid, ?_, ?_, h1, h2, h3⟩
      · intro x hx hh
        rw [h5, List.drop_left]
        exact h7 x hx hh
      · intro ev hev
        rw [h5, List.drop_left] at hev
        exact h6 ev hev

/-- C10, witness: on a worker the files `5` and `6` are deleted unread, and the
hidden file stays. -/
theorem wm_sync_legacy_groups_files_worker_witness :
    (wm_sync_legacy_groups_files { sample_legacy_world with is_worker := true }).trace
      = [.unlink_group_file "5", .unlink_group_file "6"]
    ∧ ∀ x ∈ (wm_sync_legacy_groups_files
          { sample_legacy_world with is_worker := true }).dir_entries,
        not_hidden x.name = false :=
  ⟨by decide,
   (wm_sync_legacy_groups_files_worker { sample_legacy_world with is_worker := true }
      (by decide)).1⟩

/-! ## Legacy group files: further proofs -/

theorem wm_sync_legacy_groups_files_some (w : World) (es : List GroupFile)
    (hg : w.groups_dir = some es) :
    wm_sync_legacy_groups_files w
      = if es.all (fun e => !not_hidden e.name) = true
        then rmdir_groups_dir (es.foldl sync_legacy_entry w)
        else es.foldl sync_legacy_entry w := by
  unfold wm_sync_legacy_groups_files
  rw [hg]

theorem rmdir_groups_dir_keeps (w : World) (x : GroupFile) (hx : x ∈ w.dir_entries) :
    x ∈ (rmdir_groups_dir w).dir_entries := by
  unfold World.dir_entries rmdir_groups_dir
  unfold World.dir_entries at hx
  cases hg : w.groups_dir with
  | none => rw [hg] at hx; simp at hx
  | some es =>
    rw [hg] at hx
    cases es with
    | nil => simp at hx
    | cons y ys => simpa using hx

theorem legacy_fold_at_entry (w : World) (e : GroupFile) (hin : e ∈ w.dir_entries)
    (hnd : (w.dir_entries.map fun x => x.name).Nodup) :
    ∃ pre post, w.dir_entries = pre ++ e :: post
      ∧ w.dir_entries.foldl sync_legacy_entry w
          = post.foldl sync_legacy_entry (sync_legacy_entry (pre.foldl sync_legacy_entry w) e)
      ∧ (pre.foldl sync_legacy_entry w).is_worker = w.is_worker
      ∧ (pre.foldl sync_legacy_entry w).set_groups_fails = w.set_groups_fails
      ∧ e ∈ (pre.foldl sync_legacy_entry w).dir_entries
      ∧ ((pre.foldl sync_legacy_entry w).dir_entries.map fun x => x.name).Nodup
      ∧ e.name ∉ post.map (fun x => x.name) := by
  obtain ⟨pre, post, hsplit⟩ := List.append_of_mem hin
  have hall := hnd
  rw [hsplit, List.map_append, List.map_cons, List.nodup_append] at hnd
  obtain ⟨-, hnd2, hdisj⟩ := hnd
  have hpre : e.name ∉ pre.map fun x => x.name := fun hm => hdisj hm (List.mem_cons_self _ _)
  obtain ⟨a1, a2, a3, a4, -⟩ := sync_legacy_fold_frame pre w
  refine ⟨pre, post, hsplit, ?_, a1, a2, a4 e hin hpre, hall.sublist (a3.map _),
    (List.nodup_cons.1 hnd2).1⟩
  rw [hsplit, List.foldl_append, List.foldl_cons]

theorem wm_sync_group_file_of_empty (w : World) (e : GroupFile) (c : String)
    (hin : e ∈ w.dir_entries) (hnd : (w.dir_entries.map fun x => x.name).Nodup)
    (hid : 0 < atoi e.name) (hc : e.content = some c) (hempty : c.toList = []) :
    wm_sync_group_file e.name w = (OS_SUCCESS, w) := by
  have hfo := fopen_group_file_of_mem w e hin hnd
  rw [hc] at hfo
  unfold wm_sync_group_file
  simp only [not_le.2 hid, if_false, hfo, Option.map_some', hempty, fgets]

theorem sync_legacy_entry_bad_id (v : World) (e : GroupFile) (hmaster : v.is_worker = false)
    (hid : atoi e.name ≤ 0) : sync_legacy_entry v e = v := by
  unfold sync_legacy_entry
  by_cases hh : not_hidden e.name = true
  · have hfile : wm_sync_group_file e.name v = (OS_INVALID, v) := by
      unfold wm_sync_group_file
      simp [hid]
    rw [if_pos hh, if_neg (by simp [hmaster]), hfile, if_neg (by simp [OS_SUCCESS, OS_INVALID])]
  · rw [if_neg hh]

theorem sync_legacy_fold_keeps_bad_id (l : List GroupFile) (x : GroupFile)
    (hid : atoi x.name ≤ 0) :
    ∀ w : World, w.is_worker = false → x ∈ w.dir_entries →
      x ∈ (l.foldl sync_legacy_entry w).dir_entries := by
  induction l with
  | nil => intro w _ hx; exact hx
  | cons d l ih =>
    intro w hmaster hx
    rw [List.foldl_cons]
    refine ih _ ((sync_legacy_entry_frame w d).1.trans hmaster) ?_
    by_cases hname : x.name = d.name
    · rw [sync_legacy_entry_bad_id w d hmaster (hname ▸ hid)]
      exact hx
    · exact sync_legacy_entry_keeps w d x hx hname

theorem wm_sync_group_file_events (group_file : String) (w : World) :
    ∃ evs, (wm_sync_group_file group_file w).2.trace = w.trace ++ evs
      ∧ ∀ ev ∈ evs, ev ≠ Event.rmdir_groups_dir := by
  unfold wm_sync_group_file
  by_cases h0 : atoi group_file ≤ 0
  · exact ⟨[], by simp [h0]⟩
  · cases hfo : fopen_group_file group_file w with
    | none => exact ⟨[], by simp [h0, hfo]⟩
    | some fp =>
      cases hfg : fgets OS_SIZE_65536 fp with
      | none => exact ⟨[], by simp [h0, hfo, hfg]⟩
      | some groups_csv =>
        obtain ⟨-, -, -, h4, -⟩ := wdb_set_agent_groups_csv_frame (atoi group_file)
          (String.mk (List.takeWhile (fun c => c ≠ '\n') (c_str groups_csv))) "override" "synced"
          "local" w
        simp only [h0, if_false, hfo, hfg]
        exact ⟨_, h4, by simp⟩

theorem sync_legacy_entry_events (w : World) (d : GroupFile) :
    ∃ evs, (sync_legacy_entry w d).trace = w.trace ++ evs
      ∧ ∀ ev ∈ evs, ev ≠ Event.rmdir_groups_dir := by
  obtain ⟨evs, g4, g5⟩ := wm_sync_group_file_events d.name w
  unfold sync_legacy_entry
  by_cases hh : not_hidden d.name = true
  · rw [if_pos hh]
    by_cases hw : w.is_worker = true
    · rw [if_pos hw]
      exact ⟨[.unlink_group_file d.name], rfl, by simp⟩
    · rw [if_neg hw]
      by_cases hr : OS_SUCCESS = (wm_sync_group_file d.name w).1
      · rw [if_pos hr]
        refine ⟨evs ++ [.unlink_group_file d.name], ?_, ?_⟩
        · rw [(unlink_group_file_frame _ _).2.2.2, g4, List.append_assoc]
        · intro ev hev
          rcases List.mem_append.1 hev with h | h
          · exact g5 ev h
          · simp only [List.mem_singleton] at h
            rw [h]
            simp
      · rw [if_neg hr]
        exact ⟨evs, g4, g5⟩
  · rw [if_neg hh]
    exact ⟨[], by simp⟩

theorem sync_legacy_fold_events (l : List GroupFile) :
    ∀ w : World, ∃ evs, (l.foldl sync_legacy_entry w).trace = w.trace ++ evs
      ∧ ∀ ev ∈ evs, ev ≠ Event.rmdir_groups_dir := by
  induction l with
  | nil => intro w; exact ⟨[], by simp⟩
  | cons d l ih =>
    intro w
    obtain ⟨a, ha, ha2⟩ := sync_legacy_entry_events w d
    obtain ⟨b, hb, hb2⟩ := ih (sync_legacy_entry w d)
    refine ⟨a ++ b, ?_, ?_⟩
    · rw [List.foldl_cons, hb, ha, List.append_assoc]
    · intro x hx
      rcases List.mem_append.1 hx with h | h
      · exact ha2 x h
      · exact hb2 x h

theorem sync_legacy_entry_master_eq (v : World) (d : GroupFile) (hmaster : v.is_worker = false)
    (hh : not_hidden d.name = true) :
    sync_legacy_entry v d
      = if OS_SUCCESS = (wm_sync_group_file d.name v).1
        then unlink_group_file d.name (wm_sync_group_file d.name v).2
        else (wm_sync_group_file d.name v).2 := by
  unfold sync_legacy_entry
  simp [hmaster, hh]

/-- C11 (as amended). On a master, for every file with a positive agent id and
of length zero, `wm_sync_group_file` reports success and leaves everything as
it was, so that no request reaches the store, and after the pass the file is
gone. -/
theorem wm_sync_group_file_empty_file (w : World) (e : GroupFile) (c : String)
    (hmaster : w.is_worker = false)
    (hin : e ∈ w.dir_entries) (hnd : (w.dir_entries.map fun x => x.name).Nodup)
    (hid : 0 < atoi e.name) (hc : e.content = some c) (hempty : c.toList = []) :
    wm_sync_group_file e.name w = (OS_SUCCESS, w)
    ∧ ∀ x ∈ (wm_sync_legacy_groups_files w).dir_entries, x.name ≠ e.name := by
  refine ⟨wm_sync_group_file_of_empty w e c hin hnd hid hc hempty, ?_⟩
  have hh := not_hidden_of_atoi_pos e.name hid
  rw [wm_sync_legacy_groups_files_of_visible w e hin hh]
  obtain ⟨pre, post, -, hfold, a1, -, hin1, hnd1, -⟩ := legacy_fold_at_entry w e hin hnd
  rw [hfold]
  have hstep : sync_legacy_entry (pre.foldl sync_legacy_entry w) e
      = unlink_group_file e.name (pre.foldl sync_legacy_entry w) := by
    rw [sync_legacy_entry_master_eq _ e (a1.trans hmaster) hh,
      wm_sync_group_file_of_empty _ e c hin1 hnd1 hid hc hempty, if_pos rfl]
  intro x hx
  have hx2 := (sync_legacy_fold_frame post _).2.2.1.subset hx
  rw [hstep, unlink_group_file_dir_entries] at hx2
  simpa using (List.mem_filter.1 hx2).2

/-- C11, witness: the file `6` of length zero is deleted and nothing is asked
of the store for it. -/
theorem wm_sync_group_file_empty_file_witness :
    wm_sync_group_file "6" blank_line_world = (OS_SUCCESS, blank_line_world)
    ∧ ∀ x ∈ (wm_sync_legacy_groups_files blank_line_world).dir_entries, x.name ≠ "6" :=
  wm_sync_group_file_empty_file blank_line_world ⟨"6", some ""⟩ "" (by decide) (by decide)
    (by decide) (by decide) (by decide) (by decide)

/-- C11, counterexample to the claim as stated: on a master the file `5` holds
a newline only, so its single line is empty once the newline is stripped; yet
`wm_sync_group_file` sends the store `set_agent_groups(5, "", "override",
"synced", "local")`, which replaces the assignment of agent 5. -/
theorem wm_sync_group_file_blank_line_mutates :
    first_line "\n" = []
    ∧ (wm_sync_group_file "5" blank_line_world).2.trace
        = [.set_agent_groups 5 "" "override" "synced" "local"]
    ∧ (wm_sync_group_file "5" blank_line_world).2.assignments = [⟨5, "", "synced", "local"⟩]
    ∧ ((wm_sync_group_file "5" blank_line_world).2.trace.map Event.is_mutation) = [true] := by
  decide

/-- C12 (as amended). On a master, a file of the legacy directory whose name
does not parse to a positive agent id is skipped: in whatever state the loop
reaches it, its turn changes nothing and issues no call, and after the pass the
file is still in the directory. -/
theorem wm_sync_legacy_groups_files_bad_id (w : World) (e : GroupFile)
    (hmaster : w.is_worker = false) (hin : e ∈ w.dir_entries) (hid : atoi e.name ≤ 0) :
    (∀ v : World, v.is_worker = false → sync_legacy_entry v e = v)
    ∧ e ∈ (wm_sync_legacy_groups_files w).dir_entries := by
  refine ⟨fun v hv => sync_legacy_entry_bad_id v e hv hid, ?_⟩
  unfold World.dir_entries at hin
  cases hg : w.groups_dir with
  | none => rw [hg] at hin; simp at hin
  | some es =>
    have hde : w.dir_entries = es := by simp [World.dir_entries, hg]
    have hfold := sync_legacy_fold_keeps_bad_id es e hid w hmaster (by rw [hde]; simpa [hg] using hin)
    rw [wm_sync_legacy_groups_files_some w es hg]
    split_ifs
    · exact rmdir_groups_dir_keeps _ e hfold
    · exact hfold

/-- C12, witness: on a master the files `abc` and `.5` are left in place and
the pass issues no call. -/
theorem wm_sync_legacy_groups_files_bad_id_witness :
    (⟨"abc", some "web\n"⟩ : GroupFile) ∈ (wm_sync_legacy_groups_files bad_name_master).dir_entries
    ∧ (wm_sync_legacy_groups_files bad_name_master).trace = [] :=
  ⟨(wm_sync_legacy_groups_files_bad_id bad_name_master ⟨"abc", some "web\n"⟩ (by decide)
      (by decide) (by decide)).2, by decide⟩

/-- C12, counterexample to the claim as stated: on a worker the file `abc`,
whose name parses to no agent id, is deleted. -/
theorem wm_sync_legacy_groups_files_worker_deletes_bad_id :
    atoi "abc" = 0
    ∧ (wm_sync_legacy_groups_files bad_name_worker).dir_entries = []
    ∧ (wm_sync_legacy_groups_files bad_name_worker).trace = [.unlink_group_file "abc"] := by
  decide

/-- C13 (as amended). The pass `wm_sync_legacy_groups_files` attempts the
removal of the directory exactly when the directory could be opened and the
scan of that pass met no visible entry (the directory held nothing, or hidden
files only). -/
theorem wm_sync_legacy_groups_files_rmdir (w : World) :
    Event.rmdir_groups_dir ∈ (wm_sync_legacy_groups_files w).trace.drop w.trace.length
      ↔ ∃ es, w.groups_dir = some es ∧ ∀ e ∈ es, not_hidden e.name = false := by
  cases hg : w.groups_dir with
  | none =>
    have : wm_sync_legacy_groups_files w = w := by
      unfold wm_sync_legacy_groups_files
      rw [hg]
    rw [this]
    simp
  | some es =>
    obtain ⟨evs, h1, h2⟩ := sync_legacy_fold_events es w
    rw [wm_sync_legacy_groups_files_some w es hg]
    have hall : es.all (fun e => !not_hidden e.name) = true
        ↔ ∀ e ∈ es, not_hidden e.name = false := by
      simp
    split_ifs with hempty
    · have : (rmdir_groups_dir (es.foldl sync_legacy_entry w)).trace
          = w.trace ++ (evs ++ [.rmdir_groups_dir]) := by
        simp [rmdir_groups_dir, h1]
      rw [this, List.drop_left]
      simp only [List.mem_append, List.mem_singleton, or_true, true_iff]
      exact ⟨es, rfl, hall.1 hempty⟩
    · rw [h1, List.drop_left]
      constructor
      · intro hmem
        exact absurd rfl (h2 _ hmem)
      · rintro ⟨es2, he, hh⟩
        simp only [Option.some.injEq] at he
        subst he
        exact absurd (hall.2 hh) hempty

/-- C13, witness: the directory of `bad_name_master` holds a visible file, so
no removal is attempted, and with the hidden file alone it is. -/
theorem wm_sync_legacy_groups_files_rmdir_witness :
    Event.rmdir_groups_dir ∉ (wm_sync_legacy_groups_files bad_name_master).trace.drop
        bad_name_master.trace.length
    ∧ Event.rmdir_groups_dir ∈
        (wm_sync_legacy_groups_files
          { bad_name_master with groups_dir := some [⟨".5", some "web\n"⟩] }).trace.drop
        bad_name_master.trace.length :=
  ⟨fun h => by
      obtain ⟨es, h1, h2⟩ := (wm_sync_legacy_groups_files_rmdir bad_name_master).1 h
      cases h1
      exact absurd (h2 ⟨"abc", some "web\n"⟩ (by simp)) (by decide),
   (wm_sync_legacy_groups_files_rmdir
      { bad_name_master with groups_dir := some [⟨".5", some "web\n"⟩] }).2
      ⟨_, rfl, by decide⟩⟩

/-- C13, counterexample to the claim as stated: on a worker the directory holds
the single file `5`; the pass deletes it, the directory has become empty, and
no removal of the directory is attempted: it is still there after the pass. -/
theorem wm_sync_legacy_groups_files_no_rmdir_after_delete :
    (wm_sync_legacy_groups_files one_file_worker).groups_dir = some []
    ∧ (wm_sync_legacy_groups_files one_file_worker).trace = [.unlink_group_file "5"]
    ∧ Event.rmdir_groups_dir ∉ (wm_sync_legacy_groups_files one_file_worker).trace := by
  decide

/-! ## Dangling cleanup: proofs -/

theorem wdb_get_agent_name_log (id : Int) (w : World) (ev : Event) :
    (wdb_get_agent_name id (w.log ev)).1 = (wdb_get_agent_name id w).1 :=
  wdb_get_agent_name_congr id rfl rfl

theorem clean_group_entry_cases (w : World) (d : GroupFile) :
    (clean_group_entry w d).agents = w.agents
    ∧ (clean_group_entry w d).agent_name_fails = w.agent_name_fails
    ∧ ((0 < atoi d.name ∧ (wdb_get_agent_name (atoi d.name) w).1 = some ""
          ∧ (clean_group_entry w d).dir_entries
              = w.dir_entries.filter (fun x => x.name ≠ d.name))
        ∨ (¬ (0 < atoi d.name ∧ (wdb_get_agent_name (atoi d.name) w).1 = some "")
          ∧ (clean_group_entry w d).dir_entries = w.dir_entries)) := by
  by_cases hh : not_hidden d.name = true
  · by_cases hid : atoi d.name ≤ 0
    · have e : clean_group_entry w d = w := by
        unfold clean_group_entry
        simp [hh, hid]
      rw [e]
      exact ⟨rfl, rfl, Or.inr ⟨fun h => absurd h.1 (not_lt.2 hid), rfl⟩⟩
    · cases hn : (wdb_get_agent_name (atoi d.name) w).1 with
      | none =>
        have e : clean_group_entry w d = w.log (.get_agent_name (atoi d.name)) := by
          unfold clean_group_entry
          simp [hh, hid, hn, wdb_get_agent_name_snd]
        rw [e]
        exact ⟨rfl, rfl, Or.inr ⟨by simp, rfl⟩⟩
      | some name =>
        by_cases hname : name = ""
        · have e : clean_group_entry w d
              = unlink_group_file d.name (w.log (.get_agent_name (atoi d.name))) := by
            unfold clean_group_entry
            simp [hh, hid, hn, hname, wdb_get_agent_name_snd]
          rw [e]
          refine ⟨rfl, rfl, Or.inl ⟨not_le.1 hid, by rw [hname], ?_⟩⟩
          rw [unlink_group_file_dir_entries]
          rfl
        · have e : clean_group_entry w d = w.log (.get_agent_name (atoi d.name)) := by
            unfold clean_group_entry
            simp [hh, hid, hn, hname, wdb_get_agent_name_snd]
          rw [e]
          exact ⟨rfl, rfl, Or.inr ⟨by simp [hname], rfl⟩⟩
  · have e : clean_group_entry w d = w := by
      unfold clean_group_entry
      simp [hh]
    rw [e]
    refine ⟨rfl, rfl, Or.inr ⟨fun h => ?_, rfl⟩⟩
    exact hh (not_hidden_of_atoi_pos d.name h.1)

theorem clean_group_entry_name (w : World) (d : GroupFile) (id : Int) :
    (wdb_get_agent_name id (clean_group_entry w d)).1 = (wdb_get_agent_name id w).1 := by
  obtain ⟨h1, h2, -⟩ := clean_group_entry_cases w d
  exact wdb_get_agent_name_congr id h2 (by rw [h1])

theorem clean_group_fold_sublist (l : List GroupFile) :
    ∀ w : World, (l.foldl clean_group_entry w).dir_entries.Sublist w.dir_entries := by
  induction l with
  | nil => intro w; exact List.Sublist.refl _
  | cons d l ih =>
    intro w
    refine (ih (clean_group_entry w d)).trans ?_
    rcases (clean_group_entry_cases w d).2.2 with ⟨-, -, h⟩ | ⟨-, h⟩
    · rw [h]; exact List.filter_sublist _
    · rw [h]

theorem clean_group_fold_removes (e : GroupFile) (l : List GroupFile) :
    ∀ w : World, e ∈ l → 0 < atoi e.name →
      (wdb_get_agent_name (atoi e.name) w).1 = some "" →
      ∀ x ∈ (l.foldl clean_group_entry w).dir_entries, x.name ≠ e.name := by
  induction l with
  | nil => intro w h; simp at h
  | cons d l ih =>
    intro w hmem hid hname x hx
    rw [List.foldl_cons] at hx
    by_cases hde : d = e
    · subst hde
      have hx2 := (clean_group_fold_sublist l _).subset hx
      rcases (clean_group_entry_cases w d).2.2 with ⟨-, -, h⟩ | ⟨h, -⟩
      · rw [h] at hx2
        simpa using (List.mem_filter.1 hx2).2
      · exact absurd ⟨hid, hname⟩ h
    · have hmem2 : e ∈ l := by
        rcases List.mem_cons.1 hmem with h | h
        · exact absurd h.symm hde
        · exact h
      exact ih (clean_group_entry w d) hmem2 hid
        (by rw [clean_group_entry_name]; exact hname) x hx

theorem clean_group_fold_keeps (e : GroupFile) (l : List GroupFile) :
    ∀ w : World, e ∈ w.dir_entries →
      (wdb_get_agent_name (atoi e.name) w).1 ≠ some "" →
      e ∈ (l.foldl clean_group_entry w).dir_entries := by
  induction l with
  | nil => intro w h _; exact h
  | cons d l ih =>
    intro w hin hname
    rw [List.foldl_cons]
    refine ih (clean_group_entry w d) ?_ (by rw [clean_group_entry_name]; exact hname)
    rcases (clean_group_entry_cases w d).2.2 with ⟨-, hd, h⟩ | ⟨-, h⟩
    · rw [h]
      refine List.mem_filter.2 ⟨hin, ?_⟩
      simp only [ne_eq, decide_not, Bool.not_eq_true', decide_eq_false_iff_not]
      intro hc
      rw [hc] at hname
      exact hname hd
    · rw [h]; exact hin

/-! ## Dangling cleanup: the claims -/

/-- C15 (as amended). After `wm_clean_dangling_groups`, for every file of the
group-assignment directory whose name parses to a positive integer id: the
file is gone when the store answers the name query with the empty string (no
such agent); it is kept when the store answers with a non-empty name, and it
is also kept when the name query fails. -/
theorem wm_clean_dangling_groups_spec (P : Paths) (w : World) (e : GroupFile)
    (hin : e ∈ w.dir_entries) (hid : 0 < atoi e.name) :
    ((wdb_get_agent_name (atoi e.name) w).1 = some "" →
        ∀ x ∈ (wm_clean_dangling_groups P w).dir_entries, x.name ≠ e.name)
    ∧ (∀ name, (wdb_get_agent_name (atoi e.name) w).1 = some name → name ≠ "" →
        e ∈ (wm_clean_dangling_groups P w).dir_entries)
    ∧ ((wdb_get_agent_name (atoi e.name) w).1 = none →
        e ∈ (wm_clean_dangling_groups P w).dir_entries) := by
  unfold World.dir_entries at hin
  cases hg : w.groups_dir with
  | none => rw [hg] at hin; simp at hin
  | some es =>
    rw [hg] at hin
    simp only [Option.getD_some] at hin
    have hrun : wm_clean_dangling_groups P w
        = es.foldl clean_group_entry (w.log (.opendir P.GROUPS_DIR)) := by
      unfold wm_clean_dangling_groups
      rw [hg]
    have hin2 : e ∈ (w.log (.opendir P.GROUPS_DIR)).dir_entries := by
      simp [World.dir_entries, World.log, hg, hin]
    rw [hrun]
    refine ⟨?_, ?_, ?_⟩
    · intro hname
      exact clean_group_fold_removes e es _ hin hid (by rw [wdb_get_agent_name_log]; exact hname)
    · intro name hname hne
      apply clean_group_fold_keeps e es _ hin2
      rw [wdb_get_agent_name_log, hname]
      simpa using hne
    · intro hname
      apply clean_group_fold_keeps e es _ hin2
      rw [wdb_get_agent_name_log, hname]
      simp

/-- C15, witness: agent 1 is in the store and agent 7 is not; the file `7` is
deleted and the file `1` is kept. -/
theorem wm_clean_dangling_groups_spec_witness :
    (∀ x ∈ (wm_clean_dangling_groups sample_paths sample_dangling_world).dir_entries,
        x.name ≠ "7")
    ∧ (⟨"1", some "web"⟩ : GroupFile)
        ∈ (wm_clean_dangling_groups sample_paths sample_dangling_world).dir_entries :=
  ⟨(wm_clean_dangling_groups_spec sample_paths sample_dangling_world ⟨"7", some "web"⟩
      (by decide) (by decide)).1 (by decide),
   (wm_clean_dangling_groups_spec sample_paths sample_dangling_world ⟨"1", some "web"⟩
      (by decide) (by decide)).2.1 "A" (by decide) (by decide)⟩

/-- C15, counterexample to the claim as stated: the name query for agent 9
fails, so the store cannot resolve the id to a non-empty name; the file `9` is
not deleted. -/
theorem wm_clean_dangling_groups_keeps_on_failure :
    (wdb_get_agent_name 9 sample_dangling_world).1 = none
    ∧ (⟨"9", some "db"⟩ : GroupFile)
        ∈ (wm_clean_dangling_groups sample_paths sample_dangling_world).dir_entries
    ∧ (wm_clean_dangling_groups sample_paths sample_dangling_world).dir_entries
        = [⟨"1", some "web"⟩, ⟨"9", some "db"⟩, ⟨"x", some "db"⟩] := by
  decide

theorem remove_wdb_file_entries (name : String) (w : World) :
    (remove_wdb_file name w).wdb_entries = w.wdb_entries.filter (fun e => e ≠ name) := by
  unfold World.wdb_entries remove_wdb_file
  cases w.wdb_dir <;> simp

theorem mem_of_dropWhile_take (l : List Char) (p : Char → Bool)
    (h : (l.dropWhile p).take 3 = ['.', 'd', 'b']) : '.' ∈ l := by
  have h1 : '.' ∈ (l.dropWhile p).take 3 := by rw [h]; simp
  exact (List.dropWhile_sublist p).subset (List.mem_of_mem_take h1)

theorem clean_wdb_entry_cases (P : Paths) (w : World) (d : String)
    (hfit : (P.WDB2_DIR ++ "/" ++ d).utf8ByteSize < PATH_MAX) :
    (clean_wdb_entry P w d).agents = w.agents
    ∧ (clean_wdb_entry P w d).agent_name_fails = w.agent_name_fails
    ∧ ((dangling_wdb_file w d
          ∧ (clean_wdb_entry P w d).wdb_entries = w.wdb_entries.filter (fun x => x ≠ d))
        ∨ (¬ dangling_wdb_file w d ∧ (clean_wdb_entry P w d).wdb_entries = w.wdb_entries))
    ∧ ∃ evs, (clean_wdb_entry P w d).trace = w.trace ++ evs
        ∧ ∀ ev ∈ evs, (ev = .get_agent_name (strtol_int d) ∧ begins_with_digit d)
            ∨ ev = .remove_wdb_file d := by
  cases hhead : d.toList.head? with
  | none =>
    have hhead2 : d.data.head? = none := hhead
    have e : clean_wdb_entry P w d = w := by
      unfold clean_wdb_entry
      simp [hhead2]
    rw [e]
    refine ⟨rfl, rfl, Or.inr ⟨?_, rfl⟩, [], by simp⟩
    rintro ⟨⟨c, hc, -⟩, -⟩
    rw [hhead] at hc
    exact absurd hc (by simp)
  | some c0 =>
    have hhead2 : d.data.head? = some c0 := hhead
    by_cases hdig : c0.isDigit = true
    · have hbeg : begins_with_digit d := ⟨c0, hhead, hdig⟩
      by_cases hcond : strtol_int d > 0 ∧ (strtol_end d).take 3 = ['.', 'd', 'b']
      · have hdot : '.' ∈ d.data := mem_of_dropWhile_take _ _ hcond.2
        cases hn : (wdb_get_agent_name (strtol_int d) w).1 with
        | none =>
          have e : clean_wdb_entry P w d = w.log (.get_agent_name (strtol_int d)) := by
            unfold clean_wdb_entry
            simp [hhead2, hdig, hdot, hcond, hn, wdb_get_agent_name_snd]
          rw [e]
          refine ⟨rfl, rfl, Or.inr ⟨?_, rfl⟩, [_], rfl, ?_⟩
          · rintro ⟨-, -, -, h⟩
            rw [hn] at h
            exact absurd h (by simp)
          · intro ev hev
            simp only [List.mem_singleton] at hev
            exact Or.inl ⟨hev, hbeg⟩
        | some name =>
          by_cases hname : name = ""
          · have e : clean_wdb_entry P w d
                = remove_wdb_file d (w.log (.get_agent_name (strtol_int d))) := by
              unfold clean_wdb_entry
              simp [hhead2, hdig, hdot, hcond, hn, hname, wdb_get_agent_name_snd, hfit]
            rw [e]
            refine ⟨rfl, rfl, Or.inl ⟨⟨hbeg, hcond.1, hcond.2, by rw [hn, hname]⟩, ?_⟩,
              [.get_agent_name (strtol_int d), .remove_wdb_file d], ?_, ?_⟩
            · rw [remove_wdb_file_entries]
              rfl
            · simp [remove_wdb_file, World.log]
            · intro ev hev
              simp only [List.mem_cons, List.mem_singleton, List.not_mem_nil, or_false] at hev
              rcases hev with h | h
              · exact Or.inl ⟨h, hbeg⟩
              · exact Or.inr h
          · have e : clean_wdb_entry P w d = w.log (.get_agent_name (strtol_int d)) := by
              unfold clean_wdb_entry
              simp [hhead2, hdig, hdot, hcond, hn, hname, wdb_get_agent_name_snd]
            rw [e]
            refine ⟨rfl, rfl, Or.inr ⟨?_, rfl⟩, [_], rfl, ?_⟩
            · rintro ⟨-, -, -, h⟩
              rw [hn] at h
              simp only [Option.some.injEq] at h
              exact hname h
            · intro ev hev
              simp only [List.mem_singleton] at hev
              exact Or.inl ⟨hev, hbeg⟩
      · have e : clean_wdb_entry P w d = w := by
          unfold clean_wdb_entry
          simp only [String.toList, hhead2, hdig, if_true]
          split_ifs <;> rfl
        rw [e]
        refine ⟨rfl, rfl, Or.inr ⟨?_, rfl⟩, [], by simp⟩
        rintro ⟨-, h1, h2, -⟩
        exact hcond ⟨h1, h2⟩
    · have e : clean_wdb_entry P w d = w := by
        unfold clean_wdb_entry
        simp only [String.toList, hhead2]
        rw [if_neg hdig]
      rw [e]
      refine ⟨rfl, rfl, Or.inr ⟨?_, rfl⟩, [], by simp⟩
      rintro ⟨⟨c, hc, hc2⟩, -⟩
      rw [hhead] at hc
      simp only [Option.some.injEq] at hc
      exact hdig (hc ▸ hc2)

theorem dangling_wdb_file_congr {w v : World} (name : String) (ha : v.agents = w.agents)
    (hf : v.agent_name_fails = w.agent_name_fails) :
    dangling_wdb_file v name ↔ dangling_wdb_file w name := by
  unfold dangling_wdb_file
  rw [wdb_get_agent_name_congr (strtol_int name) hf (by rw [ha])]

theorem clean_wdb_fold (P : Paths) (l : List String) :
    ∀ w : World, (∀ d ∈ l, (P.WDB2_DIR ++ "/" ++ d).utf8ByteSize < PATH_MAX) →
      (l.foldl (clean_wdb_entry P) w).agents = w.agents
      ∧ (l.foldl (clean_wdb_entry P) w).agent_name_fails = w.agent_name_fails
      ∧ (∀ name, name ∈ (l.foldl (clean_wdb_entry P) w).wdb_entries
          ↔ name ∈ w.wdb_entries ∧ ¬ (name ∈ l ∧ dangling_wdb_file w name))
      ∧ ∃ evs, (l.foldl (clean_wdb_entry P) w).trace = w.trace ++ evs
          ∧ ∀ ev ∈ evs, (∃ d ∈ l, ev = .get_agent_name (strtol_int d) ∧ begins_with_digit d)
              ∨ ∃ d ∈ l, ev = .remove_wdb_file d := by
  induction l with
  | nil => intro w _; exact ⟨rfl, rfl, by simp, [], by simp⟩
  | cons d l ih =>
    intro w hfit
    obtain ⟨a1, a2, a3, evs1, a4, a5⟩ :=
      clean_wdb_entry_cases P w d (hfit d (List.mem_cons_self _ _))
    obtain ⟨b1, b2, b3, evs2, b4, b5⟩ :=
      ih (clean_wdb_entry P w d) (fun x hx => hfit x (List.mem_cons_of_mem _ hx))
    rw [List.foldl_cons]
    refine ⟨b1.trans a1, b2.trans a2, ?_, evs1 ++ evs2, ?_, ?_⟩
    · intro name
      rw [b3 name, dangling_wdb_file_congr name a1 a2]
      simp only [List.mem_cons]
      rcases a3 with ⟨hd, he⟩ | ⟨hd, he⟩
      · rw [he]
        simp only [List.mem_filter, ne_eq, decide_not, Bool.not_eq_true',
          decide_eq_false_iff_not]
        by_cases hnd : name = d
        · subst hnd; tauto
        · tauto
      · rw [he]
        by_cases hnd : name = d
        · subst hnd; tauto
        · tauto
    · rw [b4, a4, List.append_assoc]
    · intro ev hev
      rcases List.mem_append.1 hev with h | h
      · rcases a5 ev h with h2 | h2
        · exact Or.inl ⟨d, List.mem_cons_self _ _, h2⟩
        · exact Or.inr ⟨d, List.mem_cons_self _ _, h2⟩
      · rcases b5 ev h with ⟨x, hx, h2⟩ | ⟨x, hx, h2⟩
        · exact Or.inl ⟨x, List.mem_cons_of_mem _ hx, h2⟩
        · exact Or.inr ⟨x, List.mem_cons_of_mem _ hx, h2⟩

/-- C14 (as amended). After `wm_clean_dangling_wdb_dbs` on a directory whose
paths fit the path buffer, a file is gone exactly when its name begins with a
digit, its leading decimal number is an id greater than 0, the three
characters right after the number are `.db` (whatever follows them), and the
store answers the name query for that id with the empty string; so a failed
query leaves the file. Every name query of the sweep is for the id of a file
whose name begins with a digit: a file such as `global.db` is neither asked
about nor removed. -/
theorem wm_clean_dangling_wdb_dbs_spec (P : Paths) (w : World)
    (hfit : ∀ d ∈ w.wdb_entries, (P.WDB2_DIR ++ "/" ++ d).utf8ByteSize < PATH_MAX) :
    (∀ name, name ∈ (wm_clean_dangling_wdb_dbs P w).wdb_entries
        ↔ name ∈ w.wdb_entries ∧ ¬ dangling_wdb_file w name)
    ∧ (∀ id, Event.get_agent_name id
          ∈ (wm_clean_dangling_wdb_dbs P w).trace.drop w.trace.length →
        ∃ d ∈ w.wdb_entries, begins_with_digit d ∧ id = strtol_int d)
    ∧ (∀ name, ¬ begins_with_digit name →
        (name ∈ (wm_clean_dangling_wdb_dbs P w).wdb_entries ↔ name ∈ w.wdb_entries)) := by
  have hmain : (∀ name, name ∈ (wm_clean_dangling_wdb_dbs P w).wdb_entries
        ↔ name ∈ w.wdb_entries ∧ ¬ dangling_wdb_file w name)
      ∧ (∀ id, Event.get_agent_name id
          ∈ (wm_clean_dangling_wdb_dbs P w).trace.drop w.trace.length →
        ∃ d ∈ w.wdb_entries, begins_with_digit d ∧ id = strtol_int d) := by
    cases hg : w.wdb_dir with
    | none =>
      have hrun : wm_clean_dangling_wdb_dbs P w = w.log (.opendir P.WDB2_DIR) := by
        unfold wm_clean_dangling_wdb_dbs
        rw [hg]
      rw [hrun]
      simp [World.wdb_entries, World.log, hg]
    | some es =>
      have hde : w.wdb_entries = es := by simp [World.wdb_entries, hg]
      have hrun : wm_clean_dangling_wdb_dbs P w
          = es.foldl (clean_wdb_entry P) (w.log (.opendir P.WDB2_DIR)) := by
        unfold wm_clean_dangling_wdb_dbs
        rw [hg]
      obtain ⟨-, -, h3, evs, h4, h5⟩ := clean_wdb_fold P es (w.log (.opendir P.WDB2_DIR))
        (by rw [← hde]; exact hfit)
      rw [hrun, hde]
      constructor
      · intro name
        have hcg : dangling_wdb_file (w.log (.opendir P.WDB2_DIR)) name
            ↔ dangling_wdb_file w name := dangling_wdb_file_congr name rfl rfl
        have : (w.log (.opendir P.WDB2_DIR)).wdb_entries = es := hde
        rw [h3 name, hcg, this]
        tauto
      · intro id hid
        rw [h4] at hid
        simp only [World.log, List.append_assoc, List.drop_left, List.singleton_append,
          List.mem_cons] at hid
        rcases hid with hid | hid
        · exact absurd hid (by simp)
        · rcases h5 _ hid with ⟨d, hd, he, hb⟩ | ⟨d, -, he⟩
          · simp only [Event.get_agent_name.injEq] at he
            exact ⟨d, hd, hb, he⟩
          · exact absurd he (by simp)
  refine ⟨hmain.1, hmain.2, ?_⟩
  intro name hnb
  rw [hmain.1 name]
  constructor
  · exact fun h => h.1
  · exact fun h => ⟨h, fun hd => hnb hd.1⟩

/-- C14, witness: agent 1 exists, agent 7 does not, the query for agent 9
fails. The files of agent 7 are removed, the others stay, and `global.db` is
where it was. -/
theorem wm_clean_dangling_wdb_dbs_spec_witness :
    (wm_clean_dangling_wdb_dbs sample_paths sample_dangling_world).wdb_entries
      = ["001.db", "9.db", "global.db", "8.txt", "12"]
    ∧ ("global.db" ∈ (wm_clean_dangling_wdb_dbs sample_paths sample_dangling_world).wdb_entries
        ↔ "global.db" ∈ sample_dangling_world.wdb_entries) :=
  ⟨by decide,
   (wm_clean_dangling_wdb_dbs_spec sample_paths sample_dangling_world (by decide)).2.2
     "global.db" (by
       rintro ⟨c, hc, hd⟩
       have hc2 : c = 'g' := by
         have : some 'g' = some c := hc
         exact (Option.some.inj this).symm
       subst hc2
       exact absurd hd (by decide))⟩

/-- C14, counterexample to the claim as stated: the name `7.db-journal` does
not end in `.db` after its number (the rest of the name is `.db-journal`),
agent 7 is not in the store, and the sweep removes the file. -/
theorem wm_clean_dangling_wdb_dbs_removes_journal :
    "7.db-journal" ∈ sample_dangling_world.wdb_entries
    ∧ strtol_end "7.db-journal" = ".db-journal".toList
    ∧ strtol_end "7.db-journal" ≠ ".db".toList
    ∧ "7.db-journal" ∉ (wm_clean_dangling_wdb_dbs sample_paths sample_dangling_world).wdb_entries := by
  decide

/-! ## Idempotence of the key synchronisation: proofs -/

theorem sync_insert_entry_agents (w : World) (e : keyentry) :
    (sync_insert_entry w e).agents
        = (if atoi e.id = 0 then w.agents else upsert w.agents (upsert_record w.assignments e))
    ∧ (sync_insert_entry w e).assignments = w.assignments
    ∧ (sync_insert_entry w e).groups = w.groups := by
  unfold sync_insert_entry
  by_cases h0 : atoi e.id = 0
  · simp [h0]
  · simp only [h0, if_false]
    have hrec : (if (if (get_agent_group (atoi e.id) w).1.1 < 0 then ""
          else (get_agent_group (atoi e.id) w).1.2) = "" then none
        else some (if (get_agent_group (atoi e.id) w).1.1 < 0 then ""
          else (get_agent_group (atoi e.id) w).1.2))
        = (upsert_record w.assignments e).group := by
      unfold get_agent_group upsert_record
      cases hf : w.assignments.find? (fun a => a.id = atoi e.id) with
      | none => simp
      | some a => simp
    rw [hrec, get_agent_group_snd]
    unfold wdb_insert_agent upsert
    have hid : (upsert_record w.assignments e).id = atoi e.id := rfl
    simp only [World.log, hid]
    split_ifs <;> exact ⟨rfl, rfl, rfl⟩

theorem sync_insert_fold_agents (keys : keystore) :
    ∀ w : World,
      (keys.foldl sync_insert_entry w).agents = upsert_all w.assignments keys w.agents
      ∧ (keys.foldl sync_insert_entry w).assignments = w.assignments
      ∧ (keys.foldl sync_insert_entry w).groups = w.groups := by
  induction keys with
  | nil => intro w; exact ⟨rfl, rfl, rfl⟩
  | cons e es ih =>
    intro w
    obtain ⟨h1, h2, h3⟩ := ih (sync_insert_entry w e)
    obtain ⟨g1, g2, g3⟩ := sync_insert_entry_agents w e
    refine ⟨?_, h2.trans g2, h3.trans g3⟩
    rw [List.foldl_cons, h1, g1, g2]
    rfl

theorem upsert_record_id (asg : List GroupAssignment) (e : keyentry) :
    (upsert_record asg e).id = atoi e.id := rfl

theorem rewrite_record_id (asg : List GroupAssignment) (keys : keystore) :
    ∀ a : AgentRecord, (rewrite_record asg keys a).id = a.id := by
  induction keys with
  | nil => intro a; rfl
  | cons e es ih =>
    intro a
    unfold rewrite_record
    rw [List.foldl_cons]
    split_ifs with h
    · exact (ih (upsert_record asg e)).trans h.2.symm
    · exact ih a

theorem rewrite_record_cons (asg : List GroupAssignment) (e : keyentry) (es : keystore)
    (a : AgentRecord) :
    rewrite_record asg (e :: es) a
      = rewrite_record asg es
          (if atoi e.id ≠ 0 ∧ a.id = atoi e.id then upsert_record asg e else a) := rfl

theorem rewrite_record_of_no_match (asg : List GroupAssignment) (keys : keystore) :
    ∀ a : AgentRecord, (∀ e ∈ keys, ¬ (atoi e.id ≠ 0 ∧ a.id = atoi e.id)) →
      rewrite_record asg keys a = a := by
  induction keys with
  | nil => intro a _; rfl
  | cons e es ih =>
    intro a h
    rw [rewrite_record_cons, if_neg (h e (List.mem_cons_self _ _))]
    exact ih a (fun x hx => h x (List.mem_cons_of_mem _ hx))

theorem rewrite_record_congr (asg : List GroupAssignment) (keys : keystore) :
    ∀ a b : AgentRecord, a.id = b.id → (∃ e ∈ keys, atoi e.id ≠ 0 ∧ a.id = atoi e.id) →
      rewrite_record asg keys a = rewrite_record asg keys b := by
  induction keys with
  | nil => intro a b _ h; obtain ⟨e, he, -⟩ := h; simp at he
  | cons e es ih =>
    intro a b hab h
    rw [rewrite_record_cons, rewrite_record_cons]
    by_cases hm : atoi e.id ≠ 0 ∧ a.id = atoi e.id
    · rw [if_pos hm, if_pos ⟨hm.1, hab ▸ hm.2⟩]
    · rw [if_neg hm, if_neg (fun hc => hm ⟨hc.1, hab ▸ hc.2⟩)]
      obtain ⟨x, hx, hx2⟩ := h
      rcases List.mem_cons.1 hx with rfl | hx3
      · exact absurd hx2 hm
      · exact ih a b hab ⟨x, hx3, hx2⟩

theorem upsert_all_cons (asg : List GroupAssignment) (e : keyentry) (es : keystore)
    (A : List AgentRecord) :
    upsert_all asg (e :: es) A
      = upsert_all asg es (if atoi e.id = 0 then A else upsert A (upsert_record asg e)) := rfl

theorem mem_upsert_of_id (A : List AgentRecord) (r a : AgentRecord) (ha : a ∈ upsert A r)
    (hid : a.id = r.id) : a = r := by
  unfold upsert at ha
  split_ifs at ha with hany
  · obtain ⟨x, -, hx⟩ := List.mem_map.1 ha
    split_ifs at hx with hxid
    · exact hx.symm
    · rw [← hx] at hid
      exact absurd hid hxid
  · rcases List.mem_append.1 ha with h | h
    · exfalso
      apply hany
      simp only [List.any_eq_true, decide_eq_true_eq]
      exact ⟨a, h, hid⟩
    · simpa using h

theorem mem_of_mem_upsert (A : List AgentRecord) (r a : AgentRecord) (ha : a ∈ upsert A r)
    (hid : a.id ≠ r.id) : a ∈ A := by
  unfold upsert at ha
  split_ifs at ha with hany
  · obtain ⟨x, hxA, hx⟩ := List.mem_map.1 ha
    split_ifs at hx with hxid
    · rw [← hx] at hid
      exact absurd rfl hid
    · rw [← hx]
      exact hxA
  · rcases List.mem_append.1 ha with h | h
    · exact h
    · simp only [List.mem_singleton] at h
      rw [h] at hid
      exact absurd rfl hid

theorem mem_of_mem_upsert_all (asg : List GroupAssignment) (keys : keystore) :
    ∀ (A : List AgentRecord) (a : AgentRecord), a ∈ upsert_all asg keys A →
      (∀ e ∈ keys, ¬ (atoi e.id ≠ 0 ∧ a.id = atoi e.id)) → a ∈ A := by
  induction keys with
  | nil => intro A a h _; exact h
  | cons e es ih =>
    intro A a h hno
    rw [upsert_all_cons] at h
    have h2 := ih _ a h (fun x hx => hno x (List.mem_cons_of_mem _ hx))
    split_ifs at h2 with h0
    · exact h2
    · exact mem_of_mem_upsert A _ a h2
        (fun hc => hno e (List.mem_cons_self _ _) ⟨h0, hc⟩)

theorem rewrite_record_fixed (asg : List GroupAssignment) (keys : keystore) :
    ∀ (A : List AgentRecord) (a : AgentRecord), a ∈ upsert_all asg keys A →
      rewrite_record asg keys a = a := by
  induction keys with
  | nil => intro A a _; rfl
  | cons e es ih =>
    intro A a h
    rw [upsert_all_cons] at h
    rw [rewrite_record_cons]
    by_cases hm : atoi e.id ≠ 0 ∧ a.id = atoi e.id
    · rw [if_pos hm]
      by_cases hex : ∃ x ∈ es, atoi x.id ≠ 0 ∧ a.id = atoi x.id
      · rw [rewrite_record_congr asg es (upsert_record asg e) a hm.2.symm
          (by obtain ⟨x, hx, h1, h2⟩ := hex; exact ⟨x, hx, h1, hm.2.symm.trans h2⟩)]
        exact ih _ a h
      · have hno : ∀ x ∈ es, ¬ (atoi x.id ≠ 0 ∧ a.id = atoi x.id) :=
          fun x hx hc => hex ⟨x, hx, hc⟩
        rw [rewrite_record_of_no_match asg es _ (fun x hx hc => hno x hx ⟨hc.1, hm.2.trans hc.2⟩)]
        have h2 := mem_of_mem_upsert_all asg es _ a h hno
        rw [if_neg hm.1] at h2
        exact (mem_upsert_of_id A _ a h2 hm.2).symm
    · rw [if_neg hm]
      exact ih _ a h

theorem upsert_all_of_present (asg : List GroupAssignment) (keys : keystore) :
    ∀ A : List AgentRecord, (∀ e ∈ keys, atoi e.id ≠ 0 → ∃ a ∈ A, a.id = atoi e.id) →
      upsert_all asg keys A = A.map (rewrite_record asg keys) := by
  induction keys with
  | nil =>
    intro A _
    show A = A.map (fun a => a)
    simp
  | cons e es ih =>
    intro A h
    rw [upsert_all_cons]
    by_cases h0 : atoi e.id = 0
    · rw [if_pos h0, ih A (fun x hx => h x (List.mem_cons_of_mem _ hx))]
      apply List.map_congr_left
      intro a _
      rw [rewrite_record_cons, if_neg (fun hc => hc.1 h0)]
    · rw [if_neg h0]
      have hany : (A.any fun a => a.id = (upsert_record asg e).id) = true := by
        obtain ⟨a, ha, hid⟩ := h e (List.mem_cons_self _ _) h0
        simp only [List.any_eq_true, decide_eq_true_eq]
        exact ⟨a, ha, hid⟩
      have hup : upsert A (upsert_record asg e)
          = A.map (fun a => if a.id = atoi e.id then upsert_record asg e else a) := by
        unfold upsert
        rw [if_pos hany]
        rfl
      rw [hup, ih]
      · rw [List.map_map]
        apply List.map_congr_left
        intro a _
        simp only [Function.comp, rewrite_record_cons, h0, ne_eq, not_false_eq_true, true_and]
      · intro x hx hx0
        obtain ⟨a, ha, hid⟩ := h x (List.mem_cons_of_mem _ hx) hx0
        refine ⟨_, List.mem_map.2 ⟨a, ha, rfl⟩, ?_⟩
        split_ifs with hc
        · exact hc.symm.trans hid
        · exact hid

theorem sync_delete_agent_of_allowed (keys : keystore) (w : World) (a : Int)
    (h : OS_IsAllowedID keys (snprintf_id a) ≠ -1) : sync_delete_agent keys w a = w := by
  unfold sync_delete_agent
  rw [if_neg h]

theorem sync_delete_fold_of_allowed (keys : keystore) (l : List Int)
    (h : ∀ a ∈ l, OS_IsAllowedID keys (snprintf_id a) ≠ -1) (w : World) :
    l.foldl (sync_delete_agent keys) w = w := by
  induction l with
  | nil => rfl
  | cons a l ih =>
    rw [List.foldl_cons, sync_delete_agent_of_allowed keys w a (h a (List.mem_cons_self _ _))]
    exact ih (fun x hx => h x (List.mem_cons_of_mem _ hx))

theorem sync_delete_agent_store (keys : keystore) (w : World) (a : Int) :
    (sync_delete_agent keys w a).assignments = w.assignments
    ∧ (sync_delete_agent keys w a).groups = w.groups := by
  unfold sync_delete_agent
  simp only [wdb_get_agent_name_snd]
  unfold wdb_remove_agent wdbc_query_remove OS_RemoveAgentTimestamp OS_RemoveCounter delete_diff
  simp only [World.log]
  split_ifs <;> (try split) <;> (try split_ifs) <;> simp

theorem sync_delete_fold_store (keys : keystore) (l : List Int) :
    ∀ w : World,
      (l.foldl (sync_delete_agent keys) w).assignments = w.assignments
      ∧ (l.foldl (sync_delete_agent keys) w).groups = w.groups := by
  induction l with
  | nil => intro w; exact ⟨rfl, rfl⟩
  | cons a l ih =>
    intro w
    obtain ⟨h1, h2⟩ := ih (sync_delete_agent keys w a)
    obtain ⟨g1, g2⟩ := sync_delete_agent_store keys w a
    exact ⟨h1.trans g1, h2.trans g2⟩

theorem allowed_of_canonical (keys : keystore)
    (hkeys : ∀ e ∈ keys, ∃ k : Nat, 0 < k ∧ k < 10 ^ 8 ∧ e.id = snprintf_id (k : Int))
    (e : keyentry) (he : e ∈ keys) :
    atoi e.id ≠ 0 ∧ atoi e.id ≠ -1 ∧ OS_IsAllowedID keys (snprintf_id (atoi e.id)) ≠ -1 := by
  obtain ⟨k, hk0, hk, hid⟩ := hkeys e he
  have hat : atoi e.id = (k : Int) := by rw [hid, atoi_snprintf_id k hk]
  refine ⟨by rw [hat]; omega, by rw [hat]; omega, ?_⟩
  rw [Ne, OS_IsAllowedID_eq_neg_one]
  intro hno
  exact hno e he (by rw [hat]; exact hid)

theorem sync_insert_entry_only (w : World) (e : keyentry) :
    sync_insert_entry w e
      = { w with agents := (sync_insert_entry w e).agents,
                 trace := (sync_insert_entry w e).trace } := by
  unfold sync_insert_entry
  by_cases h0 : atoi e.id = 0
  · simp [h0]
  · simp only [h0, if_false, get_agent_group_snd]
    unfold wdb_insert_agent
    simp only [World.log]
    split_ifs <;> rfl

theorem sync_insert_fold_only (keys : keystore) :
    ∀ w : World, ∃ A T, keys.foldl sync_insert_entry w = { w with agents := A, trace := T } := by
  induction keys with
  | nil => intro w; exact ⟨w.agents, w.trace, rfl⟩
  | cons e es ih =>
    intro w
    obtain ⟨A, T, h⟩ := ih (sync_insert_entry w e)
    rw [List.foldl_cons, h, sync_insert_entry_only w e]
    exact ⟨A, T, rfl⟩

theorem sync_keys_with_wdb_rerun (keys : keystore) (w v : World)
    (hvasg : v.assignments = w.assignments)
    (hsub : ∀ r ∈ v.agents, r ∈ upsert_all w.assignments keys w.agents)
    (hpresent : ∀ e ∈ keys, atoi e.id ≠ 0 → ∃ a ∈ v.agents, a.id = atoi e.id)
    (hall : v.get_all_agents_fails = false →
      ∀ a ∈ v.ids, OS_IsAllowedID keys (snprintf_id a) ≠ -1) :
    ∃ evs, sync_keys_with_wdb keys v = { v with trace := v.trace ++ evs }
      ∧ ∀ ev ∈ evs, ev.is_delete = false := by
  -- the first loop changes no record
  obtain ⟨q1, -, -⟩ := sync_insert_fold_agents keys v
  have hagents : (keys.foldl sync_insert_entry v).agents = v.agents := by
    rw [q1, hvasg, upsert_all_of_present _ _ _ hpresent]
    conv_rhs => rw [← List.map_id v.agents]
    apply List.map_congr_left
    intro a ha
    exact rewrite_record_fixed w.assignments keys w.agents a (hsub a ha)
  obtain ⟨evs, ht, hnd⟩ := sync_insert_fold_trace keys v
  obtain ⟨A, T, hfold⟩ := sync_insert_fold_only keys v
  have hA : A = v.agents := by
    rw [← hagents, hfold]
  have hT : T = v.trace ++ evs := by
    rw [← ht, hfold]
  have hdel : ∀ ev ∈ evs ++ [Event.get_all_agents], ev.is_delete = false := by
    intro ev hev
    rcases List.mem_append.1 hev with h | h
    · exact hnd ev h
    · simp only [List.mem_singleton] at h
      rw [h]
      rfl
  refine ⟨evs ++ [.get_all_agents], ?_, hdel⟩
  rcases Bool.eq_false_or_eq_true v.get_all_agents_fails with hl | hl
  · rw [sync_keys_with_wdb_of_null keys v hl, hfold, hA, hT]
    simp only [World.log, List.append_assoc]
  · -- the second loop deletes nothing
    have hallowed : ∀ a ∈ (keys.foldl sync_insert_entry v).ids.takeWhile
        (fun a => a ≠ -1), OS_IsAllowedID keys (snprintf_id a) ≠ -1 := by
      intro a ha
      have ha2 := (List.takeWhile_sublist _).subset ha
      rw [World.ids, hagents] at ha2
      exact hall hl a ha2
    rw [sync_keys_with_wdb_eq keys v hl, sync_delete_fold_of_allowed keys _ hallowed,
      hfold, hA, hT]
    simp only [World.log, List.append_assoc]

theorem sync_keys_with_wdb_second_run (keys : keystore) (w : World)
    (hkeys : ∀ e ∈ keys, ∃ k : Nat, 0 < k ∧ k < 10 ^ 8 ∧ e.id = snprintf_id (k : Int))
    (hstore : ∀ r ∈ w.agents, r.id ≠ -1)
    (hok : w.remove_agent_fails = []) :
    ∃ evs, sync_keys_with_wdb keys (sync_keys_with_wdb keys w)
        = { sync_keys_with_wdb keys w with
            trace := (sync_keys_with_wdb keys w).trace ++ evs }
      ∧ ∀ ev ∈ evs, ev.is_delete = false := by
  obtain ⟨p1, p2, -⟩ := sync_insert_fold_agents keys w
  have hpres1 : ∀ e ∈ keys, atoi e.id ≠ 0 → atoi e.id ∈ (keys.foldl sync_insert_entry w).ids :=
    fun e he h0 => (sync_insert_fold_ids keys w _).2 (Or.inr ⟨h0, e, he, rfl⟩)
  cases hl : w.get_all_agents_fails with
  | true =>
    have hv : sync_keys_with_wdb keys w = (keys.foldl sync_insert_entry w).log .get_all_agents :=
      sync_keys_with_wdb_of_null keys w hl
    apply sync_keys_with_wdb_rerun keys w
    · rw [hv]
      exact p2
    · intro r hr
      rw [hv] at hr
      rw [← p1]
      exact hr
    · intro e he h0
      have hmem : atoi e.id ∈ (sync_keys_with_wdb keys w).ids := by
        rw [hv]
        exact hpres1 e he h0
      obtain ⟨a, ha, hid⟩ := List.mem_map.1 hmem
      exact ⟨a, ha, hid⟩
    · intro hf
      rw [hv] at hf
      have hf2 : (keys.foldl sync_insert_entry w).get_all_agents_fails = false := hf
      rw [(sync_insert_fold_answers keys w).1, hl] at hf2
      exact absurd hf2 (by decide)
  | false =>
    have htw : (keys.foldl sync_insert_entry w).ids.takeWhile (fun a => a ≠ -1)
        = (keys.foldl sync_insert_entry w).ids := by
      apply takeWhile_ne_of_forall
      intro n hn
      rcases (sync_insert_fold_ids keys w n).1 hn with h | ⟨-, e, he, rfl⟩
      · obtain ⟨r, hr, rfl⟩ := List.mem_map.1 h
        exact hstore r hr
      · exact (allowed_of_canonical keys hkeys e he).2.1
    have hv : sync_keys_with_wdb keys w
        = (keys.foldl sync_insert_entry w).ids.foldl (sync_delete_agent keys)
            ((keys.foldl sync_insert_entry w).log .get_all_agents) := by
      rw [sync_keys_with_wdb_eq keys w hl, htw]
    have hids : ∀ n, n ∈ (sync_keys_with_wdb keys w).ids
        ↔ n ∈ (keys.foldl sync_insert_entry w).ids
            ∧ OS_IsAllowedID keys (snprintf_id n) ≠ -1 := by
      intro n
      rw [hv, sync_delete_fold_ids]
      have hfl : ((keys.foldl sync_insert_entry w).log .get_all_agents).remove_agent_fails
          = [] := by
        show (keys.foldl sync_insert_entry w).remove_agent_fails = []
        rw [(sync_insert_fold_frame keys w).1, hok]
      have hi : ((keys.foldl sync_insert_entry w).log .get_all_agents).ids
          = (keys.foldl sync_insert_entry w).ids := rfl
      simp only [deletes, hfl, hi, List.not_mem_nil, not_false_eq_true, and_true]
      tauto
    apply sync_keys_with_wdb_rerun keys w
    · rw [hv, (sync_delete_fold_store keys _ _).1]
      exact p2
    · intro r hr
      rw [hv] at hr
      have := (sync_delete_fold_mono keys _ _).1 r hr
      rw [← p1]
      exact this
    · intro e he h0
      have hmem : atoi e.id ∈ (sync_keys_with_wdb keys w).ids :=
        (hids _).2 ⟨hpres1 e he h0, (allowed_of_canonical keys hkeys e he).2.2⟩
      obtain ⟨a, ha, hid⟩ := List.mem_map.1 hmem
      exact ⟨a, ha, hid⟩
    · intro _ a ha
      exact ((hids a).1 ha).2

/-! ## Idempotence of the key synchronisation: the claim -/

/-- C16 (as amended). When every keystore entry has as id string the `"%03d"`
rendering of a positive integer below 10^8, no agent of the store has the id
`-1` that ends the array of ids, and the store rejects no delete, then a second
run of `sync_keys_with_wdb` right after the first leaves the agent table, the
group assignments, the group definitions and the agent artifacts as the first
run left them, and issues no delete. -/
theorem sync_keys_with_wdb_idempotent (keys : keystore) (w : World)
    (hkeys : ∀ e ∈ keys, ∃ k : Nat, 0 < k ∧ k < 10 ^ 8 ∧ e.id = snprintf_id (k : Int))
    (hstore : ∀ r ∈ w.agents, r.id ≠ -1)
    (hok : w.remove_agent_fails = []) :
    (sync_keys_with_wdb keys (sync_keys_with_wdb keys w)).agents
        = (sync_keys_with_wdb keys w).agents
    ∧ (sync_keys_with_wdb keys (sync_keys_with_wdb keys w)).assignments
        = (sync_keys_with_wdb keys w).assignments
    ∧ (sync_keys_with_wdb keys (sync_keys_with_wdb keys w)).groups
        = (sync_keys_with_wdb keys w).groups
    ∧ (sync_keys_with_wdb keys (sync_keys_with_wdb keys w)).agent_dbs
        = (sync_keys_with_wdb keys w).agent_dbs
    ∧ (sync_keys_with_wdb keys (sync_keys_with_wdb keys w)).counters
        = (sync_keys_with_wdb keys w).counters
    ∧ (sync_keys_with_wdb keys (sync_keys_with_wdb keys w)).timestamps
        = (sync_keys_with_wdb keys w).timestamps
    ∧ (sync_keys_with_wdb keys (sync_keys_with_wdb keys w)).diffs
        = (sync_keys_with_wdb keys w).diffs
    ∧ ∀ ev ∈ (sync_keys_with_wdb keys (sync_keys_with_wdb keys w)).trace.drop
          (sync_keys_with_wdb keys w).trace.length, ev.is_delete = false := by
  obtain ⟨evs, heq, hnd⟩ := sync_keys_with_wdb_second_run keys w hkeys hstore hok
  rw [heq]
  refine ⟨rfl, rfl, rfl, rfl, rfl, rfl, rfl, ?_⟩
  intro ev hev
  rw [List.drop_left] at hev
  exact hnd ev hev

/-- C16, witness: keystore 001 and 002, store with the agents 1 and 3. The
first run leaves the agents 1 and 2, the second run leaves the same table and
its calls are two lookups, two upserts and the listing. -/
theorem sync_keys_with_wdb_idempotent_witness :
    (sync_keys_with_wdb sample_keys (sync_keys_with_wdb sample_keys sample_store_world)).agents
        = (sync_keys_with_wdb sample_keys sample_store_world).agents
    ∧ (sync_keys_with_wdb sample_keys
          (sync_keys_with_wdb sample_keys sample_store_world)).trace.drop
          (sync_keys_with_wdb sample_keys sample_store_world).trace.length
        = [.get_agent_group 1, .insert_agent 1 "A" "any" "k1" none,
           .get_agent_group 2, .insert_agent 2 "B" "any" "k2" none, .get_all_agents] :=
  ⟨(sync_keys_with_wdb_idempotent sample_keys sample_store_world
      (by
        intro e he
        simp only [sample_keys, List.mem_cons, List.mem_singleton, List.not_mem_nil,
          or_false] at he
        rcases he with rfl | rfl
        · exact ⟨1, by decide, by decide, by decide⟩
        · exact ⟨2, by decide, by decide, by decide⟩)
      (by decide) rfl).1,
   by decide⟩

/-- C16, counterexample to the claim as stated: the keystore holds the id
string `1`, the store is empty and accepts every request. Each run upserts
agent 1 and then deletes it, so the second run issues a delete. -/
theorem sync_keys_with_wdb_second_run_deletes :
    (sync_keys_with_wdb short_id_keys World.quiet).remove_agent_fails = []
    ∧ (sync_keys_with_wdb short_id_keys
          (sync_keys_with_wdb short_id_keys World.quiet)).trace.drop
          (sync_keys_with_wdb short_id_keys World.quiet).trace.length
        = [.get_agent_group 1, .insert_agent 1 "A" "any" "k1" none, .get_all_agents,
           .get_agent_name 1, .remove_agent 1, .wdb_query "wazuhdb remove 001",
           .remove_counter "001", .remove_timestamp "001", .delete_diff "A"]
    ∧ Event.remove_agent 1 ∈ (sync_keys_with_wdb short_id_keys
          (sync_keys_with_wdb short_id_keys World.quiet)).trace.drop
          (sync_keys_with_wdb short_id_keys World.quiet).trace.length := by
  decide

/-! ## Idempotence of the legacy migration: proofs -/

theorem sync_legacy_entry_of_keeps (v : World) (d : GroupFile) (hin : d ∈ v.dir_entries)
    (hnd : (v.dir_entries.map fun x => x.name).Nodup)
    (hk : legacy_keeps v.is_worker v.set_groups_fails d = true) :
    ∃ evs, sync_legacy_entry v d = { v with trace := v.trace ++ evs }
      ∧ ∀ e ∈ evs, ∀ n, e ≠ Event.unlink_group_file n := by
  unfold legacy_keeps at hk
  by_cases hh : not_hidden d.name = true
  · rw [if_pos hh] at hk
    rcases Bool.eq_false_or_eq_true v.is_worker with hw | hw
    · rw [hw] at hk; simp at hk
    · rw [hw] at hk
      simp only [Bool.false_eq_true, if_false] at hk
      by_cases hid : atoi d.name ≤ 0
      · exact ⟨[], by simp [sync_legacy_entry_bad_id v d hw hid], by simp⟩
      · rw [if_neg hid] at hk
        rw [sync_legacy_entry_master_eq v d hw hh]
        cases hc : d.content with
        | none =>
          have hfo := fopen_group_file_of_mem v d hin hnd
          rw [hc] at hfo
          have hfile : wm_sync_group_file d.name v = (OS_INVALID, v) := by
            unfold wm_sync_group_file
            simp [hid, hfo]
          rw [hfile, if_neg (by simp [OS_SUCCESS, OS_INVALID])]
          exact ⟨[], by simp, by simp⟩
        | some c =>
          rw [hc] at hk
          dsimp only at hk
          by_cases hempty : c.toList = []
          · rw [if_pos hempty] at hk
            simp at hk
          · rw [if_neg hempty] at hk
            simp only [decide_eq_true_eq] at hk
            rw [wm_sync_group_file_of_content v d c hin hnd (not_le.1 hid) hc hempty]
            have hset : wdb_set_agent_groups_csv (atoi d.name) (String.mk (read_csv c))
                "override" "synced" "local" v
                = (OS_INVALID, v.log (.set_agent_groups (atoi d.name) (String.mk (read_csv c))
                    "override" "synced" "local")) := by
              unfold wdb_set_agent_groups_csv
              rw [if_pos hk]
            rw [hset, if_neg (by simp [OS_SUCCESS, OS_INVALID])]
            exact ⟨_, rfl, by simp⟩
  · have e : sync_legacy_entry v d = v := by
      unfold sync_legacy_entry
      rw [if_neg hh]
    exact ⟨[], by simp [e], by simp⟩

theorem sync_legacy_entry_of_not_keeps (v : World) (d : GroupFile) (hin : d ∈ v.dir_entries)
    (hnd : (v.dir_entries.map fun x => x.name).Nodup)
    (hk : legacy_keeps v.is_worker v.set_groups_fails d = false) :
    (sync_legacy_entry v d).dir_entries = v.dir_entries.filter (fun x => x.name ≠ d.name) := by
  unfold legacy_keeps at hk
  by_cases hh : not_hidden d.name = true
  · rw [if_pos hh] at hk
    rcases Bool.eq_false_or_eq_true v.is_worker with hw | hw
    · rw [sync_legacy_entry_worker v d hw, if_pos hh, unlink_group_file_dir_entries]
    · rw [hw] at hk
      simp only [Bool.false_eq_true, if_false] at hk
      by_cases hid : atoi d.name ≤ 0
      · simp [hid] at hk
      · rw [if_neg hid] at hk
        cases hc : d.content with
        | none => rw [hc] at hk; simp at hk
        | some c =>
          rw [hc] at hk
          dsimp only at hk
          by_cases hempty : c.toList = []
          · rw [sync_legacy_entry_master_eq v d hw hh,
              wm_sync_group_file_of_empty v d c hin hnd (not_le.1 hid) hc hempty, if_pos rfl,
              unlink_group_file_dir_entries]
          · rw [if_neg hempty] at hk
            simp only [decide_eq_false_iff_not] at hk
            exact ((sync_legacy_entry_master v d c hw hin hnd (not_le.1 hid) hc hempty).1 hk).2
  · rw [if_neg hh] at hk
    exact absurd hk (by simp)

theorem legacy_pass_keeps (w : World) (x : GroupFile)
    (hnd : (w.dir_entries.map fun x => x.name).Nodup)
    (hx : x ∈ (wm_sync_legacy_groups_files w).dir_entries) :
    legacy_keeps w.is_worker w.set_groups_fails x = true := by
  cases hg : w.groups_dir with
  | none =>
    have : wm_sync_legacy_groups_files w = w := by
      unfold wm_sync_legacy_groups_files
      rw [hg]
    rw [this] at hx
    simp [World.dir_entries, hg] at hx
  | some es =>
    have hde : w.dir_entries = es := by simp [World.dir_entries, hg]
    have hx2 : x ∈ (es.foldl sync_legacy_entry w).dir_entries := by
      rw [wm_sync_legacy_groups_files_some w es hg] at hx
      split_ifs at hx
      · exact rmdir_groups_dir_mem _ x hx
      · exact hx
    have hin : x ∈ w.dir_entries := by
      have := (sync_legacy_fold_frame es w).2.2.1.subset hx2
      exact this
    obtain ⟨pre, post, -, hfold, a1, a2, hin1, hnd1, -⟩ := legacy_fold_at_entry w x hin hnd
    rw [← hde, hfold] at hx2
    by_contra hk
    have hk2 : legacy_keeps (pre.foldl sync_legacy_entry w).is_worker
        (pre.foldl sync_legacy_entry w).set_groups_fails x = false := by
      rw [a1, a2]
      simpa using hk
    have hx3 := (sync_legacy_fold_frame post _).2.2.1.subset hx2
    rw [sync_legacy_entry_of_not_keeps _ x hin1 hnd1 hk2] at hx3
    simpa using (List.mem_filter.1 hx3).2

theorem sync_legacy_fold_of_keeps (l : List GroupFile) (v : World)
    (hnd : (v.dir_entries.map fun x => x.name).Nodup)
    (hl : ∀ d ∈ l, d ∈ v.dir_entries ∧ legacy_keeps v.is_worker v.set_groups_fails d = true) :
    ∀ T : List Event, ∃ evs,
      l.foldl sync_legacy_entry { v with trace := T } = { v with trace := T ++ evs }
      ∧ ∀ e ∈ evs, ∀ n, e ≠ Event.unlink_group_file n := by
  induction l with
  | nil => intro T; exact ⟨[], by simp, by simp⟩
  | cons d l ih =>
    intro T
    obtain ⟨hd1, hd2⟩ := hl d (List.mem_cons_self _ _)
    obtain ⟨evs1, h1, u1⟩ := sync_legacy_entry_of_keeps { v with trace := T } d hd1 hnd hd2
    obtain ⟨evs2, h2, u2⟩ := ih (fun x hx => hl x (List.mem_cons_of_mem _ hx)) (T ++ evs1)
    rw [List.foldl_cons, h1]
    refine ⟨evs1 ++ evs2, by rw [h2, List.append_assoc], ?_⟩
    intro e he n
    rcases List.mem_append.1 he with h | h
    · exact u1 e h n
    · exact u2 e h n

theorem rmdir_groups_dir_dir_entries (w : World) :
    (rmdir_groups_dir w).dir_entries = w.dir_entries := by
  unfold World.dir_entries rmdir_groups_dir
  cases hg : w.groups_dir with
  | none => rfl
  | some es =>
    cases es with
    | nil => rfl
    | cons y ys => rfl

theorem wm_sync_legacy_groups_files_frame (w : World) :
    (wm_sync_legacy_groups_files w).is_worker = w.is_worker
    ∧ (wm_sync_legacy_groups_files w).set_groups_fails = w.set_groups_fails
    ∧ (wm_sync_legacy_groups_files w).dir_entries.Sublist w.dir_entries := by
  cases hg : w.groups_dir with
  | none =>
    have e : wm_sync_legacy_groups_files w = w := by
      unfold wm_sync_legacy_groups_files
      rw [hg]
    rw [e]
    exact ⟨rfl, rfl, List.Sublist.refl _⟩
  | some es =>
    obtain ⟨h1, h2, h3, -, -⟩ := sync_legacy_fold_frame es w
    rw [wm_sync_legacy_groups_files_some w es hg]
    split_ifs
    · exact ⟨h1, h2, by rw [rmdir_groups_dir_dir_entries]; exact h3⟩
    · exact ⟨h1, h2, h3⟩

theorem legacy_second_pass (v : World) (hnd : (v.dir_entries.map fun x => x.name).Nodup)
    (hk : ∀ x ∈ v.dir_entries, legacy_keeps v.is_worker v.set_groups_fails x = true) :
    ∃ evs, (wm_sync_legacy_groups_files v).trace = v.trace ++ evs
      ∧ (wm_sync_legacy_groups_files v).groups_dir
          = (if v.groups_dir = some [] then none else v.groups_dir)
      ∧ (wm_sync_legacy_groups_files v).agents = v.agents
      ∧ (wm_sync_legacy_groups_files v).assignments = v.assignments
      ∧ (wm_sync_legacy_groups_files v).groups = v.groups
      ∧ ∀ e ∈ evs, ∀ n, e ≠ Event.unlink_group_file n := by
  cases hg : v.groups_dir with
  | none =>
    have e : wm_sync_legacy_groups_files v = v := by
      unfold wm_sync_legacy_groups_files
      rw [hg]
    rw [e]
    exact ⟨[], by simp, by simp [hg], rfl, rfl, rfl, by simp⟩
  | some es =>
    have hde : v.dir_entries = es := by simp [World.dir_entries, hg]
    obtain ⟨evs, hf, hun⟩ := sync_legacy_fold_of_keeps es v hnd
      (fun d hd => ⟨hde ▸ hd, hk d (hde ▸ hd)⟩) v.trace
    have hf2 : es.foldl sync_legacy_entry v = { v with trace := v.trace ++ evs } := hf
    rw [wm_sync_legacy_groups_files_some v es hg, hf2]
    by_cases hall : es.all (fun e => !not_hidden e.name) = true
    · rw [if_pos hall]
      refine ⟨evs ++ [.rmdir_groups_dir], ?_, ?_, rfl, rfl, rfl, ?_⟩
      · simp [rmdir_groups_dir]
      · cases es with
        | nil => simp [rmdir_groups_dir, hg]
        | cons y ys => simp [rmdir_groups_dir, hg]
      · intro e he n
        rcases List.mem_append.1 he with h | h
        · exact hun e h n
        · simp at h
          simp [h]
    · rw [if_neg hall]
      refine ⟨evs, rfl, ?_, rfl, rfl, rfl, hun⟩
      cases es with
      | nil => simp at hall
      | cons y ys => simp [hg]

/-- C17 (as amended). When the entries of the legacy directory have distinct
names, a second run of `wm_sync_legacy_groups_files` right after a first one
leaves the agent records, the group assignments, the groups and the files of
the directory as the first run left them and attempts no `unlink`; the only
change it can make is to remove the directory itself, which it does exactly
when the first run left it present and empty. -/
theorem wm_sync_legacy_groups_files_second_run (w : World)
    (hnd : (w.dir_entries.map fun x => x.name).Nodup) :
    ∃ evs,
      (wm_sync_legacy_groups_files (wm_sync_legacy_groups_files w)).trace
        = (wm_sync_legacy_groups_files w).trace ++ evs
      ∧ (∀ e ∈ evs, ∀ n, e ≠ Event.unlink_group_file n)
      ∧ (wm_sync_legacy_groups_files (wm_sync_legacy_groups_files w)).agents
          = (wm_sync_legacy_groups_files w).agents
      ∧ (wm_sync_legacy_groups_files (wm_sync_legacy_groups_files w)).assignments
          = (wm_sync_legacy_groups_files w).assignments
      ∧ (wm_sync_legacy_groups_files (wm_sync_legacy_groups_files w)).groups
          = (wm_sync_legacy_groups_files w).groups
      ∧ (wm_sync_legacy_groups_files (wm_sync_legacy_groups_files w)).dir_entries
          = (wm_sync_legacy_groups_files w).dir_entries
      ∧ (wm_sync_legacy_groups_files (wm_sync_legacy_groups_files w)).groups_dir
          = (if (wm_sync_legacy_groups_files w).groups_dir = some [] then none
             else (wm_sync_legacy_groups_files w).groups_dir) := by
  obtain ⟨f1, f2, f3⟩ := wm_sync_legacy_groups_files_frame w
  have hnd1 : ((wm_sync_legacy_groups_files w).dir_entries.map fun x => x.name).Nodup :=
    (f3.map _).nodup hnd
  have hk : ∀ x ∈ (wm_sync_legacy_groups_files w).dir_entries,
      legacy_keeps (wm_sync_legacy_groups_files w).is_worker
        (wm_sync_legacy_groups_files w).set_groups_fails x = true := by
    intro x hx
    rw [f1, f2]
    exact legacy_pass_keeps w x hnd hx
  obtain ⟨evs, h1, h2, h3, h4, h5, h6⟩ :=
    legacy_second_pass (wm_sync_legacy_groups_files w) hnd1 hk
  refine ⟨evs, h1, h6, h3, h4, h5, ?_, h2⟩
  unfold World.dir_entries
  rw [h2]
  split_ifs with h
  · rw [h]; rfl
  · rfl

theorem wm_sync_legacy_groups_files_second_run_witness :
    (sample_legacy_world.dir_entries.map fun x => x.name).Nodup
    ∧ ∃ evs,
      (wm_sync_legacy_groups_files (wm_sync_legacy_groups_files sample_legacy_world)).trace
        = (wm_sync_legacy_groups_files sample_legacy_world).trace ++ evs
      ∧ (∀ e ∈ evs, ∀ n, e ≠ Event.unlink_group_file n)
      ∧ (wm_sync_legacy_groups_files (wm_sync_legacy_groups_files sample_legacy_world)).agents
          = (wm_sync_legacy_groups_files sample_legacy_world).agents
      ∧ (wm_sync_legacy_groups_files (wm_sync_legacy_groups_files sample_legacy_world)).assignments
          = (wm_sync_legacy_groups_files sample_legacy_world).assignments
      ∧ (wm_sync_legacy_groups_files (wm_sync_legacy_groups_files sample_legacy_world)).groups
          = (wm_sync_legacy_groups_files sample_legacy_world).groups
      ∧ (wm_sync_legacy_groups_files
            (wm_sync_legacy_groups_files sample_legacy_world)).dir_entries
          = (wm_sync_legacy_groups_files sample_legacy_world).dir_entries
      ∧ (wm_sync_legacy_groups_files
            (wm_sync_legacy_groups_files sample_legacy_world)).groups_dir
          = (if (wm_sync_legacy_groups_files sample_legacy_world).groups_dir = some [] then none
             else (wm_sync_legacy_groups_files sample_legacy_world).groups_dir) :=
  ⟨by decide, wm_sync_legacy_groups_files_second_run sample_legacy_world (by decide)⟩

/-- C17, counterexample. On a worker whose legacy directory holds the single
file `5`, the first run removes the file and leaves the directory in place,
empty; the second run, with nothing changed in between, removes the
directory. -/
theorem wm_sync_legacy_groups_files_second_run_rmdir :
    (wm_sync_legacy_groups_files one_file_worker).groups_dir = some []
    ∧ (wm_sync_legacy_groups_files (wm_sync_legacy_groups_files one_file_worker)).groups_dir
        = none
    ∧ (wm_sync_legacy_groups_files (wm_sync_legacy_groups_files one_file_worker)).trace
        = (wm_sync_legacy_groups_files one_file_worker).trace ++ [.rmdir_groups_dir] := by
  decide

/-! ## Scheduler: proofs -/

/-- C18. In a periodic cycle that started at `tstart` and ended at `tend`,
with the sleep time within the range of the `unsigned int` that `sleep`
takes, the scheduler sleeps `interval - (tend - tstart)` seconds without a
warning when the elapsed time does not exceed the interval, and does not sleep
and warns when it does; in both cases the time slept is
`max 0 (interval - (tend - tstart))`, and the warning is emitted exactly when
the elapsed time exceeds the interval. -/
theorem periodic_sleep_spec (interval tstart tend : Int)
    (hfit : tstart + interval - tend < 2 ^ 32) :
    (tend - tstart ≤ interval →
      periodic_sleep interval tstart tend = (some (interval - (tend - tstart)).toNat, false))
    ∧ (interval < tend - tstart → periodic_sleep interval tstart tend = (none, true))
    ∧ (((periodic_sleep interval tstart tend).1.getD 0 : Nat) : Int)
        = max 0 (interval - (tend - tstart))
    ∧ ((periodic_sleep interval tstart tend).2 = true ↔ interval < tend - tstart) := by
  unfold periodic_sleep
  by_cases h : tstart + interval - tend ≥ 0
  · have hmod : (tstart + interval - tend) % 2 ^ 32 = tstart + interval - tend :=
      Int.emod_eq_of_lt h hfit
    have he : interval - (tend - tstart) = tstart + interval - tend := by ring
    simp only [h, if_true, hmod]
    refine ⟨fun _ => by rw [he], fun h2 => by omega, ?_, ?_⟩
    · simp only [Option.getD_some]
      rw [Int.toNat_of_nonneg h, he, max_eq_right h]
    · simp only [Bool.false_eq_true, false_iff]
      omega
  · simp only [h, if_false]
    refine ⟨fun h2 => by omega, fun _ => trivial, ?_, ?_⟩
    · simp only [Option.getD_none]
      rw [max_eq_left (by omega)]
      rfl
    · simp only [true_iff]
      omega

theorem periodic_sleep_spec_witness :
    (1000 : Int) + 60 - 1025 < 2 ^ 32
    ∧ periodic_sleep 60 1000 1025 = (some 35, false)
    ∧ periodic_sleep 60 1000 1100 = (none, true) :=
  ⟨by decide,
   by simpa using (periodic_sleep_spec 60 1000 1025 (by decide)).1 (by decide),
   by decide⟩

/-! ## Periodic cycle: proofs -/

theorem sync_insert_entry_no_read (w : World) (e : keyentry) :
    ∃ evs, (sync_insert_entry w e).trace = w.trace ++ evs ∧ Event.read_keys ∉ evs := by
  unfold sync_insert_entry
  by_cases h0 : atoi e.id = 0
  · exact ⟨[], by simp [h0]⟩
  · simp only [h0, if_false, wdb_insert_agent_trace, get_agent_group_snd, World.log,
      List.append_assoc]
    exact ⟨_, rfl, by simp⟩

theorem sync_delete_agent_no_read (keys : keystore) (w : World) (a : Int) :
    ∃ evs, (sync_delete_agent keys w a).trace = w.trace ++ evs ∧ Event.read_keys ∉ evs := by
  unfold sync_delete_agent
  by_cases h1 : OS_IsAllowedID keys (snprintf_id a) = -1
  · simp only [h1, if_true, wdb_get_agent_name_snd]
    by_cases h2 : a ∈ w.remove_agent_fails
    · have hr : wdb_remove_agent a (w.log (.get_agent_name a))
          = (-1, (w.log (.get_agent_name a)).log (.remove_agent a)) := by
        unfold wdb_remove_agent
        simp [World.log, h2]
      rw [hr]
      simp only [World.log, List.append_assoc]
      exact ⟨_, rfl, by simp⟩
    · have hr : wdb_remove_agent a (w.log (.get_agent_name a))
          = (0, { w with agents := w.agents.filter (fun r => r.id ≠ a),
                         trace := w.trace ++ [.get_agent_name a] ++ [.remove_agent a] }) := by
        unfold wdb_remove_agent
        simp [World.log, h2]
      rw [hr]
      simp only [lt_self_iff_false, if_false]
      cases (wdb_get_agent_name a w).1 with
      | none =>
        simp only [OS_RemoveAgentTimestamp, OS_RemoveCounter, wdbc_query_remove,
          List.append_assoc]
        exact ⟨_, rfl, by simp⟩
      | some name =>
        by_cases hn : name = ""
        · simp only [hn, if_true, OS_RemoveAgentTimestamp, OS_RemoveCounter, wdbc_query_remove,
            List.append_assoc]
          exact ⟨_, rfl, by simp⟩
        · simp only [hn, if_false, OS_RemoveAgentTimestamp, OS_RemoveCounter, wdbc_query_remove,
            delete_diff, List.append_assoc]
          exact ⟨_, rfl, by simp⟩
  · exact ⟨[], by simp [h1]⟩

theorem fold_no_read {α : Type} (f : World → α → World)
    (hf : ∀ w a, ∃ evs, (f w a).trace = w.trace ++ evs ∧ Event.read_keys ∉ evs)
    (l : List α) :
    ∀ w : World, ∃ evs, (l.foldl f w).trace = w.trace ++ evs ∧ Event.read_keys ∉ evs := by
  induction l with
  | nil => intro w; exact ⟨[], by simp⟩
  | cons e es ih =>
    intro w
    obtain ⟨a, ha, ha2⟩ := hf w e
    obtain ⟨b, hb, hb2⟩ := ih (f w e)
    refine ⟨a ++ b, ?_, ?_⟩
    · rw [List.foldl_cons, hb, ha, List.append_assoc]
    · intro hx
      rcases List.mem_append.1 hx with h | h
      · exact ha2 h
      · exact hb2 h

theorem sync_keys_with_wdb_no_read (keys : keystore) (w : World) :
    ∃ evs, (sync_keys_with_wdb keys w).trace = w.trace ++ evs ∧ Event.read_keys ∉ evs := by
  obtain ⟨a, ha, ha2⟩ := fold_no_read sync_insert_entry sync_insert_entry_no_read keys w
  obtain ⟨b, hb, hb2⟩ := fold_no_read (sync_delete_agent keys) (sync_delete_agent_no_read keys)
    ((keys.foldl sync_insert_entry w).ids.takeWhile (fun a => a ≠ -1))
    ((keys.foldl sync_insert_entry w).log .get_all_agents)
  cases hl : w.get_all_agents_fails with
  | true =>
    refine ⟨a ++ [Event.get_all_agents], ?_, ?_⟩
    · rw [sync_keys_with_wdb_of_null keys w hl]
      simp only [World.log, ha, List.append_assoc]
    · intro hx
      rcases List.mem_append.1 hx with h | h
      · exact ha2 h
      · simp at h
  | false =>
    refine ⟨a ++ Event.get_all_agents :: b, ?_, ?_⟩
    · rw [sync_keys_with_wdb_eq keys w hl, hb]
      simp only [World.log, ha, List.append_assoc, List.singleton_append]
    · intro hx
      rcases List.mem_append.1 hx with h | h
      · exact ha2 h
      · rcases List.mem_cons.1 h with h | h
        · cases h
        · exact hb2 h

theorem wm_sync_agents_events (master_first_time : Bool) (w : World) :
    ∃ evs, (wm_sync_agents master_first_time w).trace = w.trace ++ evs
      ∧ (Event.read_keys ∈ evs ↔ (w.is_worker = true ∨ master_first_time = true))
      ∧ (¬ (w.is_worker = true ∨ master_first_time = true) →
          wm_sync_agents master_first_time w = w) := by
  by_cases hc : (w.is_worker || (!w.is_worker && master_first_time)) = true
  · have hc2 : w.is_worker = true ∨ master_first_time = true := by
      cases hw : w.is_worker <;> cases hm : master_first_time <;> simp [hw, hm] at hc ⊢
    obtain ⟨evs, h1, -⟩ := sync_keys_with_wdb_no_read w.client_keys (w.log .read_keys)
    refine ⟨Event.read_keys :: evs, ?_, by simp [hc2], fun h => absurd hc2 h⟩
    unfold wm_sync_agents OS_ReadKeys
    rw [if_pos hc]
    show (sync_keys_with_wdb w.client_keys (w.log .read_keys)).trace = _
    rw [h1]
    simp only [World.log, List.append_assoc, List.singleton_append]
  · have hc2 : ¬ (w.is_worker = true ∨ master_first_time = true) := by
      cases hw : w.is_worker <;> cases hm : master_first_time <;> simp [hw, hm] at hc ⊢
    have e : wm_sync_agents master_first_time w = w := by
      unfold wm_sync_agents
      rw [if_neg hc]
    exact ⟨[], by simp [e], by simp [hc2], fun _ => e⟩

theorem clean_group_entry_no_read (w : World) (d : GroupFile) :
    ∃ evs, (clean_group_entry w d).trace = w.trace ++ evs ∧ Event.read_keys ∉ evs := by
  unfold clean_group_entry
  by_cases hh : not_hidden d.name = true
  · rw [if_pos hh]
    by_cases hid : atoi d.name ≤ 0
    · exact ⟨[], by simp [hid]⟩
    · simp only [hid, if_false, wdb_get_agent_name_snd]
      cases (wdb_get_agent_name (atoi d.name) w).1 with
      | none => exact ⟨_, rfl, by simp⟩
      | some name =>
        by_cases hn : name = ""
        · simp only [hn, if_true, unlink_group_file, World.log, List.append_assoc]
          exact ⟨_, rfl, by simp⟩
        · simp only [hn, if_false]
          exact ⟨_, rfl, by simp⟩
  · rw [if_neg hh]
    exact ⟨[], by simp⟩

theorem clean_wdb_entry_no_read (P : Paths) (w : World) (d : String) :
    ∃ evs, (clean_wdb_entry P w d).trace = w.trace ++ evs ∧ Event.read_keys ∉ evs := by
  unfold clean_wdb_entry
  cases d.toList.head? with
  | none => exact ⟨[], by simp⟩
  | some c0 =>
    simp only [wdb_get_agent_name_snd]
    by_cases h1 : c0.isDigit = true
    · rw [if_pos h1]
      by_cases h2 : '.' ∈ d.toList
      · rw [if_pos h2]
        by_cases h3 : strtol_int d > 0 ∧ (strtol_end d).take 3 = ['.', 'd', 'b']
        · rw [if_pos h3]
          cases (wdb_get_agent_name (strtol_int d) w).1 with
          | none => exact ⟨_, rfl, by simp⟩
          | some name =>
            by_cases hn : name = ""
            · by_cases h4 : (P.WDB2_DIR ++ "/" ++ d).utf8ByteSize < PATH_MAX
              · simp only [hn, h4, if_true, remove_wdb_file, World.log, List.append_assoc]
                exact ⟨_, rfl, by simp⟩
              · simp only [hn, h4, if_true, if_false]
                exact ⟨_, rfl, by simp⟩
            · simp only [hn, if_false]
              exact ⟨_, rfl, by simp⟩
        · rw [if_neg h3]
          exact ⟨[], by simp⟩
      · rw [if_neg h2]
        exact ⟨[], by simp⟩
    · rw [if_neg h1]
      exact ⟨[], by simp⟩

theorem wm_clean_dangling_groups_events (P : Paths) (w : World) :
    ∃ evs, (wm_clean_dangling_groups P w).trace = w.trace ++ Event.opendir P.GROUPS_DIR :: evs
      ∧ Event.read_keys ∉ evs := by
  unfold wm_clean_dangling_groups
  cases w.groups_dir with
  | none => exact ⟨[], rfl, by simp⟩
  | some entries =>
    obtain ⟨evs, h1, h2⟩ := fold_no_read clean_group_entry clean_group_entry_no_read entries
      (w.log (.opendir P.GROUPS_DIR))
    refine ⟨evs, ?_, h2⟩
    show (entries.foldl clean_group_entry (w.log (.opendir P.GROUPS_DIR))).trace = _
    rw [h1]
    simp [World.log]

theorem wm_clean_dangling_wdb_dbs_events (P : Paths) (w : World) :
    ∃ evs, (wm_clean_dangling_wdb_dbs P w).trace = w.trace ++ Event.opendir P.WDB2_DIR :: evs
      ∧ Event.read_keys ∉ evs := by
  unfold wm_clean_dangling_wdb_dbs
  cases w.wdb_dir with
  | none => exact ⟨[], rfl, by simp⟩
  | some entries =>
    obtain ⟨evs, h1, h2⟩ := fold_no_read (clean_wdb_entry P) (clean_wdb_entry_no_read P) entries
      (w.log (.opendir P.WDB2_DIR))
    refine ⟨evs, ?_, h2⟩
    show (entries.foldl (clean_wdb_entry P) (w.log (.opendir P.WDB2_DIR))).trace = _
    rw [h1]
    simp [World.log]

theorem wm_check_agents_events (st : CheckAgents) (w : World) :
    ∃ ka, (wm_check_agents st w).2.trace = w.trace ++ Event.stat_keys :: ka
      ∧ (Event.read_keys ∈ ka ↔
          w.is_worker = true
          ∧ ∃ m i, w.keys_stat = some (m, i) ∧ (m ≠ st.timestamp ∨ i ≠ st.inode))
      ∧ (wm_check_agents st w).1
          = (match w.keys_stat with
             | some (m, i) => if m ≠ st.timestamp ∨ i ≠ st.inode then ⟨m, i⟩ else st
             | none => st) := by
  unfold wm_check_agents
  cases hk : w.keys_stat with
  | none => exact ⟨[], rfl, by simp, rfl⟩
  | some mi =>
    obtain ⟨m, i⟩ := mi
    by_cases hc : m ≠ st.timestamp ∨ i ≠ st.inode
    · obtain ⟨evs, h1, h2, -⟩ := wm_sync_agents_events false (w.log .stat_keys)
      refine ⟨evs, ?_, ?_, by simp [hc]⟩
      · simp only [hc, if_true]
        rw [h1]
        simp [World.log]
      · rw [h2]
        constructor
        · intro h
          rcases h with h | h
          · exact ⟨h, m, i, rfl, hc⟩
          · cases h
        · intro h
          exact Or.inl h.1
    · refine ⟨[], by simp only [hc, if_false]; rfl, ?_, by simp only [hc, if_false]⟩
      constructor
      · intro h; simp at h
      · rintro ⟨-, m2, i2, h, hc2⟩
        cases h
        exact absurd hc2 hc

/-- C19 (as amended). With `sync_agents` set, every cycle of the periodic loop
checks `client.keys` with `stat`, then runs `wm_sync_multi_groups` on the
shared directory and the three sweeps, in this order; the keys are read and
reconciled in the cycle exactly when the node is a worker, `stat` succeeds and
the modification time or the inode differs from the ones remembered from the
last reconciliation, which are then remembered in turn. With `sync_agents`
unset the cycle does nothing. -/
theorem periodic_work_cycle (P : Paths) (st : CheckAgents) (w : World) :
    periodic_work P false st w = (st, w)
    ∧ (periodic_work P true st w).1
        = (match w.keys_stat with
           | some (m, i) => if m ≠ st.timestamp ∨ i ≠ st.inode then ⟨m, i⟩ else st
           | none => st)
    ∧ ∃ ka g d,
        (periodic_work P true st w).2.trace
          = w.trace ++ (Event.stat_keys :: ka
              ++ (Event.update_groups P.SHAREDCFG_DIR :: Event.opendir P.GROUPS_DIR :: g
              ++ (Event.cldir_legacy_dbs :: Event.opendir P.WDB2_DIR :: d)))
        ∧ Event.read_keys ∉ g ∧ Event.read_keys ∉ d
        ∧ (Event.read_keys ∈ ka ↔
            w.is_worker = true
            ∧ ∃ m i, w.keys_stat = some (m, i) ∧ (m ≠ st.timestamp ∨ i ≠ st.inode)) := by
  obtain ⟨ka, h1, h2, h3⟩ := wm_check_agents_events st w
  obtain ⟨g, h4, h5⟩ := wm_clean_dangling_groups_events P
    (wm_sync_multi_groups P.SHAREDCFG_DIR (wm_check_agents st w).2)
  obtain ⟨d, h6, h7⟩ := wm_clean_dangling_wdb_dbs_events P
    (wm_clean_dangling_legacy_dbs (wm_clean_dangling_groups P
      (wm_sync_multi_groups P.SHAREDCFG_DIR (wm_check_agents st w).2)))
  refine ⟨rfl, h3, ka, g, d, ?_, h5, h7, h2⟩
  show (wm_clean_dangling_wdb_dbs P (wm_clean_dangling_legacy_dbs (wm_clean_dangling_groups P
      (wm_sync_multi_groups P.SHAREDCFG_DIR (wm_check_agents st w).2)))).trace = _
  rw [h6]
  show (wm_clean_dangling_groups P
      (wm_sync_multi_groups P.SHAREDCFG_DIR (wm_check_agents st w).2)).trace
        ++ [Event.cldir_legacy_dbs] ++ Event.opendir P.WDB2_DIR :: d = _
  rw [h4]
  show (wm_check_agents st w).2.trace ++ [Event.update_groups P.SHAREDCFG_DIR]
        ++ Event.opendir P.GROUPS_DIR :: g
        ++ [Event.cldir_legacy_dbs] ++ Event.opendir P.WDB2_DIR :: d = _
  rw [h1]
  simp

/-- C19, witness: the first cycle of the sample worker remembers the
modification time 100 and the inode 7 of `client.keys`, and a cycle with
`sync_agents` unset leaves everything as it was. -/
theorem periodic_work_cycle_witness :
    (periodic_work sample_paths true ⟨0, 0⟩ sample_cycle_world).1 = ⟨100, 7⟩
    ∧ periodic_work sample_paths false ⟨0, 0⟩ sample_cycle_world = (⟨0, 0⟩, sample_cycle_world) :=
  ⟨(periodic_work_cycle sample_paths ⟨0, 0⟩ sample_cycle_world).2.1,
   (periodic_work_cycle sample_paths ⟨0, 0⟩ sample_cycle_world).1⟩

/-- C19, counterexample. On a worker whose `client.keys` file does not change,
the first cycle of the periodic loop reads and reconciles the keys, and the
second cycle, which starts from what the first one remembered, does not. -/
theorem periodic_work_second_cycle_skips_keys :
    Event.read_keys ∈ (periodic_work sample_paths true ⟨0, 0⟩ sample_cycle_world).2.trace
    ∧ Event.read_keys ∉
        (periodic_work sample_paths true
          (periodic_work sample_paths true ⟨0, 0⟩ sample_cycle_world).1
          (periodic_work sample_paths true ⟨0, 0⟩ sample_cycle_world).2).2.trace.drop
          (periodic_work sample_paths true ⟨0, 0⟩ sample_cycle_world).2.trace.length := by
  decide

/-! ## Reactive dispatch: proofs -/

theorem split_last_slash_none (l : List Char) (h : '/' ∉ l) : split_last_slash l = none := by
  induction l with
  | nil => rfl
  | cons c cs ih =>
    have h1 : c ≠ '/' := fun e => h (by simp [e])
    have h2 : '/' ∉ cs := fun e => h (List.mem_cons_of_mem _ e)
    simp [split_last_slash, ih h2, h1]

theorem split_last_slash_append (d f : List Char) (hf : '/' ∉ f) :
    split_last_slash (d ++ '/' :: f) = some (d, f) := by
  induction d with
  | nil => simp [split_last_slash, split_last_slash_none f hf]
  | cons c cs ih => simp [split_last_slash, ih]

theorem reactive_dispatch_of_split (P : Paths) (dir file : String) (w : World)
    (hk : dir ++ "/" ++ file ≠ P.KEYS_FILE) (hf : '/' ∉ file.toList) :
    reactive_dispatch P (dir ++ "/" ++ file) w = (wm_sync_file P dir file w).2 := by
  unfold reactive_dispatch
  rw [if_neg hk]
  have hl : (dir ++ "/" ++ file).toList = dir.toList ++ '/' :: file.toList := by
    simp [String.toList]
  rw [hl, split_last_slash_append _ _ hf]
  rfl

theorem utf8ByteSize_append (s t : String) :
    (s ++ t).utf8ByteSize = s.utf8ByteSize + t.utf8ByteSize := by
  cases s with
  | mk a =>
    cases t with
    | mk b =>
      show (String.mk (a ++ b)).utf8ByteSize = _
      simp only [String.utf8ByteSize_mk, String.utf8Len_append]

/-- C20. For the key `dirname/name` that the reader builds from a watched
directory and the name of a record (a file name: at most `NAME_MAX` bytes and
no `/`; the directory leaving room for it in `PATH_MAX`): when the key equals
`KEYS_FILE` the dispatcher runs `wm_sync_agents(false)` and nothing else;
otherwise the key is split at its last `/` into `dirname` and `name`, and
`wm_sync_shared_group(name)` is run when `dirname` equals `SHAREDCFG_DIR`, and
only then: for any other directory the state is left as it was and
`wm_sync_file` returns `OS_INVALID`. -/
theorem reactive_dispatch_spec (P : Paths) (w : World) (dirname name : String)
    (hname : name.utf8ByteSize ≤ NAME_MAX) (hslash : '/' ∉ name.toList)
    (hdir : dirname.utf8ByteSize + 1 + NAME_MAX < PATH_MAX) :
    (inotify_path dirname name = P.KEYS_FILE →
        reactive_dispatch P (inotify_path dirname name) w = wm_sync_agents false w)
    ∧ split_last_slash (inotify_path dirname name).toList = some (dirname.toList, name.toList)
    ∧ (inotify_path dirname name ≠ P.KEYS_FILE →
        (dirname = P.SHAREDCFG_DIR →
            wm_sync_file P dirname name w = wm_sync_shared_group name w
            ∧ reactive_dispatch P (inotify_path dirname name) w
                = (wm_sync_shared_group name w).2)
        ∧ (dirname ≠ P.SHAREDCFG_DIR →
            wm_sync_file P dirname name w = (OS_INVALID, w)
            ∧ reactive_dispatch P (inotify_path dirname name) w = w)) := by
  have hsize : (dirname ++ "/" ++ name).utf8ByteSize < PATH_MAX := by
    rw [utf8ByteSize_append, utf8ByteSize_append]
    have h1 : ("/" : String).utf8ByteSize = 1 := rfl
    omega
  have hl : (inotify_path dirname name).toList = dirname.toList ++ '/' :: name.toList := by
    simp [inotify_path, String.toList]
  refine ⟨?_, ?_, ?_⟩
  · intro hk
    unfold reactive_dispatch
    rw [if_pos hk]
  · rw [hl, split_last_slash_append _ _ hslash]
  · intro hk
    have hd : reactive_dispatch P (inotify_path dirname name) w
        = (wm_sync_file P dirname name w).2 :=
      reactive_dispatch_of_split P dirname name w hk hslash
    constructor
    · intro h1
      have e : wm_sync_file P dirname name w = wm_sync_shared_group name w := by
        unfold wm_sync_file
        rw [if_neg (not_le.2 hsize), if_pos h1]
      exact ⟨e, by rw [hd, e]⟩
    · intro h1
      have e : wm_sync_file P dirname name w = (OS_INVALID, w) := by
        unfold wm_sync_file
        rw [if_neg (not_le.2 hsize), if_neg h1]
      exact ⟨e, by rw [hd, e]⟩

theorem reactive_dispatch_spec_witness :
    reactive_dispatch sample_paths (inotify_path "etc" "client.keys") sample_groups_world
        = wm_sync_agents false sample_groups_world
    ∧ reactive_dispatch sample_paths (inotify_path "etc/shared" "db") sample_groups_world
        = (wm_sync_shared_group "db" sample_groups_world).2
    ∧ reactive_dispatch sample_paths (inotify_path "queue/agent-groups" "005")
        sample_groups_world = sample_groups_world :=
  ⟨(reactive_dispatch_spec sample_paths sample_groups_world "etc" "client.keys"
      (by decide) (by decide) (by decide)).1 (by decide),
   (((reactive_dispatch_spec sample_paths sample_groups_world "etc/shared" "db"
      (by decide) (by decide) (by decide)).2.2 (by decide)).1 rfl).2,
   (((reactive_dispatch_spec sample_paths sample_groups_world "queue/agent-groups" "005"
      (by decide) (by decide) (by decide)).2.2 (by decide)).2 (by decide)).2⟩

/-! ## Notification reader: proofs -/

theorem wm_inotify_events_cons (P : Paths) (W : Watches) (dir file : String)
    (event : inotify_event) (rest : List inotify_event) (s : Coalescer) :
    wm_inotify_events P W dir file (event :: rest) s
      = match wm_inotify_event P W dir file event with
        | .too_large => s
        | .push dirname name =>
          wm_inotify_events P W dir file rest (wm_inotify_push dirname name s)
        | _ => wm_inotify_events P W dir file rest s := by
  rw [wm_inotify_events]

theorem wm_inotify_event_of_hidden (P : Paths) (W : Watches) (dir file : String)
    (event : inotify_event) (hh : event.name.toList.head? = some '.') :
    wm_inotify_event P W dir file event
      = if event.len > IN_BUFFER_SIZE then .too_large else .hidden := by
  unfold wm_inotify_event
  by_cases hl : event.len > IN_BUFFER_SIZE
  · rw [if_pos hl, if_pos hl]
  · rw [if_neg hl, if_neg hl, if_pos hh]

theorem wm_inotify_event_of_unsubscribed (P : Paths) (W : Watches) (dir file : String)
    (event : inotify_event) (h1 : event.wd ≠ W.wd_agents) (h2 : event.wd ≠ W.wd_groups)
    (h3 : event.wd ≠ W.wd_shared_groups) :
    ∀ d n, wm_inotify_event P W dir file event ≠ .push d n := by
  intro d n
  unfold wm_inotify_event
  rw [if_neg h1, if_neg h2, if_neg h3]
  split_ifs <;> simp

theorem wm_inotify_event_push_cases (P : Paths) (W : Watches) (dir file : String)
    (event : inotify_event) (d n : String)
    (h : wm_inotify_event P W dir file event = .push d n) :
    n = event.name ∧ event.len ≤ IN_BUFFER_SIZE
    ∧ (d = dir ∨ d = P.GROUPS_DIR ∨ d = P.SHAREDCFG_DIR) := by
  unfold wm_inotify_event at h
  split_ifs at h with h1 h2 h3 h4 h5 h6 h7
  all_goals simp only [EventStep.push.injEq, reduceCtorEq] at h
  all_goals obtain ⟨rfl, rfl⟩ := h
  · exact ⟨rfl, not_lt.1 h1, Or.inl rfl⟩
  · exact ⟨rfl, not_lt.1 h1, Or.inr (Or.inl rfl)⟩
  · exact ⟨rfl, not_lt.1 h1, Or.inr (Or.inr rfl)⟩

/-- C21, the failing input. The subscription to `GROUPS_DIR` failed, so
`wd_groups` holds `-1`, the descriptor the kernel gives to the overflow record:
the reader takes the overflow record for a change in `GROUPS_DIR` and calls
`wm_inotify_push(GROUPS_DIR, "")`, which queues the key `queue/agent-groups/`.
With three successful subscriptions the same record is logged and skipped. -/
theorem wm_inotify_start_overflow_pushes :
    failed_groups_watches = ⟨1, -1, 2⟩
    ∧ wm_inotify_event sample_paths failed_groups_watches "etc" "client.keys" overflow_event
        = .push "queue/agent-groups" ""
    ∧ (wm_inotify_start sample_paths failed_groups_watches [overflow_event]
          (coalescer_init 0)).map (fun s => s.queue.data) = some ["queue/agent-groups/"]
    ∧ wm_inotify_event sample_paths (wm_inotify_setup true 1 2 3) "etc" "client.keys"
        overflow_event = .overflow := by
  decide

/-- C22. A record whose name begins with `.` never reaches `wm_inotify_push`,
whatever its watch descriptor and mask: the coalescer is left as it was and
decoding goes on (or stops, on a record too large). A record that passes the
length test and the hidden-name filter and carries the descriptor of the watch
on `GROUPS_DIR`, respectively on `SHAREDCFG_DIR` (a descriptor that no earlier
watch of the chain has), is handed to `wm_inotify_push` with that directory and
its name, that is with the key `<directory>/<name>`. -/
theorem wm_inotify_event_filter (P : Paths) (W : Watches) (dir file : String)
    (event : inotify_event) (rest : List inotify_event) (s : Coalescer) :
    (event.name.toList.head? = some '.' →
      (∀ d n, wm_inotify_event P W dir file event ≠ .push d n)
      ∧ wm_inotify_events P W dir file (event :: rest) s
          = if event.len > IN_BUFFER_SIZE then s else wm_inotify_events P W dir file rest s)
    ∧ (event.len ≤ IN_BUFFER_SIZE → event.name.toList.head? ≠ some '.' →
        event.wd = W.wd_groups → event.wd ≠ W.wd_agents →
        wm_inotify_event P W dir file event = .push P.GROUPS_DIR event.name
        ∧ wm_inotify_events P W dir file (event :: rest) s
            = wm_inotify_events P W dir file rest (wm_inotify_push P.GROUPS_DIR event.name s)
        ∧ inotify_path P.GROUPS_DIR event.name = P.GROUPS_DIR ++ "/" ++ event.name)
    ∧ (event.len ≤ IN_BUFFER_SIZE → event.name.toList.head? ≠ some '.' →
        event.wd = W.wd_shared_groups → event.wd ≠ W.wd_agents → event.wd ≠ W.wd_groups →
        wm_inotify_event P W dir file event = .push P.SHAREDCFG_DIR event.name
        ∧ wm_inotify_events P W dir file (event :: rest) s
            = wm_inotify_events P W dir file rest
                (wm_inotify_push P.SHAREDCFG_DIR event.name s)
        ∧ inotify_path P.SHAREDCFG_DIR event.name = P.SHAREDCFG_DIR ++ "/" ++ event.name) := by
  refine ⟨?_, ?_, ?_⟩
  · intro hh
    have hs := wm_inotify_event_of_hidden P W dir file event hh
    constructor
    · intro d n
      rw [hs]
      split_ifs <;> simp
    · rw [wm_inotify_events_cons, hs]
      split_ifs <;> rfl
  · intro hl hh hg ha
    have hs : wm_inotify_event P W dir file event = .push P.GROUPS_DIR event.name := by
      unfold wm_inotify_event
      rw [if_neg (not_lt.2 hl), if_neg hh, if_neg ha, if_pos hg]
    exact ⟨hs, by rw [wm_inotify_events_cons, hs], rfl⟩
  · intro hl hh hsg ha hg
    have hs : wm_inotify_event P W dir file event = .push P.SHAREDCFG_DIR event.name := by
      unfold wm_inotify_event
      rw [if_neg (not_lt.2 hl), if_neg hh, if_neg ha, if_neg hg, if_pos hsg]
    exact ⟨hs, by rw [wm_inotify_events_cons, hs], rfl⟩

theorem wm_inotify_event_filter_witness :
    wm_inotify_event sample_paths (wm_inotify_setup true 1 2 3) "etc" "client.keys"
        ⟨2, 8, 16, "005"⟩ = .push "queue/agent-groups" "005"
    ∧ wm_inotify_event sample_paths (wm_inotify_setup true 1 2 3) "etc" "client.keys"
        ⟨3, 256, 16, "web"⟩ = .push "etc/shared" "web"
    ∧ ∀ d n, wm_inotify_event sample_paths (wm_inotify_setup true 1 2 3) "etc" "client.keys"
        ⟨3, 256, 16, ".tmp"⟩ ≠ .push d n :=
  ⟨((wm_inotify_event_filter sample_paths (wm_inotify_setup true 1 2 3) "etc" "client.keys"
      ⟨2, 8, 16, "005"⟩ [] (coalescer_init 0)).2.1 (by decide) (by decide) (by decide)
      (by decide)).1,
   ((wm_inotify_event_filter sample_paths (wm_inotify_setup true 1 2 3) "etc" "client.keys"
      ⟨3, 256, 16, "web"⟩ [] (coalescer_init 0)).2.2 (by decide) (by decide) (by decide)
      (by decide) (by decide)).1,
   ((wm_inotify_event_filter sample_paths (wm_inotify_setup true 1 2 3) "etc" "client.keys"
      ⟨3, 256, 16, ".tmp"⟩ [] (coalescer_init 0)).1 (by decide)).1⟩

theorem split_last_slash_eq (l : List Char) :
    ∀ d f, split_last_slash l = some (d, f) → l = d ++ '/' :: f := by
  induction l with
  | nil => intro d f h; simp [split_last_slash] at h
  | cons c cs ih =>
    intro d f h
    rw [split_last_slash] at h
    cases hs : split_last_slash cs with
    | some p =>
      obtain ⟨d2, f2⟩ := p
      rw [hs] at h
      simp only [Option.some.injEq, Prod.mk.injEq] at h
      obtain ⟨rfl, rfl⟩ := h
      rw [ih d2 f2 hs]
      rfl
    | none =>
      rw [hs] at h
      by_cases hc : c = '/'
      · simp only [hc, if_true, Option.some.injEq, Prod.mk.injEq] at h
        obtain ⟨rfl, rfl⟩ := h
        rw [hc]
        rfl
      · simp [hc] at h

theorem inotify_path_of_split (path : String) (d f : List Char)
    (h : split_last_slash path.toList = some (d, f)) :
    inotify_path (String.mk d) (String.mk f) = path := by
  have e := split_last_slash_eq path.toList d f h
  unfold inotify_path
  apply String.ext
  show (String.mk d ++ "/" ++ String.mk f).data = path.data
  have e2 : path.data = d ++ '/' :: f := e
  rw [e2]
  simp

/-- C24. With `KEYS_FILE` split at its last slash into directory and base name
(a base name that is not itself hidden), a record that carries the descriptor
of the watch on that directory is handed to `wm_inotify_push` if and only if
its name equals the base name. When it does, the loop goes on with the state
that `wm_inotify_push(keysfile_dir, name)` returns, the key of that push is
`KEYS_FILE` itself, which is queued last when it fits, the queue has room and
the key is not pending yet, and the dispatcher run on that key is
`wm_sync_agents(false)`. When it does not, the loop goes on with the state as
it was. -/
theorem wm_inotify_event_keysfile (P : Paths) (W : Watches) (dir file : List Char)
    (event : inotify_event) (rest : List inotify_event) (s : Coalescer)
    (hsplit : split_last_slash P.KEYS_FILE.toList = some (dir, file))
    (hvis : file.head? ≠ some '.')
    (hlen : event.len ≤ IN_BUFFER_SIZE) (hwd : event.wd = W.wd_agents) :
    ((∃ d n, wm_inotify_event P W (String.mk dir) (String.mk file) event = .push d n)
        ↔ event.name = String.mk file)
    ∧ (event.name = String.mk file →
        wm_inotify_event P W (String.mk dir) (String.mk file) event
          = .push (String.mk dir) event.name
        ∧ inotify_path (String.mk dir) event.name = P.KEYS_FILE
        ∧ wm_inotify_events P W (String.mk dir) (String.mk file) (event :: rest) s
            = wm_inotify_events P W (String.mk dir) (String.mk file) rest
                (wm_inotify_push (String.mk dir) event.name s)
        ∧ wm_inotify_start P W [event] s
            = some (wm_inotify_push (String.mk dir) event.name s)
        ∧ (P.KEYS_FILE.utf8ByteSize < PATH_MAX + 1 → queue_full s.queue = false →
            P.KEYS_FILE ∉ s.ptable →
            (wm_inotify_push (String.mk dir) event.name s).queue.data
              = s.queue.data ++ [P.KEYS_FILE])
        ∧ ∀ w, reactive_dispatch P (inotify_path (String.mk dir) event.name) w
            = wm_sync_agents false w)
    ∧ (event.name ≠ String.mk file →
        wm_inotify_events P W (String.mk dir) (String.mk file) (event :: rest) s
          = wm_inotify_events P W (String.mk dir) (String.mk file) rest s
        ∧ wm_inotify_start P W [event] s = some s) := by
  have hstart : ∀ l, wm_inotify_start P W l s
      = some (wm_inotify_events P W (String.mk dir) (String.mk file) l s) := by
    intro l
    unfold wm_inotify_start
    rw [hsplit]
  by_cases hn : event.name = String.mk file
  · have hh : ¬ event.name.toList.head? = some '.' := by
      rw [hn]
      exact hvis
    have hs : wm_inotify_event P W (String.mk dir) (String.mk file) event
        = .push (String.mk dir) event.name := by
      unfold wm_inotify_event
      rw [if_neg (not_lt.2 hlen), if_neg hh, if_pos hwd, if_pos hn]
    have hp : inotify_path (String.mk dir) event.name = P.KEYS_FILE := by
      rw [hn]
      exact inotify_path_of_split P.KEYS_FILE dir file hsplit
    have hloop : ∀ l, wm_inotify_events P W (String.mk dir) (String.mk file) (event :: l) s
        = wm_inotify_events P W (String.mk dir) (String.mk file) l
            (wm_inotify_push (String.mk dir) event.name s) := by
      intro l
      rw [wm_inotify_events_cons, hs]
    refine ⟨⟨fun _ => hn, fun _ => ⟨_, _, hs⟩⟩, fun _ => ⟨hs, hp, hloop rest, ?_, ?_, ?_⟩,
      fun h => absurd hn h⟩
    · rw [hstart, hloop]
      rfl
    · intro hfit hroom hnew
      rw [wm_inotify_push_eq, hp, if_neg (by omega), if_neg (by simp [hroom]), if_neg hnew]
    · intro w
      rw [hp]
      unfold reactive_dispatch
      rw [if_pos rfl]
  · have hs : ∀ d n, wm_inotify_event P W (String.mk dir) (String.mk file) event
        ≠ .push d n := by
      intro d n
      unfold wm_inotify_event
      rw [if_neg (not_lt.2 hlen)]
      by_cases hh : event.name.toList.head? = some '.'
      · rw [if_pos hh]; simp
      · rw [if_neg hh, if_pos hwd, if_neg hn]; simp
    have hloop : ∀ l, wm_inotify_events P W (String.mk dir) (String.mk file) (event :: l) s
        = wm_inotify_events P W (String.mk dir) (String.mk file) l s := by
      intro l
      rw [wm_inotify_events_cons]
      unfold wm_inotify_event
      rw [if_neg (not_lt.2 hlen)]
      by_cases hh : event.name.toList.head? = some '.'
      · rw [if_pos hh]
      · rw [if_neg hh, if_pos hwd, if_neg hn]
    refine ⟨⟨fun ⟨d, n, h⟩ => absurd h (hs d n), fun h => absurd h hn⟩,
      fun h => absurd h hn, fun _ => ⟨hloop rest, ?_⟩⟩
    rw [hstart, hloop]
    rfl

theorem wm_inotify_event_keysfile_witness :
    (split_last_slash sample_paths.KEYS_FILE.toList = some ("etc".toList, "client.keys".toList)
      ∧ "client.keys".toList.head? ≠ some '.')
    ∧ wm_inotify_start sample_paths (wm_inotify_setup true 1 2 3) [⟨1, 8, 16, "client.keys"⟩]
        (coalescer_init 0)
        = some (wm_inotify_push "etc" "client.keys" (coalescer_init 0))
    ∧ (wm_inotify_push "etc" "client.keys" (coalescer_init 0)).queue.data
        = [sample_paths.KEYS_FILE]
    ∧ wm_inotify_start sample_paths (wm_inotify_setup true 1 2 3)
        [⟨1, 8, 16, "client.keys.bak"⟩] (coalescer_init 0) = some (coalescer_init 0) :=
  ⟨⟨by decide, by decide⟩,
   ((wm_inotify_event_keysfile sample_paths (wm_inotify_setup true 1 2 3) "etc".toList
      "client.keys".toList ⟨1, 8, 16, "client.keys"⟩ [] (coalescer_init 0) (by decide)
      (by decide) (by decide) (by decide)).2.1 (by decide)).2.2.2.1,
   ((wm_inotify_event_keysfile sample_paths (wm_inotify_setup true 1 2 3) "etc".toList
      "client.keys".toList ⟨1, 8, 16, "client.keys"⟩ [] (coalescer_init 0) (by decide)
      (by decide) (by decide) (by decide)).2.1 (by decide)).2.2.2.2.1 (by decide) (by decide)
      (by decide),
   ((wm_inotify_event_keysfile sample_paths (wm_inotify_setup true 1 2 3) "etc".toList
      "client.keys".toList ⟨1, 8, 16, "client.keys.bak"⟩ [] (coalescer_init 0) (by decide)
      (by decide) (by decide) (by decide)).2.2 (by decide)).2⟩

/-! ## Id format in the delete phase: proofs -/

theorem snprintf_id_of_lt (n : Int) (h0 : 0 ≤ n) (h : n < 10 ^ 8) :
    snprintf_id n = String.mk (fmt_03d n) := by
  obtain ⟨k, rfl⟩ := Int.eq_ofNat_of_zero_le h0
  have hk : k < 10 ^ 8 := by exact_mod_cast h
  have hlen : (Nat.toDigits 10 k).length ≤ 8 :=
    Nat.toDigitsCore_length 10 (by decide) (k + 1) k 8 hk (by decide)
  have hn : ¬ ((k : Int) < 0) := by omega
  have htake : (fmt_03d (k : Int)).take 8 = fmt_03d (k : Int) := by
    apply List.take_of_length_le
    simp only [fmt_03d, hn, if_false, Int.natAbs_ofNat, List.length_append, List.length_replicate]
    omega
  unfold snprintf_id
  rw [htake]

theorem sync_insert_entry_requests (w : World) (e : keyentry) :
    ∃ evs, (sync_insert_entry w e).trace = w.trace ++ evs
      ∧ (∀ m, Event.remove_agent m ∉ evs)
      ∧ (atoi e.id ≠ 0 → ∃ name ip key group,
          Event.insert_agent (atoi e.id) name ip key group ∈ evs) := by
  unfold sync_insert_entry
  by_cases h0 : atoi e.id = 0
  · exact ⟨[], by simp [h0], by simp, fun h => absurd h0 h⟩
  · simp only [h0, if_false, wdb_insert_agent_trace, get_agent_group_snd, World.log,
      List.append_assoc]
    exact ⟨_, rfl, by simp, fun _ => ⟨_, _, _, _, List.mem_cons_of_mem _ (List.mem_singleton.2 rfl)⟩⟩

theorem sync_insert_fold_requests (keys : keystore) :
    ∀ w : World, ∃ evs, (keys.foldl sync_insert_entry w).trace = w.trace ++ evs
      ∧ (∀ m, Event.remove_agent m ∉ evs)
      ∧ ∀ e ∈ keys, atoi e.id ≠ 0 → ∃ name ip key group,
          Event.insert_agent (atoi e.id) name ip key group ∈ evs := by
  induction keys with
  | nil => intro w; exact ⟨[], by simp, by simp, by simp⟩
  | cons k ks ih =>
    intro w
    obtain ⟨a, ha, ha2, ha3⟩ := sync_insert_entry_requests w k
    obtain ⟨b, hb, hb2, hb3⟩ := ih (sync_insert_entry w k)
    refine ⟨a ++ b, ?_, ?_, ?_⟩
    · rw [List.foldl_cons, hb, ha, List.append_assoc]
    · intro m hm
      rcases List.mem_append.1 hm with h | h
      · exact ha2 m h
      · exact hb2 m h
    · intro e he h0
      rcases List.mem_cons.1 he with rfl | he
      · obtain ⟨n, i, k2, g, h⟩ := ha3 h0
        exact ⟨n, i, k2, g, List.mem_append_left _ h⟩
      · obtain ⟨n, i, k2, g, h⟩ := hb3 e he h0
        exact ⟨n, i, k2, g, List.mem_append_right _ h⟩

theorem sync_delete_agent_requests (keys : keystore) (w : World) (a : Int) :
    ∃ evs, (sync_delete_agent keys w a).trace = w.trace ++ evs
      ∧ ∀ m, Event.remove_agent m ∈ evs
          ↔ (m = a ∧ OS_IsAllowedID keys (snprintf_id a) = -1) := by
  unfold sync_delete_agent
  by_cases h1 : OS_IsAllowedID keys (snprintf_id a) = -1
  · simp only [h1, if_true, wdb_get_agent_name_snd]
    by_cases h2 : a ∈ w.remove_agent_fails
    · have hr : wdb_remove_agent a (w.log (.get_agent_name a))
          = (-1, (w.log (.get_agent_name a)).log (.remove_agent a)) := by
        unfold wdb_remove_agent
        simp [World.log, h2]
      rw [hr]
      simp only [World.log, List.append_assoc]
      exact ⟨_, rfl, by simp [eq_comm]⟩
    · have hr : wdb_remove_agent a (w.log (.get_agent_name a))
          = (0, { w with agents := w.agents.filter (fun r => r.id ≠ a),
                         trace := w.trace ++ [.get_agent_name a] ++ [.remove_agent a] }) := by
        unfold wdb_remove_agent
        simp [World.log, h2]
      rw [hr]
      simp only [lt_self_iff_false, if_false]
      cases (wdb_get_agent_name a w).1 with
      | none =>
        simp only [OS_RemoveAgentTimestamp, OS_RemoveCounter, wdbc_query_remove,
          List.append_assoc]
        exact ⟨_, rfl, by simp [eq_comm]⟩
      | some name =>
        by_cases hn : name = ""
        · simp only [hn, if_true, OS_RemoveAgentTimestamp, OS_RemoveCounter, wdbc_query_remove,
            List.append_assoc]
          exact ⟨_, rfl, by simp [eq_comm]⟩
        · simp only [hn, if_false, OS_RemoveAgentTimestamp, OS_RemoveCounter, wdbc_query_remove,
            delete_diff, List.append_assoc]
          exact ⟨_, rfl, by simp [eq_comm]⟩
  · exact ⟨[], by simp [h1], by simp [h1]⟩

theorem sync_delete_fold_requests (keys : keystore) (l : List Int) :
    ∀ w : World, ∃ evs, (l.foldl (sync_delete_agent keys) w).trace = w.trace ++ evs
      ∧ ∀ m, Event.remove_agent m ∈ evs
          ↔ (m ∈ l ∧ OS_IsAllowedID keys (snprintf_id m) = -1) := by
  induction l with
  | nil => intro w; exact ⟨[], by simp, by simp⟩
  | cons a l ih =>
    intro w
    obtain ⟨x, hx, hx2⟩ := sync_delete_agent_requests keys w a
    obtain ⟨y, hy, hy2⟩ := ih (sync_delete_agent keys w a)
    refine ⟨x ++ y, ?_, ?_⟩
    · rw [List.foldl_cons, hy, hx, List.append_assoc]
    · intro m
      rw [List.mem_append, hx2, hy2, List.mem_cons]
      constructor
      · rintro (⟨rfl, h⟩ | ⟨h1, h2⟩)
        · exact ⟨Or.inl rfl, h⟩
        · exact ⟨Or.inr h1, h2⟩
      · rintro ⟨rfl | h1, h2⟩
        · exact Or.inl ⟨rfl, h2⟩
        · exact Or.inr ⟨h1, h2⟩

/-- C23 (as amended). In one call of `sync_keys_with_wdb` in which the store
answers the listing of the agent ids, with agent ids non-negative and below
10^8 (what the id buffer holds), for every agent id `n` the store holds when
the delete phase starts: the phase requests the removal of `n` if and only if
no keystore entry has as id string the `"%03d"` rendering of `n`, and `n` is
in the store afterwards if and only if such an entry exists or the store
rejects the removal. Consequently a keystore entry with the integer value
`n`, when no entry has the id string in that form, is upserted in the first
phase and its removal is requested in the second, which deletes the record
when the store accepts it. -/
theorem sync_keys_with_wdb_id_format (keys : keystore) (w : World)
    (hstore : ∀ r ∈ w.agents, 0 ≤ r.id ∧ r.id < 10 ^ 8)
    (hkeys : ∀ e ∈ keys, 0 ≤ atoi e.id ∧ atoi e.id < 10 ^ 8)
    (hlist : w.get_all_agents_fails = false) :
    (∀ n ∈ (keys.foldl sync_insert_entry w).ids,
        (Event.remove_agent n ∈ (sync_keys_with_wdb keys w).trace.drop w.trace.length
            ↔ ¬ ∃ e ∈ keys, e.id = String.mk (fmt_03d n))
        ∧ (n ∈ (sync_keys_with_wdb keys w).ids
            ↔ ((∃ e ∈ keys, e.id = String.mk (fmt_03d n)) ∨ n ∈ w.remove_agent_fails)))
    ∧ ∀ e ∈ keys, atoi e.id ≠ 0 → (∀ e2 ∈ keys, e2.id ≠ String.mk (fmt_03d (atoi e.id))) →
        (∃ name ip key group, Event.insert_agent (atoi e.id) name ip key group
            ∈ (sync_keys_with_wdb keys w).trace.drop w.trace.length)
        ∧ Event.remove_agent (atoi e.id)
            ∈ (sync_keys_with_wdb keys w).trace.drop w.trace.length
        ∧ (atoi e.id ∉ w.remove_agent_fails →
            atoi e.id ∉ (sync_keys_with_wdb keys w).ids) := by
  have hrange : ∀ n ∈ (keys.foldl sync_insert_entry w).ids, 0 ≤ n ∧ n < 10 ^ 8 := by
    intro n hn
    rcases (sync_insert_fold_ids keys w n).1 hn with h | ⟨-, e, he, rfl⟩
    · obtain ⟨r, hr, rfl⟩ := List.mem_map.1 h
      exact hstore r hr
    · exact hkeys e he
  have htw : (keys.foldl sync_insert_entry w).ids.takeWhile (fun a => a ≠ -1)
      = (keys.foldl sync_insert_entry w).ids :=
    takeWhile_ne_of_forall _ (fun n hn => by have := (hrange n hn).1; omega)
  obtain ⟨a, ha, ha2, ha3⟩ := sync_insert_fold_requests keys w
  obtain ⟨b, hb, hb2⟩ := sync_delete_fold_requests keys (keys.foldl sync_insert_entry w).ids
    ((keys.foldl sync_insert_entry w).log .get_all_agents)
  have htrace : (sync_keys_with_wdb keys w).trace
      = w.trace ++ (a ++ Event.get_all_agents :: b) := by
    rw [sync_keys_with_wdb_eq keys w hlist, htw, hb]
    simp only [World.log, ha, List.append_assoc, List.singleton_append]
  have hrem : ∀ m, Event.remove_agent m ∈ (sync_keys_with_wdb keys w).trace.drop w.trace.length
      ↔ (m ∈ (keys.foldl sync_insert_entry w).ids
          ∧ OS_IsAllowedID keys (snprintf_id m) = -1) := by
    intro m
    rw [htrace, List.drop_left, List.mem_append, List.mem_cons, hb2]
    constructor
    · rintro (h | h | h)
      · exact absurd h (ha2 m)
      · cases h
      · exact h
    · exact fun h => Or.inr (Or.inr h)
  have hins : ∀ e ∈ keys, atoi e.id ≠ 0 → ∃ name ip key group,
      Event.insert_agent (atoi e.id) name ip key group
        ∈ (sync_keys_with_wdb keys w).trace.drop w.trace.length := by
    intro e he h0
    obtain ⟨n, i, k, g, h⟩ := ha3 e he h0
    rw [htrace, List.drop_left]
    exact ⟨n, i, k, g, List.mem_append_left _ h⟩
  have hfails : ((keys.foldl sync_insert_entry w).log .get_all_agents).remove_agent_fails
      = w.remove_agent_fails := (sync_insert_fold_frame keys w).1
  have hids : ∀ n, n ∈ (sync_keys_with_wdb keys w).ids
      ↔ (n ∈ (keys.foldl sync_insert_entry w).ids
          ∧ ¬ (OS_IsAllowedID keys (snprintf_id n) = -1 ∧ n ∉ w.remove_agent_fails)) := by
    intro n
    rw [sync_keys_with_wdb_eq keys w hlist, htw, sync_delete_fold_ids]
    unfold deletes
    rw [hfails]
    constructor
    · rintro ⟨h1, h2⟩
      exact ⟨h1, fun h => h2 ⟨h1, h⟩⟩
    · rintro ⟨h1, h2⟩
      exact ⟨h1, fun h => h2 h.2⟩
  have hallow : ∀ n, 0 ≤ n → n < 10 ^ 8 →
      (OS_IsAllowedID keys (snprintf_id n) = -1
        ↔ ¬ ∃ e ∈ keys, e.id = String.mk (fmt_03d n)) := by
    intro n h0 h1
    rw [OS_IsAllowedID_eq_neg_one, snprintf_id_of_lt n h0 h1]
    constructor
    · rintro h ⟨e, he, h2⟩
      exact h e he h2
    · intro h e he h2
      exact h ⟨e, he, h2⟩
  refine ⟨?_, ?_⟩
  · intro n hn
    obtain ⟨h0, h1⟩ := hrange n hn
    refine ⟨?_, ?_⟩
    · rw [hrem, hallow n h0 h1]
      exact ⟨fun h => h.2, fun h => ⟨hn, h⟩⟩
    · rw [hids, hallow n h0 h1]
      constructor
      · rintro ⟨-, h⟩
        by_cases hex : ∃ e ∈ keys, e.id = String.mk (fmt_03d n)
        · exact Or.inl hex
        · right
          by_contra hnf
          exact h ⟨hex, hnf⟩
      · rintro (h | h)
        · exact ⟨hn, fun hc => hc.1 h⟩
        · exact ⟨hn, fun hc => hc.2 h⟩
  · intro e he h0 hno
    obtain ⟨g0, g1⟩ := hkeys e he
    have hn : atoi e.id ∈ (keys.foldl sync_insert_entry w).ids :=
      (sync_insert_fold_ids keys w _).2 (Or.inr ⟨h0, e, he, rfl⟩)
    have hal : OS_IsAllowedID keys (snprintf_id (atoi e.id)) = -1 :=
      (hallow _ g0 g1).2 (fun ⟨e2, he2, h⟩ => hno e2 he2 h)
    refine ⟨hins e he h0, (hrem _).2 ⟨hn, hal⟩, ?_⟩
    intro hok hmem
    exact ((hids _).1 hmem).2 ⟨hal, hok⟩

theorem sync_keys_with_wdb_id_format_witness :
    (∃ name ip key group, Event.insert_agent 1 name ip key group
        ∈ (sync_keys_with_wdb short_id_keys sample_store_world).trace.drop
            sample_store_world.trace.length)
    ∧ Event.remove_agent 1
        ∈ (sync_keys_with_wdb short_id_keys sample_store_world).trace.drop
            sample_store_world.trace.length
    ∧ (sync_keys_with_wdb short_id_keys sample_store_world).ids = [] :=
  ⟨((sync_keys_with_wdb_id_format short_id_keys sample_store_world (by decide) (by decide)
      rfl).2 ⟨"1", "A", "any", none, "k1"⟩ (by decide) (by decide) (by decide)).1,
   ((sync_keys_with_wdb_id_format short_id_keys sample_store_world (by decide) (by decide)
      rfl).2 ⟨"1", "A", "any", none, "k1"⟩ (by decide) (by decide) (by decide)).2.1,
   by decide⟩

/-- C23, counterexample to the claim as stated: the store holds the agents 1
and 3 and rejects the removal of agent 3; the keystore has the ids `001` and
`002`, neither of them the rendering `003` of 3. The second phase requests the
removal of agent 3, the store rejects it, and agent 3 is kept although no
keystore entry has its rendering. Likewise agent 123456789 is kept by the
keystore entry `12345678`, the eight characters of its rendering that the id
buffer holds. -/
theorem sync_keys_with_wdb_keeps_rejected_id :
    String.mk (fmt_03d 3) = "003"
    ∧ (∀ e ∈ sample_keys, e.id ≠ String.mk (fmt_03d 3))
    ∧ (3 : Int) ∈ (sync_keys_with_wdb sample_keys rejecting_store_world).ids
    ∧ Event.remove_agent 3 ∈ (sync_keys_with_wdb sample_keys rejecting_store_world).trace
    ∧ String.mk (fmt_03d 123456789) = "123456789"
    ∧ snprintf_id 123456789 = "12345678"
    ∧ (123456789 : Int)
        ∈ (sync_keys_with_wdb [⟨"12345678", "S", "any", none, "k8"⟩] long_id_world).ids := by
  decide

end WmDatabase
